import Mathlib

/-!
Skyline by divide and conquer (`minic/testcase/c/2.c`) and `remove_duplicates`
(`minic/testcase/c/1.c`).

A shallow embedding of the two C test programs.

* C `int` values are `Int`; the programs only copy and compare coordinates, and index
  arithmetic stays far below `2^31`, so no wrap-around is modelled.
* Sizes and loop indices (`skyline_size`, `i1`, `i2`) start at `0` and are only ever
  incremented; they are `Nat`.
* A pointer into one of the two scratch buffers is a `Ptr`: the buffer it points into
  (`1` or `2`) and a row offset.  Every load and store is bounds-checked against the
  `1024` rows of the buffer; an access outside is the fault `out_of_bounds`
  (undefined behaviour in C).
* The scratch buffers are uninitialised stack arrays; their initial contents are an
  arbitrary `Mem` given as a parameter.
* `while` loops and the recursion take a fuel argument; running out of it is the
  fault `out_of_fuel`.
-/

namespace Minic

/-- Ways a run of the embedded code can go wrong. -/
inductive Fault where
  | assert_failed
  | out_of_bounds
  | out_of_fuel
  deriving DecidableEq, Repr

/-- One `int[2]` row: `row.1` is `[0]` (the x coordinate), `row.2` is `[1]` (the height). -/
abbrev Row := Int × Int

/-- A building `int*` with `[0] = left`, `[1] = right`, `[2] = height`. -/
abbrev Building := Int × Int × Int

/-- A pointer of type `int (*)[2]`: the scratch buffer it points into and the row offset. -/
structure Ptr where
  buf : Nat
  off : Int
  deriving DecidableEq, Repr

/-- Contents of the scratch buffers, row by row. -/
abbrev Mem := Ptr → Row

/-- Number of rows of `skyline_buf1` and of `skyline_buf2`. -/
def BUF_ROWS : Int := 1024

/-- Pointer plus integer, `p + k`. -/
def Ptr.add (p : Ptr) (k : Int) : Ptr := ⟨p.buf, p.off + k⟩

/-- Pointer difference `p - q` in rows (meaningful when both point into one buffer). -/
def Ptr.diff (p q : Ptr) : Int := p.off - q.off

/-- The row `p` points to lies inside `skyline_buf1` or `skyline_buf2`. -/
def in_bounds (p : Ptr) : Prop := (p.buf = 1 ∨ p.buf = 2) ∧ 0 ≤ p.off ∧ p.off < BUF_ROWS

instance (p : Ptr) : Decidable (in_bounds p) :=
  inferInstanceAs (Decidable ((p.buf = 1 ∨ p.buf = 2) ∧ 0 ≤ p.off ∧ p.off < BUF_ROWS))

/-- A pointer with room: it points into one of the two buffers, at a non-negative row. -/
def valid_base (p : Ptr) : Prop := (p.buf = 1 ∨ p.buf = 2) ∧ 0 ≤ p.off

instance (p : Ptr) : Decidable (valid_base p) :=
  inferInstanceAs (Decidable ((p.buf = 1 ∨ p.buf = 2) ∧ 0 ≤ p.off))

/-- Bounds-checked read of the row at `p`. -/
def load (mem : Mem) (p : Ptr) : Except Fault Row :=
  if in_bounds p then .ok (mem p) else .error .out_of_bounds

/-- Bounds-checked write of the row at `p`. -/
def store (mem : Mem) (p : Ptr) (v : Row) : Except Fault Mem :=
  if in_bounds p then .ok (Function.update mem p v) else .error .out_of_bounds

/-- `int_max` of `2.c`. -/
def int_max (a b : Int) : Int :=
  if a > b then a else b

/-- `get_the_other_buf` of `2.c`: the returned pointer and the value stored in `*other`. -/
def get_the_other_buf (buf1 buf2 buf : Ptr) (buf_id : Int) : Ptr × Int :=
  if buf_id = 1 then
    (buf2.add (buf.diff buf1), 2)
  else
    (buf1.add (buf.diff buf2), 1)

/-- `skyline_add_key_point` of `2.c`; returns the memory and `*skyline_size` afterwards. -/
def skyline_add_key_point (mem : Mem) (skyline : Ptr) (skyline_size : Nat) (x y : Int) :
    Except Fault (Mem × Nat) :=
  let append : Except Fault (Mem × Nat) :=
    (store mem (skyline.add skyline_size) (x, y)).bind fun mem1 =>
      .ok (mem1, skyline_size + 1)
  if skyline_size > 0 then
    (load mem (skyline.add ((skyline_size : Int) - 1))).bind fun last =>
      if last.2 = y then .ok (mem, skyline_size) else append
  else append

/-- `building_to_skyline` of `2.c`. -/
def building_to_skyline (building : Building) (mem : Mem) (skyline : Ptr)
    (skyline_size : Nat) : Except Fault (Mem × Nat) :=
  let left := building.1
  let right := building.2.1
  let height := building.2.2
  (skyline_add_key_point mem skyline skyline_size left height).bind fun r =>
    skyline_add_key_point r.1 skyline r.2 right 0

/-- Local variables of `merge_skyline` that live across iterations of its `while` loop. -/
structure MergeState where
  mem : Mem
  skyline_size : Nat
  i1 : Nat
  i2 : Nat
  h1 : Int
  h2 : Int

/-- The `while (i1 < skyline1_size && i2 < skyline2_size)` loop of `merge_skyline`.
`x` and `y` are uninitialised in C (here `0`); one of the two `if`s always assigns them. -/
def merge_loop (skyline1 : Ptr) (skyline1_size : Nat) (skyline2 : Ptr) (skyline2_size : Nat)
    (skyline : Ptr) : Nat → MergeState → Except Fault MergeState
  | fuel, st =>
    if st.i1 < skyline1_size ∧ st.i2 < skyline2_size then
      match fuel with
      | 0 => .error .out_of_fuel
      | fuel + 1 =>
        (load st.mem (skyline1.add st.i1)).bind fun p1 =>
        (load st.mem (skyline2.add st.i2)).bind fun p2 =>
          let x1 := p1.1
          let y1 := p1.2
          let x2 := p2.1
          let y2 := p2.2
          let x : Int := 0
          let y : Int := 0
          let a := if x1 ≤ x2 then (st.i1 + 1, x1, y1, y1) else (st.i1, x, y, st.h1)
          let b := if x2 ≤ x1 then (st.i2 + 1, x2, y2, y2) else (st.i2, a.2.1, a.2.2.1, st.h2)
          let i1 := a.1
          let h1 := a.2.2.2
          let i2 := b.1
          let x := b.2.1
          let h2 := b.2.2.2
          (skyline_add_key_point st.mem skyline st.skyline_size x (int_max h1 h2)).bind fun r =>
            merge_loop skyline1 skyline1_size skyline2 skyline2_size skyline fuel
              ⟨r.1, r.2, i1, i2, h1, h2⟩
    else .ok st

/-- A loop `for (; i < size; i = i + 1)` of `merge_skyline` that copies the rest of `src`;
`count` is the number of iterations left, `size - i`. -/
def drain_loop (src skyline : Ptr) : Nat → Nat → Mem → Nat → Except Fault (Mem × Nat)
  | 0, _, mem, skyline_size => .ok (mem, skyline_size)
  | count + 1, i, mem, skyline_size =>
    (load mem (src.add i)).bind fun p =>
      let x := p.1
      let y := p.2
      (skyline_add_key_point mem skyline skyline_size x y).bind fun r =>
        drain_loop src skyline count (i + 1) r.1 r.2

/-- `merge_skyline` of `2.c`. -/
def merge_skyline (mem : Mem) (skyline1 : Ptr) (skyline1_size : Nat) (skyline2 : Ptr)
    (skyline2_size : Nat) (skyline : Ptr) (skyline_size : Nat) : Except Fault (Mem × Nat) :=
  (merge_loop skyline1 skyline1_size skyline2 skyline2_size skyline
      (skyline1_size + skyline2_size) ⟨mem, skyline_size, 0, 0, 0, 0⟩).bind fun st =>
    (drain_loop skyline1 skyline (skyline1_size - st.i1) st.i1 st.mem st.skyline_size).bind
      fun r =>
        drain_loop skyline2 skyline (skyline2_size - st.i2) st.i2 r.1 r.2

/-- Bounds-checked `buildings[l]`. -/
def building_at (buildings : List Building) (l : Int) : Except Fault Building :=
  if 0 ≤ l then
    match buildings.get? l.toNat with
    | some b => .ok b
    | none => .error .out_of_bounds
  else .error .out_of_bounds

/-- `get_skyline` of `2.c`.  The two `for` loops with an empty body are omitted.
`(r - l) / 2` is C division, truncating toward zero. -/
def get_skyline (buildings : List Building) (skyline_buf1 skyline_buf2 : Ptr) :
    Nat → Int → Int → Mem → Ptr → Nat → Int → Except Fault (Mem × Nat)
  | 0, _, _, _, _, _, _ => .error .out_of_fuel
  | fuel + 1, l, r, mem, skyline, skyline_size, buf_id =>
    if l = r then
      (building_at buildings l).bind fun building =>
        building_to_skyline building mem skyline skyline_size
    else if ¬ l < r then .error .assert_failed
    else
      let m := l + Int.tdiv (r - l) 2
      let ob := get_the_other_buf skyline_buf1 skyline_buf2 skyline buf_id
      let merge_buf := ob.1
      let other_buf := ob.2
      let skyline1 := merge_buf
      let skyline1_size := 0
      let skyline2 := merge_buf.add (2 * (m - l + 1))
      let skyline2_size := 0
      (get_skyline buildings skyline_buf1 skyline_buf2 fuel l m mem skyline1 skyline1_size
          other_buf).bind fun r1 =>
        (get_skyline buildings skyline_buf1 skyline_buf2 fuel (m + 1) r r1.1 skyline2
            skyline2_size other_buf).bind fun r2 =>
          merge_skyline r2.1 skyline1 r1.2 skyline2 r2.2 skyline skyline_size

/-- The copy loop at the end of `getSkyline`: `ret[i][j] = skyline[i][j]` for the
remaining `count` rows from row `i` on. -/
def copy_rows (mem : Mem) (skyline : Ptr) : Nat → Nat → Except Fault (List Row)
  | 0, _ => .ok []
  | count + 1, i =>
    (load mem (skyline.add i)).bind fun p =>
      (copy_rows mem skyline count (i + 1)).bind fun rest => .ok (p :: rest)

/-- What `getSkyline` hands back: `*returnSize`, the rows of `ret`, and
`*returnColumnSizes`. -/
structure SkylineResult where
  returnSize : Nat
  ret : List Row
  returnColumnSizes : List Nat
  deriving DecidableEq, Repr

/-- `getSkyline` of `2.c`.  `mem` is the initial content of the two uninitialised
scratch buffers; `skyline_buf1` is buffer `1`, `skyline_buf2` is buffer `2`.
The recursion gets `buildingsSize + 1` units of fuel. -/
def getSkyline (buildings : List Building) (buildingsSize : Int) (mem : Mem) :
    Except Fault SkylineResult :=
  let skyline_buf1 : Ptr := ⟨1, 0⟩
  let skyline_buf2 : Ptr := ⟨2, 0⟩
  let skyline := skyline_buf1
  let skyline_size := 0
  (get_skyline buildings skyline_buf1 skyline_buf2 (buildingsSize.toNat + 1) 0
      (buildingsSize - 1) mem skyline skyline_size 1).bind fun r =>
    (copy_rows r.1 skyline r.2 0).bind fun rows =>
      .ok ⟨r.2, rows, List.replicate r.2 2⟩

/-- Buffers filled with zeros, a concrete initial memory. -/
def zero_mem : Mem := fun _ => (0, 0)

/-! ## List view of the algorithm

The same computations on plain lists of rows, without buffers.  The embedded functions
above are shown to compute these, and the geometric reasoning is done on lists. -/

/-- Rows `p[0], ..., p[n-1]` as stored in memory. -/
def read_rows (mem : Mem) (p : Ptr) (n : Nat) : List Row :=
  (List.range n).map fun (i : Nat) => mem (p.add (i : Int))

/-- What `skyline_add_key_point` does to the list of rows of the output skyline. -/
def add_point (s : List Row) (x y : Int) : List Row :=
  match s.getLast? with
  | some last => if last.2 = y then s else s ++ [(x, y)]
  | none => s ++ [(x, y)]

/-- What one of the two `for` loops of `merge_skyline` does to the output rows. -/
def drain_list (src out : List Row) : List Row :=
  src.foldl (fun o p => add_point o p.1 p.2) out

/-- What `merge_skyline` does from the `while` loop on, on lists: the rows of the two
inputs still to be consumed, the running heights, and the output rows so far. -/
def merge_list : Nat → List Row → List Row → Int → Int → List Row → List Row
  | _, [], s2, _, _, out => drain_list s2 out
  | _, p1 :: t1, [], _, _, out => drain_list (p1 :: t1) out
  | 0, _ :: _, _ :: _, _, _, out => out
  | fuel + 1, p1 :: t1, p2 :: t2, h1, h2, out =>
    if p1.1 < p2.1 then
      merge_list fuel t1 (p2 :: t2) p1.2 h2 (add_point out p1.1 (int_max p1.2 h2))
    else if p2.1 < p1.1 then
      merge_list fuel (p1 :: t1) t2 h1 p2.2 (add_point out p2.1 (int_max h1 p2.2))
    else
      merge_list fuel t1 t2 p1.2 p2.2 (add_point out p2.1 (int_max p1.2 p2.2))

/-- The rows `merge_skyline` adds to the output `out` for the inputs `s1` and `s2`. -/
def merge_rows (s1 s2 out : List Row) : List Row :=
  merge_list (s1.length + s2.length) s1 s2 0 0 out

/-- The rows `get_skyline` writes for the range `[l, r]` into an empty output. -/
def skyline_rows (buildings : List Building) : Nat → Int → Int → List Row
  | 0, _, _ => []
  | fuel + 1, l, r =>
    if l = r then
      match buildings.get? l.toNat with
      | some b => add_point (add_point [] b.1 b.2.2) b.2.1 0
      | none => []
    else if ¬ l < r then []
    else
      let m := l + (r - l) / 2
      merge_rows (skyline_rows buildings fuel l m) (skyline_rows buildings fuel (m + 1) r) []

/-- The rows `getSkyline` returns for a building list, on lists. -/
def skyline_of (buildings : List Building) : List Row :=
  skyline_rows buildings (buildings.length + 1) 0 ((buildings.length : Int) - 1)

/-! ## Vocabulary of the specification -/

/-- Height of the last key point of `s` whose x-coordinate is `≤ x`, or `0` if there is none. -/
def height_at (s : List Row) (x : Int) : Int :=
  match (s.filter fun p => decide (p.1 ≤ x)).getLast? with
  | some p => p.2
  | none => 0

/-- Height of the step function of `s` at `x` when the height before the first key point
is `h`: a left-to-right scan that takes the height of every key point with x-coordinate
`≤ x`. -/
def level (h : Int) (s : List Row) (x : Int) : Int :=
  s.foldl (fun acc p => if p.1 ≤ x then p.2 else acc) h

/-- Strictly increasing x-coordinates. -/
def increasing_x (s : List Row) : Prop := s.Pairwise fun (a b : Row) => a.1 < b.1

instance (s : List Row) : Decidable (increasing_x s) :=
  inferInstanceAs (Decidable (s.Pairwise fun (a b : Row) => a.1 < b.1))

/-- No two consecutive key points have the same height. -/
def no_repeat (s : List Row) : Prop := s.Chain' fun (a b : Row) => a.2 ≠ b.2

instance (s : List Row) : Decidable (no_repeat s) :=
  inferInstanceAs (Decidable (s.Chain' fun (a b : Row) => a.2 ≠ b.2))

/-- What the merge relies on at every state of its sweep: `s1` and `s2` are the rows still
to be consumed, `h1` and `h2` the running heights, `out` the output so far. -/
structure merge_inv (s1 s2 : List Row) (h1 h2 : Int) (out : List Row) : Prop where
  inc1 : increasing_x s1
  inc2 : increasing_x s2
  ord1 : ∀ a ∈ out, ∀ b ∈ s1, a.1 < b.1
  ord2 : ∀ a ∈ out, ∀ b ∈ s2, a.1 < b.1
  end1 : s1 = [] → h1 = 0
  end2 : s2 = [] → h2 = 0
  last1 : ∀ q, s1.getLast? = some q → q.2 = 0
  last2 : ∀ q, s2.getLast? = some q → q.2 = 0
  nn1 : 0 ≤ h1
  nn2 : 0 ≤ h2
  pos1 : ∀ p ∈ s1, 0 ≤ p.2
  pos2 : ∀ p ∈ s2, 0 ≤ p.2

/-- The height of the merged skyline `m` at `x`, in terms of a state of the sweep: left of
all rows still to be consumed it is the height of the output so far, elsewhere it is the
maximum of the two inputs. -/
def merge_sem (m s1 s2 : List Row) (h1 h2 : Int) (out : List Row) (x : Int) : Prop :=
  ((∀ p ∈ s1, x < p.1) → (∀ p ∈ s2, x < p.1) → height_at m x = height_at out x)
  ∧ (¬ ((∀ p ∈ s1, x < p.1) ∧ (∀ p ∈ s2, x < p.1)) →
      height_at m x = max (level h1 s1 x) (level h2 s2 x))

/-- A building as the spec wants it: `left < right` and `height > 0`. -/
def valid_building (b : Building) : Prop := b.1 < b.2.1 ∧ 0 < b.2.2

instance (b : Building) : Decidable (valid_building b) :=
  inferInstanceAs (Decidable (b.1 < b.2.1 ∧ 0 < b.2.2))

/-- The building list is ordered by ascending `left`. -/
def sorted_by_left (buildings : List Building) : Prop :=
  buildings.Pairwise fun (a b : Building) => a.1 ≤ b.1

instance (buildings : List Building) : Decidable (sorted_by_left buildings) :=
  inferInstanceAs (Decidable (buildings.Pairwise fun (a b : Building) => a.1 ≤ b.1))

/-- Two skylines stored in buffer `2`: `[(1,3),(5,0)]` at row `0` and `[(1,4),(5,0)]` at
row `2`; everything else is zero. -/
def two_skylines_mem : Mem := fun p =>
  if p.buf = 2 then
    if p.off = 0 then (1, 3) else if p.off = 1 then (5, 0)
    else if p.off = 2 then (1, 4) else if p.off = 3 then (5, 0) else (0, 0)
  else (0, 0)

/-- Where `merge_skyline` finds its inputs and puts its output: the skylines `s1` and `s2`
are stored at `p1` and `p2` inside the buffers, and the `s1.length + s2.length` rows at `out`
are inside a buffer and apart from the rows of both inputs. -/
structure merge_layout (mem : Mem) (s1 s2 : List Row) (p1 p2 out : Ptr) : Prop where
  base1 : valid_base p1
  base2 : valid_base p2
  base_out : valid_base out
  fit1 : p1.off + s1.length ≤ 1024
  fit2 : p2.off + s2.length ≤ 1024
  fit_out : out.off + (s1.length + s2.length : Nat) ≤ 1024
  rows1 : read_rows mem p1 s1.length = s1
  rows2 : read_rows mem p2 s2.length = s2
  apart1 : ∀ a b : Nat, a < s1.length → b < s1.length + s2.length → p1.add a ≠ out.add b
  apart2 : ∀ a b : Nat, a < s2.length → b < s1.length + s2.length → p2.add a ≠ out.add b

/-- The skyline `[(1,3),(5,0)]` stored at row `0` of buffer `2`; everything else is zero. -/
def one_skyline_mem : Mem := fun p =>
  if p.buf = 2 then
    if p.off = 0 then (1, 3) else if p.off = 1 then (5, 0) else (0, 0)
  else (0, 0)

/-- The building covers `x`: `left ≤ x < right`. -/
def covers (b : Building) (x : Int) : Prop := b.1 ≤ x ∧ x < b.2.1

instance (b : Building) (x : Int) : Decidable (covers b x) :=
  inferInstanceAs (Decidable (b.1 ≤ x ∧ x < b.2.1))

/-- Maximum of a list of integers, or `0` for the empty list. -/
def max_or_zero (hs : List Int) : Int :=
  match hs.max? with
  | some h => h
  | none => 0

/-- Maximum height of the buildings that cover `x`, or `0` if there is none. -/
def max_cover (buildings : List Building) (x : Int) : Int :=
  max_or_zero ((buildings.filter fun b => decide (covers b x)).map fun b => b.2.2)

/-- Buildings `buildings[l], ..., buildings[r]`. -/
def slice (buildings : List Building) (l r : Int) : List Building :=
  (buildings.drop l.toNat).take (r - l + 1).toNat

/-- The rest of `merge_skyline` from a state of its `while` loop on: the loop, then the
two `for` loops. -/
def merge_from (skyline1 : Ptr) (skyline1_size : Nat) (skyline2 : Ptr) (skyline2_size : Nat)
    (skyline : Ptr) (fuel : Nat) (st : MergeState) : Except Fault (Mem × Nat) :=
  (merge_loop skyline1 skyline1_size skyline2 skyline2_size skyline fuel st).bind fun st1 =>
    (drain_loop skyline1 skyline (skyline1_size - st1.i1) st1.i1 st1.mem
        st1.skyline_size).bind fun r =>
      drain_loop skyline2 skyline (skyline2_size - st1.i2) st1.i2 r.1 r.2

/-! ## `remove_duplicates` of `1.c`

The array is a list of `Int`; the pointers `p`, `i` and `end` are row indices relative to
`nums`.  Every read and write is bounds-checked against the length of the array. -/

/-- Bounds-checked read `nums[i]`. -/
def nums_load (nums : List Int) (i : Int) : Except Fault Int :=
  if 0 ≤ i then
    match nums.get? i.toNat with
    | some v => .ok v
    | none => .error .out_of_bounds
  else .error .out_of_bounds

/-- Bounds-checked write `nums[i] = v`. -/
def nums_store (nums : List Int) (i : Int) (v : Int) : Except Fault (List Int) :=
  if 0 ≤ i ∧ i < nums.length then .ok (nums.set i.toNat v) else .error .out_of_bounds

/-- The loop `for (i = nums + 2; i != end; i = i + 1)` of `remove_duplicates`, from the
state `(nums, p, i)`; returns the array and `p` at loop exit. -/
def remove_duplicates_loop (end_ptr : Int) :
    Nat → List Int → Int → Int → Except Fault (List Int × Int)
  | fuel, nums, p, i =>
    if i ≠ end_ptr then
      match fuel with
      | 0 => .error .out_of_fuel
      | fuel + 1 =>
        (nums_load nums (p - 2)).bind fun a =>
          (nums_load nums i).bind fun b =>
            if a < b then
              (nums_store nums p b).bind fun nums1 =>
                remove_duplicates_loop end_ptr fuel nums1 (p + 1) (i + 1)
            else
              remove_duplicates_loop end_ptr fuel nums p (i + 1)
    else .ok (nums, p)

/-- `remove_duplicates` of `1.c`; returns the array afterwards and the returned `int`. -/
def remove_duplicates (nums : List Int) (numsSize : Int) : Except Fault (List Int × Int) :=
  if numsSize < 2 then .ok (nums, numsSize)
  else remove_duplicates_loop numsSize numsSize.toNat nums 2 2

/-- One step of the list view of `remove_duplicates`: `v` is accepted when it is strictly
greater than the value two places before the end of the accepted values. -/
def keep_two_step (acc : List Int) (v : Int) : List Int :=
  if acc.getD (acc.length - 2) 0 < v then acc ++ [v] else acc

/-- List view of `remove_duplicates`: the first two values are kept, every later value is
kept when it is strictly greater than the value accepted two places earlier. -/
def keep_two (nums : List Int) : List Int :=
  (nums.drop 2).foldl keep_two_step (nums.take 2)

/-- The spec's reading of `remove_duplicates`: a value is kept when it is strictly greater
than the previously accepted value. -/
def keep_greater_than_previous (nums : List Int) : List Int :=
  nums.foldl (fun acc v =>
    match acc.getLast? with
    | some a => if a < v then acc ++ [v] else acc
    | none => acc ++ [v]) []

/-- Strictly increasing list of integers. -/
def strictly_increasing (xs : List Int) : Prop := xs.Pairwise fun (a b : Int) => a < b

instance (xs : List Int) : Decidable (strictly_increasing xs) :=
  inferInstanceAs (Decidable (xs.Pairwise fun (a b : Int) => a < b))

/-- Non-decreasing list of integers. -/
def non_decreasing (xs : List Int) : Prop := xs.Pairwise fun (a b : Int) => a ≤ b

instance (xs : List Int) : Decidable (non_decreasing xs) :=
  inferInstanceAs (Decidable (xs.Pairwise fun (a b : Int) => a ≤ b))

/-- Every value is strictly smaller than the value two places later: no value occurs more
than twice in a non-decreasing list. -/
def two_apart (xs : List Int) : Prop :=
  ∀ j : Nat, j + 2 < xs.length → xs.getD j 0 < xs.getD (j + 2) 0

/-- The run either returns or stops at an access outside the buffers: it neither fails an
assertion nor runs out of fuel. -/
def only_oob {α : Type} (x : Except Fault α) : Prop :=
  ∀ e, x = .error e → e = Fault.out_of_bounds

/-- Precondition of a call `get_skyline(l, r)` inside the recursion started by `getSkyline`:
a non-empty range of building indices, fuel for it, an output pointer into the buffer
named by `buf_id`, and `2 * (r - l + 1)` rows from it on inside the buffer. -/
structure valid_call (buildings : List Building) (fuel : Nat) (l r : Int) (skyline : Ptr)
    (buf_id : Int) : Prop where
  lo : 0 ≤ l
  le : l ≤ r
  hi : r < buildings.length
  fuel_ok : r - l + 1 ≤ fuel
  id_ok : buf_id = 1 ∨ buf_id = 2
  buf_ok : (skyline.buf : Int) = buf_id
  off_ok : 0 ≤ skyline.off
  fit : skyline.off + 2 * (r - l + 1) ≤ 1024

/-- Two runs, from `mem` to `mem1` and from `mem2` to `mem3`, write the same values into
the same slots: every slot either ends with the same content in both, or is left as it
was in both. -/
def same_writes (mem mem1 mem2 mem3 : Mem) : Prop :=
  ∀ q, mem1 q = mem3 q ∨ (mem1 q = mem q ∧ mem3 q = mem2 q)

/-- One call of `get_skyline`: its arguments `l`, `r`, `skyline` and `buf_id`, and its depth
in the recursion. -/
structure Call where
  l : Int
  r : Int
  skyline : Ptr
  buf_id : Int
  depth : Nat

/-- The function `get_skyline` of `2.c` once more, run at depth `d` of the recursion and
listing the calls of `get_skyline` in the order they are entered: the call itself, then the
calls of the left recursive call, then, once that has returned, those of the right one.
Its result is that of `get_skyline` (`get_skyline_log_result`). -/
def get_skyline_log (buildings : List Building) (skyline_buf1 skyline_buf2 : Ptr) :
    Nat → Int → Int → Mem → Ptr → Nat → Int → Nat → List Call × Except Fault (Mem × Nat)
  | 0, l, r, _, skyline, _, buf_id, d => ([⟨l, r, skyline, buf_id, d⟩], .error .out_of_fuel)
  | fuel + 1, l, r, mem, skyline, skyline_size, buf_id, d =>
    if l = r then
      ([⟨l, r, skyline, buf_id, d⟩],
        (building_at buildings l).bind fun building =>
          building_to_skyline building mem skyline skyline_size)
    else if ¬ l < r then ([⟨l, r, skyline, buf_id, d⟩], .error .assert_failed)
    else
      let m := l + Int.tdiv (r - l) 2
      let ob := get_the_other_buf skyline_buf1 skyline_buf2 skyline buf_id
      let merge_buf := ob.1
      let other_buf := ob.2
      let skyline1 := merge_buf
      let skyline1_size := 0
      let skyline2 := merge_buf.add (2 * (m - l + 1))
      let skyline2_size := 0
      let left := get_skyline_log buildings skyline_buf1 skyline_buf2 fuel l m mem skyline1
        skyline1_size other_buf (d + 1)
      match left.2 with
      | .error e => (⟨l, r, skyline, buf_id, d⟩ :: left.1, .error e)
      | .ok r1 =>
        let right := get_skyline_log buildings skyline_buf1 skyline_buf2 fuel (m + 1) r r1.1
          skyline2 skyline2_size other_buf (d + 1)
        (⟨l, r, skyline, buf_id, d⟩ :: (left.1 ++ right.1),
          right.2.bind fun r2 =>
            merge_skyline r2.1 skyline1 r1.2 skyline2 r2.2 skyline skyline_size)

/-- The running height of one side of the merge after `i` of its rows `s` are consumed:
the height of row `i - 1`, or `0` when no row is consumed yet. -/
def running_height (s : List Row) (i : Nat) (h : Int) : Prop :=
  (i = 0 ∧ h = 0) ∨ ∃ j : Nat, i = j + 1 ∧ (s.getD j (0, 0)).2 = h

/-- A skyline in the form the algorithm produces it, relative to the height `h` before its
first key point: strictly increasing x, no two consecutive equal heights, and a first key
point whose height differs from `h`. -/
def canonical (h : Int) (s : List Row) : Prop :=
  increasing_x s ∧ no_repeat s ∧ ∀ p, s.head? = some p → p.2 ≠ h

/-! ## Memory lemmas -/

theorem int_max_eq_max (a b : Int) : int_max a b = max a b := by
  unfold int_max
  split <;> omega

theorem Ptr.add_inj (p : Ptr) (i j : Int) : p.add i = p.add j ↔ i = j := by
  simp [Ptr.add]

theorem read_rows_length (mem : Mem) (p : Ptr) (n : Nat) : (read_rows mem p n).length = n := by
  simp [read_rows]

theorem read_rows_zero (mem : Mem) (p : Ptr) : read_rows mem p 0 = [] := by
  simp [read_rows]

theorem read_rows_succ (mem : Mem) (p : Ptr) (n : Nat) :
    read_rows mem p (n + 1) = read_rows mem p n ++ [mem (p.add n)] := by
  simp [read_rows, List.range_succ]

theorem read_rows_congr (mem mem1 : Mem) (p : Ptr) (n : Nat)
    (h : ∀ i : Nat, i < n → mem1 (p.add i) = mem (p.add i)) :
    read_rows mem1 p n = read_rows mem p n := by
  unfold read_rows
  apply List.map_congr_left
  intro i hi
  exact h i (List.mem_range.mp hi)

theorem read_rows_getElem? (mem : Mem) (p : Ptr) (n i : Nat) (h : i < n) :
    (read_rows mem p n)[i]? = some (mem (p.add i)) := by
  simp [read_rows, List.getElem?_range h]

theorem in_bounds_add (p : Ptr) (k : Int) (hp : valid_base p) (h0 : 0 ≤ k)
    (h1 : p.off + k < 1024) : in_bounds (p.add k) := by
  obtain ⟨hb, ho⟩ := hp
  refine ⟨hb, ?_, ?_⟩
  · show 0 ≤ p.off + k
    omega
  · show p.off + k < BUF_ROWS
    unfold BUF_ROWS
    omega

/-- `skyline_add_key_point` succeeds when slot `[size]` is inside the buffer; it computes
`add_point` on the rows and changes no other slot than `[size]`. -/
theorem skyline_add_key_point_rows (mem : Mem) (p : Ptr) (n : Nat) (x y : Int)
    (hp : valid_base p) (hn : p.off + n < 1024) :
    ∃ mem1, skyline_add_key_point mem p n x y
        = .ok (mem1, (add_point (read_rows mem p n) x y).length)
      ∧ read_rows mem1 p (add_point (read_rows mem p n) x y).length
        = add_point (read_rows mem p n) x y
      ∧ ∀ q, q ≠ p.add n → mem1 q = mem q := by
  have hstore : in_bounds (p.add n) := in_bounds_add p n hp (by omega) hn
  have happ : read_rows (Function.update mem (p.add n) (x, y)) p (n + 1)
      = read_rows mem p n ++ [(x, y)] := by
    rw [read_rows_succ]
    congr 1
    · apply read_rows_congr
      intro i hi
      apply Function.update_noteq
      intro h
      have := (Ptr.add_inj p i n).mp h
      omega
    · simp
  cases n with
  | zero =>
    simp only [Nat.cast_zero] at hstore happ
    refine ⟨Function.update mem (p.add 0) (x, y), ?_, ?_, ?_⟩
    · simp [skyline_add_key_point, store, hstore, Except.bind, read_rows_zero, add_point]
    · simpa [read_rows_zero, add_point] using happ
    · intro q hq
      simp only [Nat.cast_zero] at hq
      exact Function.update_noteq hq _ _
  | succ k =>
    have hload : in_bounds (p.add (k : Int)) :=
      in_bounds_add p _ hp (by omega) (by omega)
    have hlast : (read_rows mem p (k + 1)).getLast? = some (mem (p.add k)) := by
      rw [read_rows_succ, List.getLast?_concat]
    simp only [Nat.cast_add, Nat.cast_one] at hstore happ
    by_cases hy : (mem (p.add k)).2 = y
    · refine ⟨mem, ?_, ?_, ?_⟩
      · simp [skyline_add_key_point, load, hload, Except.bind, add_point, hlast, hy,
          read_rows_length]
      · simp [add_point, hlast, hy, read_rows_length]
      · intro q _
        rfl
    · refine ⟨Function.update mem (p.add ((k : Int) + 1)) (x, y), ?_, ?_, ?_⟩
      · simp [skyline_add_key_point, load, hload, store, hstore, Except.bind, add_point,
          hlast, hy, read_rows_length]
      · simpa [add_point, hlast, hy, read_rows_length] using happ
      · intro q hq
        simp only [Nat.cast_add, Nat.cast_one] at hq
        exact Function.update_noteq hq _ _

theorem load_ok (mem : Mem) (q : Ptr) (h : in_bounds q) : load mem q = .ok (mem q) := by
  simp [load, h]

theorem add_point_length (s : List Row) (x y : Int) :
    s.length ≤ (add_point s x y).length ∧ (add_point s x y).length ≤ s.length + 1 := by
  unfold add_point
  split
  · split <;> simp
  · simp

theorem drain_list_cons (p : Row) (src out : List Row) :
    drain_list (p :: src) out = drain_list src (add_point out p.1 p.2) := by
  simp [drain_list]

theorem drop_read_rows (mem : Mem) (p : Ptr) (n i : Nat) (h : i < n) :
    (read_rows mem p n).drop i = mem (p.add i) :: (read_rows mem p n).drop (i + 1) := by
  have hlen : i < (read_rows mem p n).length := by rw [read_rows_length]; exact h
  rw [List.drop_eq_getElem_cons hlen]
  congr 1
  have h1 := read_rows_getElem? mem p n i h
  rw [List.getElem?_eq_getElem hlen] at h1
  exact Option.some.inj h1

/-- A `for` loop of `merge_skyline` succeeds when the rows it reads and the slots it may
write are inside the buffers and apart; it computes `drain_list` on the rows. -/
theorem drain_loop_rows (src out : Ptr) (hsrc : valid_base src) (hout : valid_base out)
    (count : Nat) : ∀ (i : Nat) (mem : Mem) (n : Nat),
    src.off + (i + count : Nat) ≤ 1024 → out.off + (n + count : Nat) ≤ 1024 →
    (∀ a b : Nat, a < i + count → n ≤ b → b < n + count → src.add a ≠ out.add b) →
    ∃ mem1,
      drain_loop src out count i mem n = .ok (mem1,
        (drain_list ((read_rows mem src (i + count)).drop i) (read_rows mem out n)).length)
      ∧ read_rows mem1 out
          (drain_list ((read_rows mem src (i + count)).drop i) (read_rows mem out n)).length
        = drain_list ((read_rows mem src (i + count)).drop i) (read_rows mem out n)
      ∧ ∀ q, (∀ b : Nat, n ≤ b → b < n + count → q ≠ out.add b) → mem1 q = mem q := by
  induction count with
  | zero =>
    intro i mem n _ _ _
    have hnil : (read_rows mem src (i + 0)).drop i = [] :=
      List.drop_eq_nil_of_le (by rw [read_rows_length]; omega)
    rw [hnil]
    refine ⟨mem, ?_, ?_, ?_⟩
    · simp [drain_loop, drain_list, read_rows_length]
    · simp [drain_list, read_rows_length]
    · intro q _
      rfl
  | succ c ih =>
    intro i mem n hsb hob hsep
    have hld : in_bounds (src.add (i : Int)) :=
      in_bounds_add src _ hsrc (by omega) (by omega)
    obtain ⟨mem1, hadd, hrows, hframe⟩ :=
      skyline_add_key_point_rows mem out n (mem (src.add i)).1 (mem (src.add i)).2 hout
        (by omega)
    have hlen := add_point_length (read_rows mem out n) (mem (src.add i)).1 (mem (src.add i)).2
    rw [read_rows_length] at hlen
    have hsrc_same : read_rows mem1 src (i + 1 + c) = read_rows mem src (i + 1 + c) := by
      apply read_rows_congr
      intro a ha
      apply hframe
      exact hsep a n (by omega) (by omega) (by omega)
    obtain ⟨mem2, hrun, hrows2, hframe2⟩ := ih (i + 1) mem1
      (add_point (read_rows mem out n) (mem (src.add i)).1 (mem (src.add i)).2).length
      (by omega) (by omega)
      (fun a b ha hb1 hb2 => hsep a b (by omega) (by omega) (by omega))
    have hdrop := drop_read_rows mem src (i + (c + 1)) i (by omega)
    have hidx : i + (c + 1) = i + 1 + c := by omega
    rw [hsrc_same, hrows] at hrun hrows2
    refine ⟨mem2, ?_, ?_, ?_⟩
    · rw [hdrop, drain_list_cons, hidx]
      simp only [drain_loop, load_ok mem _ hld, Except.bind, hadd]
      exact hrun
    · rw [hdrop, drain_list_cons, hidx]
      exact hrows2
    · intro q hq
      rw [hframe2 q (fun b hb1 hb2 => hq b (by omega) (by omega))]
      exact hframe q (hq n (by omega) (by omega))

theorem merge_skyline_eq_merge_from (mem : Mem) (p1 : Ptr) (n1 : Nat) (p2 : Ptr) (n2 : Nat)
    (out : Ptr) (n : Nat) :
    merge_skyline mem p1 n1 p2 n2 out n
      = merge_from p1 n1 p2 n2 out (n1 + n2) ⟨mem, n, 0, 0, 0, 0⟩ := rfl

theorem merge_list_nil_left (fuel : Nat) (s2 : List Row) (h1 h2 : Int) (out : List Row) :
    merge_list fuel [] s2 h1 h2 out = drain_list s2 out := by
  cases fuel <;> simp [merge_list]

theorem merge_list_nil_right (fuel : Nat) (s1 : List Row) (h1 h2 : Int) (out : List Row) :
    merge_list fuel s1 [] h1 h2 out = drain_list s1 out := by
  cases s1 <;> cases fuel <;> simp [merge_list, drain_list]

theorem merge_loop_done (p1 : Ptr) (n1 : Nat) (p2 : Ptr) (n2 : Nat) (out : Ptr) (fuel : Nat)
    (st : MergeState) (h : ¬ (st.i1 < n1 ∧ st.i2 < n2)) :
    merge_loop p1 n1 p2 n2 out fuel st = .ok st := by
  unfold merge_loop
  simp [h]

theorem merge_loop_step (p1 : Ptr) (n1 : Nat) (p2 : Ptr) (n2 : Nat) (out : Ptr) (fuel : Nat)
    (st : MergeState) (h : st.i1 < n1 ∧ st.i2 < n2)
    (hl1 : in_bounds (p1.add st.i1)) (hl2 : in_bounds (p2.add st.i2)) :
    merge_loop p1 n1 p2 n2 out (fuel + 1) st
      = (skyline_add_key_point st.mem out st.skyline_size
          (if (st.mem (p2.add st.i2)).1 ≤ (st.mem (p1.add st.i1)).1
            then (st.mem (p2.add st.i2)).1 else (st.mem (p1.add st.i1)).1)
          (int_max
            (if (st.mem (p1.add st.i1)).1 ≤ (st.mem (p2.add st.i2)).1
              then (st.mem (p1.add st.i1)).2 else st.h1)
            (if (st.mem (p2.add st.i2)).1 ≤ (st.mem (p1.add st.i1)).1
              then (st.mem (p2.add st.i2)).2 else st.h2))).bind fun r =>
          merge_loop p1 n1 p2 n2 out fuel
            ⟨r.1, r.2,
              if (st.mem (p1.add st.i1)).1 ≤ (st.mem (p2.add st.i2)).1
                then st.i1 + 1 else st.i1,
              if (st.mem (p2.add st.i2)).1 ≤ (st.mem (p1.add st.i1)).1
                then st.i2 + 1 else st.i2,
              if (st.mem (p1.add st.i1)).1 ≤ (st.mem (p2.add st.i2)).1
                then (st.mem (p1.add st.i1)).2 else st.h1,
              if (st.mem (p2.add st.i2)).1 ≤ (st.mem (p1.add st.i1)).1
                then (st.mem (p2.add st.i2)).2 else st.h2⟩ := by
  rw [merge_loop]
  simp only [h, and_self, if_true, load_ok _ _ hl1, load_ok _ _ hl2, Except.bind]
  by_cases c1 : (st.mem (p1.add st.i1)).1 ≤ (st.mem (p2.add st.i2)).1 <;>
    by_cases c2 : (st.mem (p2.add st.i2)).1 ≤ (st.mem (p1.add st.i1)).1 <;>
    simp [c1, c2]
  omega

/-- From any state of the `while` loop, the rest of `merge_skyline` succeeds when the rows
it reads and the slots it may write are inside the buffers and apart; it computes
`merge_list` on the rows and writes only output slots from `[skyline_size]` on. -/
theorem merge_from_rows (p1 p2 out : Ptr) (n1 n2 : Nat) (hp1 : valid_base p1)
    (hp2 : valid_base p2) (hout : valid_base out) (hb1 : p1.off + n1 ≤ 1024)
    (hb2 : p2.off + n2 ≤ 1024) (fuel : Nat) : ∀ (st : MergeState),
    st.i1 ≤ n1 → st.i2 ≤ n2 → (n1 - st.i1) + (n2 - st.i2) ≤ fuel →
    out.off + (st.skyline_size + ((n1 - st.i1) + (n2 - st.i2)) : Nat) ≤ 1024 →
    (∀ a b : Nat, a < n1 → st.skyline_size ≤ b →
      b < st.skyline_size + ((n1 - st.i1) + (n2 - st.i2)) → p1.add a ≠ out.add b) →
    (∀ a b : Nat, a < n2 → st.skyline_size ≤ b →
      b < st.skyline_size + ((n1 - st.i1) + (n2 - st.i2)) → p2.add a ≠ out.add b) →
    ∃ mem1,
      merge_from p1 n1 p2 n2 out fuel st = .ok (mem1,
        (merge_list fuel ((read_rows st.mem p1 n1).drop st.i1)
          ((read_rows st.mem p2 n2).drop st.i2) st.h1 st.h2
          (read_rows st.mem out st.skyline_size)).length)
      ∧ read_rows mem1 out
          (merge_list fuel ((read_rows st.mem p1 n1).drop st.i1)
            ((read_rows st.mem p2 n2).drop st.i2) st.h1 st.h2
            (read_rows st.mem out st.skyline_size)).length
        = merge_list fuel ((read_rows st.mem p1 n1).drop st.i1)
            ((read_rows st.mem p2 n2).drop st.i2) st.h1 st.h2
            (read_rows st.mem out st.skyline_size)
      ∧ ∀ q, (∀ b : Nat, st.skyline_size ≤ b →
          b < st.skyline_size + ((n1 - st.i1) + (n2 - st.i2)) → q ≠ out.add b) →
          mem1 q = st.mem q := by
  induction fuel with
  | zero =>
    intro st hi1 hi2 hfuel hob hs1 hs2
    have hdone : ¬ (st.i1 < n1 ∧ st.i2 < n2) := by omega
    have h1 : n1 - st.i1 = 0 := by omega
    have h2 : n2 - st.i2 = 0 := by omega
    have hnil1 : (read_rows st.mem p1 n1).drop st.i1 = [] :=
      List.drop_eq_nil_of_le (by rw [read_rows_length]; omega)
    have hnil2 : (read_rows st.mem p2 n2).drop st.i2 = [] :=
      List.drop_eq_nil_of_le (by rw [read_rows_length]; omega)
    refine ⟨st.mem, ?_, ?_, ?_⟩
    · simp [merge_from, merge_loop_done _ _ _ _ _ _ _ hdone, Except.bind, h1, h2, drain_loop,
        hnil1, hnil2, merge_list, drain_list, read_rows_length]
    · simp [hnil1, hnil2, merge_list, drain_list, read_rows_length]
    · intro q _
      rfl
  | succ f ih =>
    intro st hi1 hi2 hfuel hob hs1 hs2
    by_cases hc : st.i1 < n1 ∧ st.i2 < n2
    · have hl1 : in_bounds (p1.add st.i1) := in_bounds_add p1 _ hp1 (by omega) (by omega)
      have hl2 : in_bounds (p2.add st.i2) := in_bounds_add p2 _ hp2 (by omega) (by omega)
      have hd1 := drop_read_rows st.mem p1 n1 st.i1 hc.1
      have hd2 := drop_read_rows st.mem p2 n2 st.i2 hc.2
      have hstep := merge_loop_step p1 n1 p2 n2 out f st hc hl1 hl2
      obtain ⟨i1', i2', h1', h2', x, hrun, hle1, hle2, hrem, hL⟩ :
          ∃ (i1' i2' : Nat) (h1' h2' x : Int),
            (merge_loop p1 n1 p2 n2 out (f + 1) st
              = (skyline_add_key_point st.mem out st.skyline_size x (int_max h1' h2')).bind
                  fun r => merge_loop p1 n1 p2 n2 out f ⟨r.1, r.2, i1', i2', h1', h2'⟩)
            ∧ i1' ≤ n1 ∧ i2' ≤ n2
            ∧ (n1 - i1') + (n2 - i2') + 1 ≤ (n1 - st.i1) + (n2 - st.i2)
            ∧ ∀ o : List Row,
                merge_list (f + 1) ((read_rows st.mem p1 n1).drop st.i1)
                  ((read_rows st.mem p2 n2).drop st.i2) st.h1 st.h2 o
                = merge_list f ((read_rows st.mem p1 n1).drop i1')
                  ((read_rows st.mem p2 n2).drop i2') h1' h2'
                  (add_point o x (int_max h1' h2')) := by
        rcases lt_trichotomy (st.mem (p1.add st.i1)).1 (st.mem (p2.add st.i2)).1 with
          hlt | heq | hgt
        · have c1 : (st.mem (p1.add st.i1)).1 ≤ (st.mem (p2.add st.i2)).1 := by omega
          have c2 : ¬ (st.mem (p2.add st.i2)).1 ≤ (st.mem (p1.add st.i1)).1 := by omega
          simp only [c1, c2, if_true, if_false] at hstep
          refine ⟨_, _, _, _, _, hstep, by omega, by omega, by omega, ?_⟩
          intro o
          rw [hd1, hd2]
          simp only [merge_list, hlt, if_true]
        · have c1 : (st.mem (p1.add st.i1)).1 ≤ (st.mem (p2.add st.i2)).1 := by omega
          have c2 : (st.mem (p2.add st.i2)).1 ≤ (st.mem (p1.add st.i1)).1 := by omega
          simp only [c1, c2, if_true] at hstep
          refine ⟨_, _, _, _, _, hstep, by omega, by omega, by omega, ?_⟩
          intro o
          have n1' : ¬ (st.mem (p1.add st.i1)).1 < (st.mem (p2.add st.i2)).1 := by omega
          have n2' : ¬ (st.mem (p2.add st.i2)).1 < (st.mem (p1.add st.i1)).1 := by omega
          rw [hd1, hd2]
          simp only [merge_list, n1', n2', if_false]
        · have c1 : ¬ (st.mem (p1.add st.i1)).1 ≤ (st.mem (p2.add st.i2)).1 := by omega
          have c2 : (st.mem (p2.add st.i2)).1 ≤ (st.mem (p1.add st.i1)).1 := by omega
          simp only [c1, c2, if_true, if_false] at hstep
          refine ⟨_, _, _, _, _, hstep, by omega, by omega, by omega, ?_⟩
          intro o
          have n1' : ¬ (st.mem (p1.add st.i1)).1 < (st.mem (p2.add st.i2)).1 := by omega
          rw [hd1, hd2]
          simp only [merge_list, n1', hgt, if_true, if_false]
      obtain ⟨mem1, hadd, hrows, hframe⟩ :=
        skyline_add_key_point_rows st.mem out st.skyline_size x (int_max h1' h2') hout
          (by omega)
      have hlen := add_point_length (read_rows st.mem out st.skyline_size) x (int_max h1' h2')
      rw [read_rows_length] at hlen
      have hsame1 : read_rows mem1 p1 n1 = read_rows st.mem p1 n1 := by
        apply read_rows_congr
        intro a ha
        exact hframe _ (hs1 a st.skyline_size ha (by omega) (by omega))
      have hsame2 : read_rows mem1 p2 n2 = read_rows st.mem p2 n2 := by
        apply read_rows_congr
        intro a ha
        exact hframe _ (hs2 a st.skyline_size ha (by omega) (by omega))
      obtain ⟨mem2, hrun2, hrows2, hframe2⟩ := ih
        ⟨mem1, (add_point (read_rows st.mem out st.skyline_size) x (int_max h1' h2')).length,
          i1', i2', h1', h2'⟩ hle1 hle2 (by simp only; omega) (by simp only; omega)
        (fun a b ha hb1 hb2 => hs1 a b ha (by simp only at hb1; omega)
          (by simp only at hb2; omega))
        (fun a b ha hb1 hb2 => hs2 a b ha (by simp only at hb1; omega)
          (by simp only at hb2; omega))
      simp only [hsame1, hsame2, hrows] at hrun2 hrows2
      rw [← hL] at hrun2 hrows2
      refine ⟨mem2, ?_, hrows2, ?_⟩
      · rw [← hrun2]
        simp only [merge_from, hrun, hadd, Except.bind]
      · intro q hq
        rw [hframe2 q (fun b hb1 hb2 => hq b (by simp only at hb1; omega)
          (by simp only at hb2; omega))]
        exact hframe q (hq st.skyline_size (by omega) (by omega))
    · have hdone := merge_loop_done p1 n1 p2 n2 out (f + 1) st hc
      by_cases hc1 : st.i1 < n1
      · have hi2' : st.i2 = n2 := by omega
        have hnil2 : (read_rows st.mem p2 n2).drop st.i2 = [] :=
          List.drop_eq_nil_of_le (by rw [read_rows_length]; omega)
        have hn1 : st.i1 + (n1 - st.i1) = n1 := by omega
        obtain ⟨mem1, hrun, hrows, hframe⟩ := drain_loop_rows p1 out hp1 hout (n1 - st.i1)
          st.i1 st.mem st.skyline_size (by omega) (by omega)
          (fun a b ha hb1 hb2 => hs1 a b (by omega) hb1 (by omega))
        rw [hn1] at hrun hrows
        rw [hnil2, merge_list_nil_right]
        refine ⟨mem1, ?_, hrows, ?_⟩
        · simp [merge_from, hdone, Except.bind, hrun, hi2', drain_loop]
        · intro q hq
          exact hframe q (fun b hb1 hb2 => hq b hb1 (by omega))
      · have hnil1 : (read_rows st.mem p1 n1).drop st.i1 = [] :=
          List.drop_eq_nil_of_le (by rw [read_rows_length]; omega)
        have h1 : n1 - st.i1 = 0 := by omega
        have hn2 : st.i2 + (n2 - st.i2) = n2 := by omega
        obtain ⟨mem1, hrun, hrows, hframe⟩ := drain_loop_rows p2 out hp2 hout (n2 - st.i2)
          st.i2 st.mem st.skyline_size (by omega) (by omega)
          (fun a b ha hb1 hb2 => hs2 a b (by omega) hb1 (by omega))
        rw [hn2] at hrun hrows
        rw [hnil1, merge_list_nil_left]
        refine ⟨mem1, ?_, hrows, ?_⟩
        · simp [merge_from, hdone, Except.bind, h1, hrun, drain_loop]
        · intro q hq
          exact hframe q (fun b hb1 hb2 => hq b hb1 (by omega))

/-- `merge_skyline` succeeds when its inputs and the slots it may write are inside the
buffers and apart; it computes `merge_rows` and writes only output slots. -/
theorem merge_skyline_rows (mem : Mem) (p1 : Ptr) (n1 : Nat) (p2 : Ptr) (n2 : Nat) (out : Ptr)
    (n : Nat) (hp1 : valid_base p1) (hp2 : valid_base p2) (hout : valid_base out)
    (hb1 : p1.off + n1 ≤ 1024) (hb2 : p2.off + n2 ≤ 1024)
    (hob : out.off + (n + (n1 + n2) : Nat) ≤ 1024)
    (hs1 : ∀ a b : Nat, a < n1 → n ≤ b → b < n + (n1 + n2) → p1.add a ≠ out.add b)
    (hs2 : ∀ a b : Nat, a < n2 → n ≤ b → b < n + (n1 + n2) → p2.add a ≠ out.add b) :
    ∃ mem1,
      merge_skyline mem p1 n1 p2 n2 out n = .ok (mem1,
        (merge_rows (read_rows mem p1 n1) (read_rows mem p2 n2) (read_rows mem out n)).length)
      ∧ read_rows mem1 out
          (merge_rows (read_rows mem p1 n1) (read_rows mem p2 n2) (read_rows mem out n)).length
        = merge_rows (read_rows mem p1 n1) (read_rows mem p2 n2) (read_rows mem out n)
      ∧ ∀ q, (∀ b : Nat, n ≤ b → b < n + (n1 + n2) → q ≠ out.add b) → mem1 q = mem q := by
  have h := merge_from_rows p1 p2 out n1 n2 hp1 hp2 hout hb1 hb2 (n1 + n2) ⟨mem, n, 0, 0, 0, 0⟩
    (Nat.zero_le _) (Nat.zero_le _) (by simp) (by simpa using hob)
    (by simpa using hs1) (by simpa using hs2)
  simpa [merge_skyline_eq_merge_from, merge_rows, read_rows_length] using h

theorem drain_list_length (src : List Row) : ∀ out : List Row,
    (drain_list src out).length ≤ out.length + src.length := by
  induction src with
  | nil => intro out; simp [drain_list]
  | cons p t ih =>
    intro out
    rw [drain_list_cons]
    have h1 := ih (add_point out p.1 p.2)
    have h2 := (add_point_length out p.1 p.2).2
    simp only [List.length_cons]
    omega

theorem merge_list_length (fuel : Nat) : ∀ (s1 s2 : List Row) (h1 h2 : Int) (out : List Row),
    (merge_list fuel s1 s2 h1 h2 out).length ≤ out.length + (s1.length + s2.length) := by
  induction fuel with
  | zero =>
    intro s1 s2 h1 h2 out
    cases s1 with
    | nil => rw [merge_list_nil_left]; simpa using drain_list_length s2 out
    | cons p1 t1 =>
      cases s2 with
      | nil => rw [merge_list_nil_right]; simpa using drain_list_length (p1 :: t1) out
      | cons p2 t2 => simp [merge_list]
  | succ f ih =>
    intro s1 s2 h1 h2 out
    cases s1 with
    | nil => rw [merge_list_nil_left]; simpa using drain_list_length s2 out
    | cons p1 t1 =>
      cases s2 with
      | nil => rw [merge_list_nil_right]; simpa using drain_list_length (p1 :: t1) out
      | cons p2 t2 =>
        simp only [merge_list]
        split
        · have a := ih t1 (p2 :: t2) p1.2 h2 (add_point out p1.1 (int_max p1.2 h2))
          have b := (add_point_length out p1.1 (int_max p1.2 h2)).2
          simp only [List.length_cons] at a ⊢
          omega
        · split
          · have a := ih (p1 :: t1) t2 h1 p2.2 (add_point out p2.1 (int_max h1 p2.2))
            have b := (add_point_length out p2.1 (int_max h1 p2.2)).2
            simp only [List.length_cons] at a ⊢
            omega
          · have a := ih t1 t2 p1.2 p2.2 (add_point out p2.1 (int_max p1.2 p2.2))
            have b := (add_point_length out p2.1 (int_max p1.2 p2.2)).2
            simp only [List.length_cons] at a ⊢
            omega

theorem merge_rows_length (s1 s2 out : List Row) :
    (merge_rows s1 s2 out).length ≤ out.length + (s1.length + s2.length) :=
  merge_list_length _ s1 s2 0 0 out

/-- `building_to_skyline` succeeds when two more slots are inside the buffer; it applies
`add_point` twice and writes only the slots `[size]` and `[size + 1]`. -/
theorem building_to_skyline_rows (b : Building) (mem : Mem) (out : Ptr) (n : Nat)
    (hout : valid_base out) (hob : out.off + (n + 2 : Nat) ≤ 1024) :
    ∃ mem1,
      building_to_skyline b mem out n = .ok (mem1,
        (add_point (add_point (read_rows mem out n) b.1 b.2.2) b.2.1 0).length)
      ∧ read_rows mem1 out (add_point (add_point (read_rows mem out n) b.1 b.2.2) b.2.1 0).length
        = add_point (add_point (read_rows mem out n) b.1 b.2.2) b.2.1 0
      ∧ ∀ q, (∀ k : Nat, n ≤ k → k < n + 2 → q ≠ out.add k) → mem1 q = mem q := by
  obtain ⟨mem1, hadd1, hrows1, hframe1⟩ :=
    skyline_add_key_point_rows mem out n b.1 b.2.2 hout (by omega)
  have hlen := add_point_length (read_rows mem out n) b.1 b.2.2
  rw [read_rows_length] at hlen
  obtain ⟨mem2, hadd2, hrows2, hframe2⟩ :=
    skyline_add_key_point_rows mem1 out (add_point (read_rows mem out n) b.1 b.2.2).length
      b.2.1 0 hout (by omega)
  rw [hrows1] at hadd2 hrows2
  refine ⟨mem2, ?_, hrows2, ?_⟩
  · simp only [building_to_skyline, hadd1, Except.bind]
    exact hadd2
  · intro q hq
    rw [hframe2 q, hframe1 q (hq n (by omega) (by omega))]
    rcases Nat.lt_or_ge n (add_point (read_rows mem out n) b.1 b.2.2).length with h | h
    · have : (add_point (read_rows mem out n) b.1 b.2.2).length = n + 1 := by omega
      rw [this]
      exact hq (n + 1) (by omega) (by omega)
    · have : (add_point (read_rows mem out n) b.1 b.2.2).length = n := by omega
      rw [this]
      exact hq n (by omega) (by omega)

theorem leaf_rows_length (b : Building) :
    (add_point (add_point [] b.1 b.2.2) b.2.1 0).length ≤ 2 := by
  have h1 := (add_point_length [] b.1 b.2.2).2
  have h2 := (add_point_length (add_point [] b.1 b.2.2) b.2.1 0).2
  simp only [List.length_nil] at h1
  omega

theorem skyline_rows_length (buildings : List Building) (fuel : Nat) : ∀ (l r : Int),
    l ≤ r → ((skyline_rows buildings fuel l r).length : Int) ≤ 2 * (r - l + 1) := by
  induction fuel with
  | zero => intro l r h; simp [skyline_rows]; omega
  | succ f ih =>
    intro l r h
    rw [skyline_rows]
    split
    · next heq =>
      split
      · next b _ =>
        have := leaf_rows_length b
        omega
      · simp; omega
    · next hne =>
      have hlt : l < r := by omega
      simp only [hlt, not_true_eq_false, if_false]
      have a1 := ih l (l + (r - l) / 2) (by omega)
      have a2 := ih (l + (r - l) / 2 + 1) r (by omega)
      have a3 := merge_rows_length (skyline_rows buildings f l (l + (r - l) / 2))
        (skyline_rows buildings f (l + (r - l) / 2 + 1) r) []
      simp only [List.length_nil] at a3
      omega

/-- `get_skyline` on a range `[l, r]` of the building list, with fuel for the recursion and
an output region of `2 * (r - l + 1)` rows inside the buffer named by `buf_id`, succeeds;
it writes `skyline_rows` and changes no row outside `[off, off + 2 * (r - l + 1))`. -/
theorem get_skyline_rows (buildings : List Building) (fuel : Nat) :
    ∀ (l r : Int) (mem : Mem) (skyline : Ptr) (buf_id : Int),
    0 ≤ l → l ≤ r → r < buildings.length → r - l + 1 ≤ fuel →
    (buf_id = 1 ∨ buf_id = 2) → (skyline.buf : Int) = buf_id → 0 ≤ skyline.off →
    skyline.off + 2 * (r - l + 1) ≤ 1024 →
    ∃ mem1,
      get_skyline buildings ⟨1, 0⟩ ⟨2, 0⟩ fuel l r mem skyline 0 buf_id
        = .ok (mem1, (skyline_rows buildings fuel l r).length)
      ∧ read_rows mem1 skyline (skyline_rows buildings fuel l r).length
        = skyline_rows buildings fuel l r
      ∧ ∀ q : Ptr, ¬ (skyline.off ≤ q.off ∧ q.off < skyline.off + 2 * (r - l + 1)) →
          mem1 q = mem q := by
  induction fuel with
  | zero => intro l r mem skyline buf_id h0 hlr hr hf; omega
  | succ f ih =>
    intro l r mem skyline buf_id h0 hlr hr hf hid hbuf hoff hcap
    have hvalid : valid_base skyline := ⟨by omega, hoff⟩
    by_cases heq : l = r
    · subst heq
      have hidx : l.toNat < buildings.length := by omega
      obtain ⟨b, hget⟩ : ∃ b, buildings.get? l.toNat = some b :=
        ⟨_, List.get?_eq_get hidx⟩
      have hget' : buildings[l.toNat]? = some b := by simpa using hget
      obtain ⟨mem1, hrun, hrows, hframe⟩ :=
        building_to_skyline_rows b mem skyline 0 hvalid (by omega)
      rw [read_rows_zero] at hrun hrows
      have hsr : skyline_rows buildings (f + 1) l l
          = add_point (add_point [] b.1 b.2.2) b.2.1 0 := by
        simp [skyline_rows, hget']
      rw [hsr]
      refine ⟨mem1, ?_, hrows, ?_⟩
      · simp only [get_skyline, if_true, building_at, h0, hget, Except.bind]
        exact hrun
      · intro q hq
        apply hframe
        intro k _ hk2 hqk
        apply hq
        rw [hqk]
        simp only [Ptr.add]
        omega
    · have hlt : l < r := by omega
      have hdiv : Int.tdiv (r - l) 2 = (r - l) / 2 :=
        Int.tdiv_eq_ediv (by omega) (by omega)
      obtain ⟨ob, hob1, hob2, hob3⟩ : ∃ ob : Ptr × Int,
          get_the_other_buf ⟨1, 0⟩ ⟨2, 0⟩ skyline buf_id = ob ∧ ob.1.off = skyline.off
          ∧ (ob.2 = 1 ∨ ob.2 = 2) ∧ (ob.1.buf : Int) = ob.2 ∧ ob.1.buf ≠ skyline.buf := by
        refine ⟨_, rfl, ?_⟩
        unfold get_the_other_buf
        rcases hid with h | h
        · subst h
          simp [Ptr.add, Ptr.diff]
          omega
        · subst h
          simp [Ptr.add, Ptr.diff]
          omega
      obtain ⟨hob3, hob4, hob5⟩ := hob3
      obtain ⟨mem1, hrun1, hrows1, hframe1⟩ := ih l (l + (r - l) / 2) mem ob.1 ob.2 h0
        (by omega) (by omega) (by omega) hob3 hob4 (by omega) (by omega)
      obtain ⟨mem2, hrun2, hrows2, hframe2⟩ := ih (l + (r - l) / 2 + 1) r mem1
        (ob.1.add (2 * (l + (r - l) / 2 - l + 1))) ob.2 (by omega) (by omega) hr (by omega)
        hob3 hob4 (by simp only [Ptr.add]; omega) (by simp only [Ptr.add]; omega)
      have hk1 := skyline_rows_length buildings f l (l + (r - l) / 2) (by omega)
      have hk2 := skyline_rows_length buildings f (l + (r - l) / 2 + 1) r (by omega)
      have hkeep : read_rows mem2 ob.1 (skyline_rows buildings f l (l + (r - l) / 2)).length
          = skyline_rows buildings f l (l + (r - l) / 2) := by
        refine Eq.trans ?_ hrows1
        apply read_rows_congr
        intro i hi
        apply hframe2
        simp only [Ptr.add]
        omega
      obtain ⟨mem3, hrun3, hrows3, hframe3⟩ := merge_skyline_rows mem2 ob.1
        (skyline_rows buildings f l (l + (r - l) / 2)).length
        (ob.1.add (2 * (l + (r - l) / 2 - l + 1)))
        (skyline_rows buildings f (l + (r - l) / 2 + 1) r).length skyline 0
        ⟨by omega, by omega⟩ ⟨by simp only [Ptr.add]; omega, by simp only [Ptr.add]; omega⟩
        hvalid (by omega) (by simp only [Ptr.add]; omega) (by push_cast; omega)
        (fun a b _ _ _ h => hob5 (by simpa [Ptr.add] using congrArg Ptr.buf h))
        (fun a b _ _ _ h => hob5 (by simpa [Ptr.add] using congrArg Ptr.buf h))
      rw [hkeep, hrows2, read_rows_zero] at hrun3 hrows3
      have hsr : skyline_rows buildings (f + 1) l r
          = merge_rows (skyline_rows buildings f l (l + (r - l) / 2))
              (skyline_rows buildings f (l + (r - l) / 2 + 1) r) [] := by
        rw [skyline_rows]
        simp [heq, hlt]
      rw [hsr]
      refine ⟨mem3, ?_, hrows3, ?_⟩
      · rw [get_skyline]
        simp only [heq, hlt, if_false, not_true_eq_false, hdiv, hob1, hrun1, hrun2,
          Except.bind]
        exact hrun3
      · intro q hq
        have hm := merge_rows_length (skyline_rows buildings f l (l + (r - l) / 2))
          (skyline_rows buildings f (l + (r - l) / 2 + 1) r) []
        rw [hframe3 q, hframe2 q, hframe1 q]
        · omega
        · simp only [Ptr.add]
          omega
        · intro b _ hb hqb
          apply hq
          rw [hqb]
          simp only [Ptr.add]
          omega

theorem copy_rows_ok (mem : Mem) (p : Ptr) (hp : valid_base p) (count : Nat) : ∀ i : Nat,
    p.off + (i + count : Nat) ≤ 1024 →
    copy_rows mem p count i = .ok ((read_rows mem p (i + count)).drop i) := by
  induction count with
  | zero =>
    intro i _
    have hnil : (read_rows mem p (i + 0)).drop i = [] :=
      List.drop_eq_nil_of_le (by rw [read_rows_length]; omega)
    rw [hnil]
    rfl
  | succ c ih =>
    intro i hb
    have hl : in_bounds (p.add (i : Int)) := in_bounds_add p _ hp (by omega) (by omega)
    have hrec := ih (i + 1) (by omega)
    have hidx : i + 1 + c = i + (c + 1) := by omega
    rw [hidx] at hrec
    rw [drop_read_rows mem p (i + (c + 1)) i (by omega)]
    simp only [copy_rows, load_ok mem _ hl, Except.bind, hrec]

/-- For `1` to `512` buildings `getSkyline` succeeds from any initial buffer contents and
returns the rows `skyline_of`, with `returnSize` their number. -/
theorem getSkyline_eq (buildings : List Building) (buildingsSize : Int) (mem : Mem)
    (hsize : buildingsSize = buildings.length) (h1 : 1 ≤ buildingsSize)
    (h512 : buildingsSize ≤ 512) :
    getSkyline buildings buildingsSize mem
      = .ok ⟨(skyline_of buildings).length, skyline_of buildings,
          List.replicate (skyline_of buildings).length 2⟩ := by
  subst hsize
  obtain ⟨mem1, hrun, hrows, _⟩ := get_skyline_rows buildings (buildings.length + 1) 0
    ((buildings.length : Int) - 1) mem ⟨1, 0⟩ 1 (by omega) (by omega) (by omega)
    (by push_cast; omega) (Or.inl rfl) rfl (by simp) (by simp only; omega)
  have hlen := skyline_rows_length buildings (buildings.length + 1) 0
    ((buildings.length : Int) - 1) (by omega)
  have hcopy := copy_rows_ok mem1 ⟨1, 0⟩ ⟨Or.inl rfl, by simp⟩
    (skyline_rows buildings (buildings.length + 1) 0 ((buildings.length : Int) - 1)).length 0
    (by simp only; omega)
  simp only [Nat.zero_add, List.drop_zero, hrows] at hcopy
  simp only [getSkyline, Int.toNat_ofNat, hrun, Except.bind, hcopy, skyline_of]

/-! ## Step functions of lists of key points -/

theorem level_cons (h : Int) (p : Row) (s : List Row) (x : Int) :
    level h (p :: s) x = level (if p.1 ≤ x then p.2 else h) s x := by
  simp [level]

theorem level_concat (h : Int) (s : List Row) (p : Row) (x : Int) :
    level h (s ++ [p]) x = if p.1 ≤ x then p.2 else level h s x := by
  simp [level, List.foldl_append]

theorem height_at_eq_level (s : List Row) (x : Int) : height_at s x = level 0 s x := by
  have key : ∀ (s : List Row) (h : Int),
      (match (s.filter fun p => decide (p.1 ≤ x)).getLast? with
        | some p => p.2
        | none => h) = level h s x := by
    intro s
    induction s with
    | nil => intro h; simp [level]
    | cons p t ih =>
      intro h
      rw [level_cons]
      by_cases hp : p.1 ≤ x
      · rw [List.filter_cons_of_pos (by simpa using hp), List.getLast?_cons, if_pos hp, ← ih p.2]
        cases (List.filter (fun p => decide (p.1 ≤ x)) t).getLast? <;> rfl
      · rw [List.filter_cons_of_neg (by simpa using hp), if_neg hp, ← ih h]
  exact key s 0

theorem level_of_all_gt (s : List Row) (x : Int) (hs : ∀ p ∈ s, x < p.1) (h : Int) :
    level h s x = h := by
  induction s generalizing h with
  | nil => rfl
  | cons p t ih =>
    have hp : ¬ p.1 ≤ x := by have := hs p (List.mem_cons_self _ _); omega
    rw [level_cons, if_neg hp]
    exact ih (fun q hq => hs q (List.mem_cons_of_mem _ hq)) h

theorem level_of_all_le (s : List Row) (x : Int) (h : Int) (hs : ∀ p ∈ s, p.1 ≤ x) :
    level h s x = match s.getLast? with
      | some q => q.2
      | none => h := by
  induction s using List.reverseRecOn with
  | nil => rfl
  | append_singleton t p _ =>
    rw [level_concat, if_pos (hs p (by simp)), List.getLast?_concat]

theorem level_nonneg (s : List Row) (x : Int) (hs : ∀ p ∈ s, 0 ≤ p.2) (h : Int) (hh : 0 ≤ h) :
    0 ≤ level h s x := by
  induction s generalizing h with
  | nil => exact hh
  | cons p t ih =>
    rw [level_cons]
    apply ih (fun q hq => hs q (List.mem_cons_of_mem _ hq))
    have := hs p (List.mem_cons_self _ _)
    split <;> omega

theorem add_point_cases (s : List Row) (x y : Int) :
    (add_point s x y = s ∧ ∃ q, s.getLast? = some q ∧ q.2 = y)
    ∨ (add_point s x y = s ++ [(x, y)] ∧ ∀ q, s.getLast? = some q → q.2 ≠ y) := by
  unfold add_point
  cases h : s.getLast? with
  | none => right; simp
  | some q =>
    by_cases hq : q.2 = y
    · left; simp [hq]
    · right; simp [hq]

theorem add_point_getLast (s : List Row) (x y : Int) :
    ∃ q, (add_point s x y).getLast? = some q ∧ q.2 = y := by
  rcases add_point_cases s x y with ⟨h, q, hq, hy⟩ | ⟨h, _⟩
  · exact ⟨q, by rw [h]; exact hq, hy⟩
  · exact ⟨(x, y), by rw [h, List.getLast?_concat], rfl⟩

theorem mem_add_point (s : List Row) (x y : Int) (a : Row) (ha : a ∈ add_point s x y) :
    a ∈ s ∨ a = (x, y) := by
  rcases add_point_cases s x y with ⟨h, _⟩ | ⟨h, _⟩
  · left; rwa [h] at ha
  · rw [h] at ha
    simpa using ha

theorem height_at_add_point_lt (s : List Row) (px py x : Int) (h : x < px) :
    height_at (add_point s px py) x = height_at s x := by
  rcases add_point_cases s px py with ⟨he, _⟩ | ⟨he, _⟩
  · rw [he]
  · rw [he, height_at_eq_level, height_at_eq_level, level_concat, if_neg (by simpa using h)]

theorem height_at_add_point_ge (s : List Row) (px py x : Int) (h : px ≤ x)
    (hs : ∀ a ∈ s, a.1 < px) : height_at (add_point s px py) x = py := by
  rcases add_point_cases s px py with ⟨he, q, hq, hy⟩ | ⟨he, _⟩
  · rw [he, height_at_eq_level, level_of_all_le s x 0 (fun a ha => by have := hs a ha; omega),
      hq]
    exact hy
  · rw [he, height_at_eq_level, level_concat, if_pos (by simpa using h)]

theorem increasing_x_add_point (s : List Row) (x y : Int) (hs : increasing_x s)
    (hlt : ∀ a ∈ s, a.1 < x) : increasing_x (add_point s x y) := by
  rcases add_point_cases s x y with ⟨he, _⟩ | ⟨he, _⟩
  · rw [he]; exact hs
  · rw [he]
    unfold increasing_x at hs ⊢
    rw [List.pairwise_append]
    refine ⟨hs, List.pairwise_singleton _ _, ?_⟩
    intro a ha b hb
    rw [List.mem_singleton] at hb
    subst hb
    exact hlt a ha

theorem no_repeat_add_point (s : List Row) (x y : Int) (hs : no_repeat s) :
    no_repeat (add_point s x y) := by
  rcases add_point_cases s x y with ⟨he, _⟩ | ⟨he, hne⟩
  · rw [he]; exact hs
  · rw [he]
    unfold no_repeat at hs ⊢
    rw [List.chain'_append]
    refine ⟨hs, List.chain'_singleton _, ?_⟩
    intro a ha b hb
    simp only [List.head?_cons, Option.mem_def, Option.some.injEq] at hb
    subst hb
    exact hne a ha

/-! ## The two `for` loops on lists -/

theorem increasing_x_tail (p : Row) (t : List Row) (h : increasing_x (p :: t)) :
    increasing_x t ∧ ∀ b ∈ t, p.1 < b.1 := by
  unfold increasing_x at h ⊢
  rw [List.pairwise_cons] at h
  exact ⟨h.2, h.1⟩

theorem drain_list_increasing (s : List Row) : ∀ out : List Row,
    increasing_x s → increasing_x out → (∀ a ∈ out, ∀ b ∈ s, a.1 < b.1) →
    increasing_x (drain_list s out) := by
  induction s with
  | nil => intro out _ ho _; exact ho
  | cons p t ih =>
    intro out hs ho hord
    obtain ⟨ht, hpt⟩ := increasing_x_tail p t hs
    rw [drain_list_cons]
    apply ih _ ht
    · exact increasing_x_add_point out p.1 p.2 ho
        (fun a ha => hord a ha p (List.mem_cons_self _ _))
    · intro a ha b hb
      rcases mem_add_point out p.1 p.2 a ha with h | h
      · exact hord a h b (List.mem_cons_of_mem _ hb)
      · rw [h]; exact hpt b hb

theorem drain_list_no_repeat (s : List Row) : ∀ out : List Row,
    no_repeat out → no_repeat (drain_list s out) := by
  induction s with
  | nil => intro out ho; exact ho
  | cons p t ih =>
    intro out ho
    rw [drain_list_cons]
    exact ih _ (no_repeat_add_point out p.1 p.2 ho)

theorem drain_list_height_at (s : List Row) : ∀ (out : List Row) (h x : Int),
    increasing_x s → (∀ a ∈ out, ∀ b ∈ s, a.1 < b.1) →
    ((∀ p ∈ s, x < p.1) → height_at (drain_list s out) x = height_at out x)
    ∧ ((∃ p ∈ s, p.1 ≤ x) → height_at (drain_list s out) x = level h s x) := by
  induction s with
  | nil =>
    intro out h x _ _
    exact ⟨fun _ => rfl, fun ⟨p, hp, _⟩ => absurd hp (List.not_mem_nil p)⟩
  | cons p t ih =>
    intro out h x hs hord
    obtain ⟨ht, hpt⟩ := increasing_x_tail p t hs
    have hord' : ∀ a ∈ add_point out p.1 p.2, ∀ b ∈ t, a.1 < b.1 := by
      intro a ha b hb
      rcases mem_add_point out p.1 p.2 a ha with h | h
      · exact hord a h b (List.mem_cons_of_mem _ hb)
      · rw [h]; exact hpt b hb
    obtain ⟨ihA, ihB⟩ := ih (add_point out p.1 p.2) p.2 x ht hord'
    rw [drain_list_cons]
    constructor
    · intro hall
      rw [ihA (fun q hq => hall q (List.mem_cons_of_mem _ hq))]
      exact height_at_add_point_lt out p.1 p.2 x (hall p (List.mem_cons_self _ _))
    · rintro ⟨q, hq, hqx⟩
      have hpx : p.1 ≤ x := by
        rcases List.mem_cons.mp hq with h | h
        · rw [← h]; exact hqx
        · have := hpt q h; omega
      rw [level_cons, if_pos hpx]
      by_cases hex : ∃ q ∈ t, q.1 ≤ x
      · exact ihB hex
      · have hall : ∀ q ∈ t, x < q.1 := by
          intro q hq
          by_contra hc
          exact hex ⟨q, hq, by omega⟩
        rw [ihA hall, level_of_all_gt t x hall]
        exact height_at_add_point_ge out p.1 p.2 x hpx
          (fun a ha => hord a ha p (List.mem_cons_self _ _))

/-! ## The sweep of `merge_skyline` on lists -/

theorem getLast?_tail_of_ne_nil (p : Row) (t : List Row) (q : Row)
    (h : t.getLast? = some q) : (p :: t).getLast? = some q := by
  rw [List.getLast?_cons, h]
  rfl

theorem merge_inv_tail (p : Row) (t : List Row) (hinc : increasing_x (p :: t))
    (hlast : ∀ q, (p :: t).getLast? = some q → q.2 = 0) (hpos : ∀ q ∈ p :: t, 0 ≤ q.2) :
    increasing_x t ∧ (∀ b ∈ t, p.1 < b.1) ∧ (t = [] → p.2 = 0)
    ∧ (∀ q, t.getLast? = some q → q.2 = 0) ∧ 0 ≤ p.2 ∧ ∀ q ∈ t, 0 ≤ q.2 := by
  obtain ⟨ht, hpt⟩ := increasing_x_tail p t hinc
  refine ⟨ht, hpt, ?_, ?_, hpos p (List.mem_cons_self _ _),
    fun q hq => hpos q (List.mem_cons_of_mem _ hq)⟩
  · intro hnil
    subst hnil
    exact hlast p rfl
  · intro q hq
    exact hlast q (getLast?_tail_of_ne_nil p t q hq)

theorem merge_sem_step (m s1 s2 t1 t2 out : List Row) (h1 h2 h1' h2' px x : Int)
    (hmin : x < px ↔ (∀ p ∈ s1, x < p.1) ∧ (∀ p ∈ s2, x < p.1))
    (hlev : px ≤ x → level h1 s1 x = level h1' t1 x ∧ level h2 s2 x = level h2' t2 x)
    (hgt1 : ∀ p ∈ t1, px < p.1) (hgt2 : ∀ p ∈ t2, px < p.1)
    (hord : ∀ a ∈ out, a.1 < px)
    (ih : merge_sem m t1 t2 h1' h2' (add_point out px (int_max h1' h2')) x) :
    merge_sem m s1 s2 h1 h2 out x := by
  obtain ⟨ihA, ihB⟩ := ih
  by_cases hx : x < px
  · constructor
    · intro _ _
      rw [ihA (fun p hp => by have := hgt1 p hp; omega)
        (fun p hp => by have := hgt2 p hp; omega)]
      exact height_at_add_point_lt out px _ x hx
    · intro hn
      exact absurd (hmin.mp hx) hn
  · constructor
    · intro a b
      exact absurd (hmin.mpr ⟨a, b⟩) hx
    · intro _
      have hpx : px ≤ x := by omega
      obtain ⟨e1, e2⟩ := hlev hpx
      rw [e1, e2]
      by_cases hall : (∀ p ∈ t1, x < p.1) ∧ (∀ p ∈ t2, x < p.1)
      · rw [ihA hall.1 hall.2, level_of_all_gt t1 x hall.1, level_of_all_gt t2 x hall.2,
          height_at_add_point_ge out px _ x hpx hord, int_max_eq_max]
      · exact ihB hall

theorem ord_add_point (out t : List Row) (px py : Int)
    (hord : ∀ a ∈ out, ∀ b ∈ t, a.1 < b.1) (hgt : ∀ b ∈ t, px < b.1) :
    ∀ a ∈ add_point out px py, ∀ b ∈ t, a.1 < b.1 := by
  intro a ha b hb
  rcases mem_add_point out px py a ha with h | h
  · exact hord a h b hb
  · rw [h]; exact hgt b hb

theorem ord_of_cons (out : List Row) (p : Row) (t : List Row)
    (hord : ∀ a ∈ out, ∀ b ∈ p :: t, a.1 < b.1) : ∀ a ∈ out, ∀ b ∈ t, a.1 < b.1 :=
  fun a ha b hb => hord a ha b (List.mem_cons_of_mem _ hb)

theorem all_gt_cons (p : Row) (t : List Row) (hinc : increasing_x (p :: t)) (v : Int)
    (hv : v < p.1) : ∀ q ∈ p :: t, v < q.1 := by
  intro q hq
  rcases List.mem_cons.mp hq with h | h
  · rw [h]; exact hv
  · have := (increasing_x_tail p t hinc).2 q h
    omega

theorem min_head_iff (p1 p2 : Row) (t1 t2 : List Row) (hinc1 : increasing_x (p1 :: t1))
    (hinc2 : increasing_x (p2 :: t2)) (px x : Int) (h1 : px ≤ p1.1) (h2 : px ≤ p2.1)
    (h : px = p1.1 ∨ px = p2.1) :
    x < px ↔ (∀ p ∈ p1 :: t1, x < p.1) ∧ (∀ p ∈ p2 :: t2, x < p.1) := by
  constructor
  · intro hx
    exact ⟨all_gt_cons p1 t1 hinc1 x (by omega), all_gt_cons p2 t2 hinc2 x (by omega)⟩
  · rintro ⟨a, b⟩
    have a1 := a p1 (List.mem_cons_self _ _)
    have b1 := b p2 (List.mem_cons_self _ _)
    rcases h with h | h <;> omega

theorem merge_list_increasing (fuel : Nat) : ∀ (s1 s2 : List Row) (h1 h2 : Int)
    (out : List Row), increasing_x s1 → increasing_x s2 → increasing_x out →
    (∀ a ∈ out, ∀ b ∈ s1, a.1 < b.1) → (∀ a ∈ out, ∀ b ∈ s2, a.1 < b.1) →
    increasing_x (merge_list fuel s1 s2 h1 h2 out) := by
  induction fuel with
  | zero =>
    intro s1 s2 h1 h2 out i1 i2 io o1 o2
    cases s1 with
    | nil => rw [merge_list_nil_left]; exact drain_list_increasing s2 out i2 io o2
    | cons p1 t1 =>
      cases s2 with
      | nil => rw [merge_list_nil_right]; exact drain_list_increasing _ out i1 io o1
      | cons p2 t2 => simpa [merge_list] using io
  | succ f ih =>
    intro s1 s2 h1 h2 out i1 i2 io o1 o2
    cases s1 with
    | nil => rw [merge_list_nil_left]; exact drain_list_increasing s2 out i2 io o2
    | cons p1 t1 =>
      cases s2 with
      | nil => rw [merge_list_nil_right]; exact drain_list_increasing _ out i1 io o1
      | cons p2 t2 =>
        obtain ⟨it1, g1⟩ := increasing_x_tail p1 t1 i1
        obtain ⟨it2, g2⟩ := increasing_x_tail p2 t2 i2
        have a1 : ∀ a ∈ out, a.1 < p1.1 := fun a ha => o1 a ha p1 (List.mem_cons_self _ _)
        have a2 : ∀ a ∈ out, a.1 < p2.1 := fun a ha => o2 a ha p2 (List.mem_cons_self _ _)
        simp only [merge_list]
        split
        · next hlt =>
          exact ih _ _ _ _ _ it1 i2 (increasing_x_add_point out _ _ io a1)
            (ord_add_point out t1 _ _ (ord_of_cons out p1 t1 o1) g1)
            (ord_add_point out (p2 :: t2) _ _ o2 (all_gt_cons p2 t2 i2 _ hlt))
        · split
          · next hgt =>
            exact ih _ _ _ _ _ i1 it2 (increasing_x_add_point out _ _ io a2)
              (ord_add_point out (p1 :: t1) _ _ o1 (all_gt_cons p1 t1 i1 _ hgt))
              (ord_add_point out t2 _ _ (ord_of_cons out p2 t2 o2) g2)
          · next hn1 hn2 =>
            have heq : p2.1 = p1.1 := by omega
            exact ih _ _ _ _ _ it1 it2 (increasing_x_add_point out _ _ io a2)
              (ord_add_point out t1 _ _ (ord_of_cons out p1 t1 o1) (heq ▸ g1))
              (ord_add_point out t2 _ _ (ord_of_cons out p2 t2 o2) g2)

theorem merge_list_no_repeat (fuel : Nat) : ∀ (s1 s2 : List Row) (h1 h2 : Int)
    (out : List Row), no_repeat out → no_repeat (merge_list fuel s1 s2 h1 h2 out) := by
  induction fuel with
  | zero =>
    intro s1 s2 h1 h2 out ho
    cases s1 with
    | nil => rw [merge_list_nil_left]; exact drain_list_no_repeat s2 out ho
    | cons p1 t1 =>
      cases s2 with
      | nil => rw [merge_list_nil_right]; exact drain_list_no_repeat _ out ho
      | cons p2 t2 => simpa [merge_list] using ho
  | succ f ih =>
    intro s1 s2 h1 h2 out ho
    cases s1 with
    | nil => rw [merge_list_nil_left]; exact drain_list_no_repeat s2 out ho
    | cons p1 t1 =>
      cases s2 with
      | nil => rw [merge_list_nil_right]; exact drain_list_no_repeat _ out ho
      | cons p2 t2 =>
        simp only [merge_list]
        split
        · exact ih _ _ _ _ _ (no_repeat_add_point out _ _ ho)
        · split
          · exact ih _ _ _ _ _ (no_repeat_add_point out _ _ ho)
          · exact ih _ _ _ _ _ (no_repeat_add_point out _ _ ho)

theorem merge_sem_nil_left (s2 out : List Row) (h1 h2 x : Int)
    (inv : merge_inv [] s2 h1 h2 out) : merge_sem (drain_list s2 out) [] s2 h1 h2 out x := by
  obtain ⟨dA, dB⟩ := drain_list_height_at s2 out h2 x inv.inc2 inv.ord2
  constructor
  · intro _ hall
    exact dA hall
  · intro hn
    have hex : ∃ p ∈ s2, p.1 ≤ x := by
      by_contra hc
      apply hn
      refine ⟨fun p hp => absurd hp (List.not_mem_nil p), fun p hp => ?_⟩
      by_contra hlt
      exact hc ⟨p, hp, by omega⟩
    have hz : level h1 [] x = 0 := inv.end1 rfl
    have hnn := level_nonneg s2 x inv.pos2 h2 inv.nn2
    rw [dB hex, hz]
    omega

theorem merge_sem_nil_right (s1 out : List Row) (h1 h2 x : Int)
    (inv : merge_inv s1 [] h1 h2 out) : merge_sem (drain_list s1 out) s1 [] h1 h2 out x := by
  obtain ⟨dA, dB⟩ := drain_list_height_at s1 out h1 x inv.inc1 inv.ord1
  constructor
  · intro hall _
    exact dA hall
  · intro hn
    have hex : ∃ p ∈ s1, p.1 ≤ x := by
      by_contra hc
      apply hn
      refine ⟨fun p hp => ?_, fun p hp => absurd hp (List.not_mem_nil p)⟩
      by_contra hlt
      exact hc ⟨p, hp, by omega⟩
    have hz : level h2 [] x = 0 := inv.end2 rfl
    have hnn := level_nonneg s1 x inv.pos1 h1 inv.nn1
    rw [dB hex, hz]
    omega

/-- The sweep computes the pointwise maximum: from every state that satisfies `merge_inv`,
with fuel for the rows left, the final skyline satisfies `merge_sem`. -/
theorem merge_list_sem (fuel : Nat) : ∀ (s1 s2 : List Row) (h1 h2 : Int) (out : List Row),
    merge_inv s1 s2 h1 h2 out → s1.length + s2.length ≤ fuel →
    ∀ x, merge_sem (merge_list fuel s1 s2 h1 h2 out) s1 s2 h1 h2 out x := by
  induction fuel with
  | zero =>
    intro s1 s2 h1 h2 out inv hf x
    cases s1 with
    | nil => rw [merge_list_nil_left]; exact merge_sem_nil_left s2 out h1 h2 x inv
    | cons p1 t1 => simp only [List.length_cons] at hf; omega
  | succ f ih =>
    intro s1 s2 h1 h2 out inv hf x
    cases s1 with
    | nil => rw [merge_list_nil_left]; exact merge_sem_nil_left s2 out h1 h2 x inv
    | cons p1 t1 =>
      cases s2 with
      | nil => rw [merge_list_nil_right]; exact merge_sem_nil_right _ out h1 h2 x inv
      | cons p2 t2 =>
        obtain ⟨it1, g1, e1, l1, n1, q1⟩ := merge_inv_tail p1 t1 inv.inc1 inv.last1 inv.pos1
        obtain ⟨it2, g2, e2, l2, n2, q2⟩ := merge_inv_tail p2 t2 inv.inc2 inv.last2 inv.pos2
        have a1 : ∀ a ∈ out, a.1 < p1.1 :=
          fun a ha => inv.ord1 a ha p1 (List.mem_cons_self _ _)
        have a2 : ∀ a ∈ out, a.1 < p2.1 :=
          fun a ha => inv.ord2 a ha p2 (List.mem_cons_self _ _)
        simp only [List.length_cons] at hf
        simp only [merge_list]
        split
        · next hlt =>
          have g2' := all_gt_cons p2 t2 inv.inc2 _ hlt
          have inv' : merge_inv t1 (p2 :: t2) p1.2 h2
              (add_point out p1.1 (int_max p1.2 h2)) :=
            { inc1 := it1, inc2 := inv.inc2
              ord1 := ord_add_point out t1 _ _ (ord_of_cons out p1 t1 inv.ord1) g1
              ord2 := ord_add_point out (p2 :: t2) _ _ inv.ord2 g2'
              end1 := e1, end2 := fun h => absurd h (List.cons_ne_nil _ _)
              last1 := l1, last2 := inv.last2, nn1 := n1, nn2 := inv.nn2
              pos1 := q1, pos2 := inv.pos2 }
          refine merge_sem_step _ (p1 :: t1) (p2 :: t2) t1 (p2 :: t2) out h1 h2 p1.2 h2 p1.1 x
            (min_head_iff p1 p2 t1 t2 inv.inc1 inv.inc2 p1.1 x (le_refl _) (by omega)
              (Or.inl rfl)) ?_ g1 g2' a1
            (ih _ _ _ _ _ inv' (by simp only [List.length_cons]; omega) x)
          intro hpx
          exact ⟨by rw [level_cons, if_pos hpx], rfl⟩
        · split
          · next hgt =>
            have g1' := all_gt_cons p1 t1 inv.inc1 _ hgt
            have inv' : merge_inv (p1 :: t1) t2 h1 p2.2
                (add_point out p2.1 (int_max h1 p2.2)) :=
              { inc1 := inv.inc1, inc2 := it2
                ord1 := ord_add_point out (p1 :: t1) _ _ inv.ord1 g1'
                ord2 := ord_add_point out t2 _ _ (ord_of_cons out p2 t2 inv.ord2) g2
                end1 := fun h => absurd h (List.cons_ne_nil _ _), end2 := e2
                last1 := inv.last1, last2 := l2, nn1 := inv.nn1, nn2 := n2
                pos1 := inv.pos1, pos2 := q2 }
            refine merge_sem_step _ (p1 :: t1) (p2 :: t2) (p1 :: t1) t2 out h1 h2 h1 p2.2 p2.1
              x (min_head_iff p1 p2 t1 t2 inv.inc1 inv.inc2 p2.1 x (by omega) (le_refl _)
                (Or.inr rfl)) ?_ g1' g2 a2
              (ih _ _ _ _ _ inv' (by simp only [List.length_cons]; omega) x)
            intro hpx
            exact ⟨rfl, by rw [level_cons, if_pos hpx]⟩
          · next hn1 hn2 =>
            have heq : p2.1 = p1.1 := by omega
            have inv' : merge_inv t1 t2 p1.2 p2.2
                (add_point out p2.1 (int_max p1.2 p2.2)) :=
              { inc1 := it1, inc2 := it2
                ord1 := ord_add_point out t1 _ _ (ord_of_cons out p1 t1 inv.ord1) (heq ▸ g1)
                ord2 := ord_add_point out t2 _ _ (ord_of_cons out p2 t2 inv.ord2) g2
                end1 := e1, end2 := e2, last1 := l1, last2 := l2, nn1 := n1, nn2 := n2
                pos1 := q1, pos2 := q2 }
            refine merge_sem_step _ (p1 :: t1) (p2 :: t2) t1 t2 out h1 h2 p1.2 p2.2 p2.1 x
              (min_head_iff p1 p2 t1 t2 inv.inc1 inv.inc2 p2.1 x (by omega) (le_refl _)
                (Or.inr rfl)) ?_ (heq ▸ g1) g2 a2
              (ih _ _ _ _ _ inv' (by omega) x)
            intro hpx
            exact ⟨by rw [level_cons, if_pos (by omega)], by rw [level_cons, if_pos hpx]⟩

/-- Merging into an empty output gives the pointwise maximum of the two step functions. -/
theorem merge_rows_height_at (s1 s2 : List Row) (hi1 : increasing_x s1)
    (hi2 : increasing_x s2) (hp1 : ∀ p ∈ s1, 0 ≤ p.2) (hp2 : ∀ p ∈ s2, 0 ≤ p.2)
    (hl1 : ∀ q, s1.getLast? = some q → q.2 = 0) (hl2 : ∀ q, s2.getLast? = some q → q.2 = 0)
    (x : Int) :
    height_at (merge_rows s1 s2 []) x = max (height_at s1 x) (height_at s2 x) := by
  have inv : merge_inv s1 s2 0 0 [] :=
    { inc1 := hi1, inc2 := hi2
      ord1 := fun a ha => absurd ha (List.not_mem_nil a)
      ord2 := fun a ha => absurd ha (List.not_mem_nil a)
      end1 := fun _ => rfl, end2 := fun _ => rfl, last1 := hl1, last2 := hl2
      nn1 := le_refl _, nn2 := le_refl _, pos1 := hp1, pos2 := hp2 }
  obtain ⟨hA, hB⟩ := merge_list_sem (s1.length + s2.length) s1 s2 0 0 [] inv (le_refl _) x
  rw [height_at_eq_level s1, height_at_eq_level s2]
  by_cases hall : (∀ p ∈ s1, x < p.1) ∧ (∀ p ∈ s2, x < p.1)
  · rw [level_of_all_gt s1 x hall.1, level_of_all_gt s2 x hall.2]
    exact hA hall.1 hall.2
  · exact hB hall

theorem merge_rows_increasing (s1 s2 : List Row) (hi1 : increasing_x s1)
    (hi2 : increasing_x s2) : increasing_x (merge_rows s1 s2 []) :=
  merge_list_increasing _ s1 s2 0 0 [] hi1 hi2 List.Pairwise.nil
    (fun a ha => absurd ha (List.not_mem_nil a)) (fun a ha => absurd ha (List.not_mem_nil a))

theorem merge_rows_no_repeat (s1 s2 : List Row) : no_repeat (merge_rows s1 s2 []) :=
  merge_list_no_repeat _ s1 s2 0 0 [] List.chain'_nil

/-! ## The upper contour of a list of buildings -/

theorem foldl_max_eq (t : List Int) (ht : ∀ v ∈ t, 0 ≤ v) : ∀ a : Int, 0 ≤ a →
    t.foldl max a = max a (t.foldr max 0) := by
  induction t with
  | nil => intro a ha; simp [ha]
  | cons b t ih =>
    intro a ha
    have hb := ht b (List.mem_cons_self _ _)
    rw [List.foldl_cons, List.foldr_cons,
      ih (fun v hv => ht v (List.mem_cons_of_mem _ hv)) (max a b) (by omega)]
    omega

theorem max_or_zero_eq_foldr (hs : List Int) (h : ∀ v ∈ hs, 0 ≤ v) :
    max_or_zero hs = hs.foldr max 0 := by
  cases hs with
  | nil => rfl
  | cons a t =>
    have ha := h a (List.mem_cons_self _ _)
    have := foldl_max_eq t (fun v hv => h v (List.mem_cons_of_mem _ hv)) a ha
    simp only [max_or_zero, List.max?_cons', List.foldr_cons]
    exact this

theorem foldr_max_nonneg (hs : List Int) : 0 ≤ hs.foldr max 0 := by
  induction hs with
  | nil => simp
  | cons a t ih => rw [List.foldr_cons]; omega

theorem foldr_max_append (a b : List Int) :
    (a ++ b).foldr max 0 = max (a.foldr max 0) (b.foldr max 0) := by
  induction a with
  | nil =>
    have := foldr_max_nonneg b
    simp only [List.nil_append, List.foldr_nil]
    omega
  | cons v t ih =>
    simp only [List.cons_append, List.foldr_cons, ih]
    omega

theorem cover_heights_nonneg (bs : List Building) (hv : ∀ b ∈ bs, valid_building b) (x : Int) :
    ∀ v ∈ (bs.filter fun b => decide (covers b x)).map (fun b => b.2.2), 0 ≤ v := by
  intro v hv'
  obtain ⟨b, hb, rfl⟩ := List.mem_map.mp hv'
  have := (hv b (List.mem_filter.mp hb).1).2
  omega

theorem max_cover_eq_foldr (bs : List Building) (hv : ∀ b ∈ bs, valid_building b) (x : Int) :
    max_cover bs x
      = ((bs.filter fun b => decide (covers b x)).map fun b => b.2.2).foldr max 0 :=
  max_or_zero_eq_foldr _ (cover_heights_nonneg bs hv x)

theorem max_cover_nonneg (bs : List Building) (hv : ∀ b ∈ bs, valid_building b) (x : Int) :
    0 ≤ max_cover bs x := by
  rw [max_cover_eq_foldr bs hv]
  exact foldr_max_nonneg _

theorem max_cover_append (a b : List Building) (ha : ∀ c ∈ a, valid_building c)
    (hb : ∀ c ∈ b, valid_building c) (x : Int) :
    max_cover (a ++ b) x = max (max_cover a x) (max_cover b x) := by
  have hab : ∀ c ∈ a ++ b, valid_building c := by
    intro c hc
    rcases List.mem_append.mp hc with h | h
    · exact ha c h
    · exact hb c h
  rw [max_cover_eq_foldr _ hab, max_cover_eq_foldr _ ha, max_cover_eq_foldr _ hb,
    List.filter_append, List.map_append, foldr_max_append]

theorem max_cover_single (b : Building) (x : Int) :
    max_cover [b] x = if covers b x then b.2.2 else 0 := by
  by_cases h : covers b x <;> simp [max_cover, max_or_zero, h]

theorem max_cover_of_none (bs : List Building) (x : Int) (h : ∀ b ∈ bs, ¬ covers b x) :
    max_cover bs x = 0 := by
  have : (bs.filter fun b => decide (covers b x)) = [] := by
    rw [List.filter_eq_nil_iff]
    intro b hb
    simpa using h b hb
  simp [max_cover, max_or_zero, this]

theorem no_cover_far_right (bs : List Building) :
    ∃ B : Int, ∀ x, B ≤ x → ∀ b ∈ bs, ¬ covers b x := by
  induction bs with
  | nil => exact ⟨0, fun x _ b hb => absurd hb (List.not_mem_nil b)⟩
  | cons b t ih =>
    obtain ⟨B, hB⟩ := ih
    refine ⟨max B b.2.1, fun x hx c hc hcov => ?_⟩
    rcases List.mem_cons.mp hc with h | h
    · subst h
      have := hcov.2
      omega
    · exact hB x (by omega) c h hcov

theorem max_cover_far_right (bs : List Building) :
    ∃ B : Int, ∀ x, B ≤ x → max_cover bs x = 0 := by
  obtain ⟨B, hB⟩ := no_cover_far_right bs
  exact ⟨B, fun x hx => max_cover_of_none bs x (hB x hx)⟩

theorem level_append (h : Int) (a b : List Row) (x : Int) :
    level h (a ++ b) x = level (level h a x) b x := by
  simp [level, List.foldl_append]

/-- In a skyline with strictly increasing x, the height at a key point's x is that key
point's height. -/
theorem height_at_self (s : List Row) (hs : increasing_x s) (p : Row) (hp : p ∈ s) :
    height_at s p.1 = p.2 := by
  obtain ⟨pre, post, rfl⟩ := List.append_of_mem hp
  unfold increasing_x at hs
  rw [List.pairwise_append] at hs
  have hpost := (increasing_x_tail p post hs.2.1).2
  rw [height_at_eq_level, level_append, level_cons, if_pos (le_refl _),
    level_of_all_gt post p.1 hpost]

theorem heights_nonneg_of_sem (s : List Row) (hs : increasing_x s) (F : Int → Int)
    (hF : ∀ x, height_at s x = F x) (hnn : ∀ x, 0 ≤ F x) : ∀ p ∈ s, 0 ≤ p.2 := by
  intro p hp
  rw [← height_at_self s hs p hp, hF]
  exact hnn _

theorem last_zero_of_sem (s : List Row) (hs : increasing_x s) (F : Int → Int)
    (hF : ∀ x, height_at s x = F x) (hfar : ∃ B : Int, ∀ x, B ≤ x → F x = 0) :
    ∀ q, s.getLast? = some q → q.2 = 0 := by
  intro q hq
  obtain ⟨B, hB⟩ := hfar
  obtain ⟨t, rfl⟩ := List.getLast?_eq_some_iff.mp hq
  have hlt : ∀ a ∈ t, a.1 < q.1 := by
    unfold increasing_x at hs
    rw [List.pairwise_append] at hs
    exact fun a ha => hs.2.2 a ha q (List.mem_singleton_self q)
  have hall : ∀ a ∈ t ++ [q], a.1 ≤ max B q.1 := by
    intro a ha
    rcases List.mem_append.mp ha with h | h
    · have := hlt a h; omega
    · rw [List.mem_singleton.mp h]; omega
  have h1 := level_of_all_le (t ++ [q]) (max B q.1) 0 hall
  rw [hq] at h1
  have h2 : level 0 (t ++ [q]) (max B q.1) = q.2 := h1
  rw [← h2, ← height_at_eq_level, hF]
  exact hB _ (by omega)

theorem slice_single (bs : List Building) (l : Int) (b : Building)
    (hget : bs.get? l.toNat = some b) : slice bs l l = [b] := by
  have hlt : l.toNat < bs.length := by
    by_contra hc
    rw [List.get?_eq_none.mpr (by omega)] at hget
    exact Option.noConfusion hget
  have hb : bs[l.toNat] = b := by
    rw [List.get?_eq_get hlt] at hget
    exact Option.some.inj hget
  have h1 : (l - l + 1).toNat = 1 := by omega
  rw [slice, h1, List.drop_eq_getElem_cons hlt, hb]
  rfl

theorem slice_split (bs : List Building) (l m r : Int) (h0 : 0 ≤ l) (hlm : l ≤ m)
    (hmr : m < r) : slice bs l r = slice bs l m ++ slice bs (m + 1) r := by
  have h1 : (r - l + 1).toNat = (m - l + 1).toNat + (r - (m + 1) + 1).toNat := by omega
  have h2 : l.toNat + (m - l + 1).toNat = (m + 1).toNat := by omega
  rw [slice, slice, slice, h1, List.take_add, List.drop_drop, h2]

theorem slice_full (bs : List Building) : slice bs 0 ((bs.length : Int) - 1) = bs := by
  have h1 : ((bs.length : Int) - 1 - 0 + 1).toNat = bs.length := by omega
  rw [slice, h1]
  simp

theorem mem_of_mem_slice (bs : List Building) (l r : Int) (b : Building)
    (h : b ∈ slice bs l r) : b ∈ bs :=
  List.mem_of_mem_drop (List.mem_of_mem_take h)

theorem leaf_rows (b : Building) (hb : valid_building b) :
    add_point (add_point [] b.1 b.2.2) b.2.1 0 = [(b.1, b.2.2), (b.2.1, 0)] := by
  have h : ¬ b.2.2 = 0 := by have := hb.2; omega
  simp [add_point, h]

/-- The rows `get_skyline` writes for `[l, r]` have strictly increasing x and their step
function is the upper contour of the buildings `l` to `r`. -/
theorem skyline_rows_sem (bs : List Building) (hv : ∀ b ∈ bs, valid_building b)
    (fuel : Nat) : ∀ (l r : Int), 0 ≤ l → l ≤ r → r < bs.length → r - l + 1 ≤ fuel →
    increasing_x (skyline_rows bs fuel l r)
    ∧ ∀ x, height_at (skyline_rows bs fuel l r) x = max_cover (slice bs l r) x := by
  induction fuel with
  | zero => intro l r h0 hlr hr hf; omega
  | succ f ih =>
    intro l r h0 hlr hr hf
    by_cases heq : l = r
    · subst heq
      have hidx : l.toNat < bs.length := by omega
      obtain ⟨b, hget⟩ : ∃ b, bs.get? l.toNat = some b := ⟨_, List.get?_eq_get hidx⟩
      have hget' : bs[l.toNat]? = some b := by simpa using hget
      have hb : valid_building b := hv b (List.get?_mem hget)
      have hsr : skyline_rows bs (f + 1) l l = [(b.1, b.2.2), (b.2.1, 0)] := by
        rw [← leaf_rows b hb]
        simp [skyline_rows, hget']
      rw [hsr, slice_single bs l b hget]
      constructor
      · unfold increasing_x
        simpa using hb.1
      · intro x
        rw [height_at_eq_level, max_cover_single]
        unfold covers
        simp only [level, List.foldl_cons, List.foldl_nil]
        have := hb.1
        split_ifs <;> omega
    · have hlt : l < r := by omega
      have hsr : skyline_rows bs (f + 1) l r
          = merge_rows (skyline_rows bs f l (l + (r - l) / 2))
              (skyline_rows bs f (l + (r - l) / 2 + 1) r) [] := by
        rw [skyline_rows]
        simp [heq, hlt]
      obtain ⟨i1, s1⟩ := ih l (l + (r - l) / 2) h0 (by omega) (by omega) (by omega)
      obtain ⟨i2, s2⟩ := ih (l + (r - l) / 2 + 1) r (by omega) (by omega) hr (by omega)
      have v1 : ∀ b ∈ slice bs l (l + (r - l) / 2), valid_building b :=
        fun b hb => hv b (mem_of_mem_slice bs _ _ b hb)
      have v2 : ∀ b ∈ slice bs (l + (r - l) / 2 + 1) r, valid_building b :=
        fun b hb => hv b (mem_of_mem_slice bs _ _ b hb)
      rw [hsr, slice_split bs l (l + (r - l) / 2) r h0 (by omega) (by omega)]
      refine ⟨merge_rows_increasing _ _ i1 i2, fun x => ?_⟩
      rw [merge_rows_height_at _ _ i1 i2
        (heights_nonneg_of_sem _ i1 _ s1 (max_cover_nonneg _ v1))
        (heights_nonneg_of_sem _ i2 _ s2 (max_cover_nonneg _ v2))
        (last_zero_of_sem _ i1 _ s1 (max_cover_far_right _))
        (last_zero_of_sem _ i2 _ s2 (max_cover_far_right _)) x,
        s1 x, s2 x, max_cover_append _ _ v1 v2]

theorem skyline_rows_no_repeat (bs : List Building) (fuel : Nat) (l r : Int) :
    no_repeat (skyline_rows bs fuel l r) := by
  cases fuel with
  | zero => exact List.chain'_nil
  | succ f =>
    rw [skyline_rows]
    split
    · split
      · exact no_repeat_add_point _ _ _ (no_repeat_add_point _ _ _ List.chain'_nil)
      · exact List.chain'_nil
    · split
      · exact List.chain'_nil
      · exact merge_rows_no_repeat _ _

/-- Facts about `skyline_of` for a non-empty list of valid buildings. -/
theorem skyline_of_sem (bs : List Building) (hne : 1 ≤ bs.length)
    (hv : ∀ b ∈ bs, valid_building b) :
    increasing_x (skyline_of bs) ∧ no_repeat (skyline_of bs)
    ∧ ∀ x, height_at (skyline_of bs) x = max_cover bs x := by
  obtain ⟨hi, hs⟩ := skyline_rows_sem bs hv (bs.length + 1) 0 ((bs.length : Int) - 1)
    (le_refl _) (by omega) (by omega) (by push_cast; omega)
  rw [slice_full] at hs
  exact ⟨hi, skyline_rows_no_repeat _ _ _ _, hs⟩

/-! ## Claims about `getSkyline` -/

/-- C1: for a building list of length `n` with `1 ≤ n ≤ 512`, sorted by ascending left, in
which every building has `left < right` and `height > 0`, `getSkyline` succeeds from any
initial content of the scratch buffers and the skyline it returns is the upper contour:
for every integer `x`, the height of its last key point with x-coordinate `≤ x` (`0` if
there is none) is the maximum height of the buildings with `left ≤ x < right` (`0` if
there is none). -/
theorem getSkyline_upper_contour (buildings : List Building) (n : Int) (mem : Mem)
    (hn : n = buildings.length) (h1 : 1 ≤ n) (h512 : n ≤ 512)
    (_hsorted : sorted_by_left buildings) (hvalid : ∀ b ∈ buildings, valid_building b) :
    ∃ res, getSkyline buildings n mem = .ok res
      ∧ ∀ x, height_at res.ret x = max_cover buildings x := by
  refine ⟨_, getSkyline_eq buildings n mem hn h1 h512, ?_⟩
  exact (skyline_of_sem buildings (by omega) hvalid).2.2

theorem getSkyline_upper_contour_witness :
    (2 : Int) = ([(1, 3, 3), (5, 7, 4)] : List Building).length ∧ (1 : Int) ≤ 2
    ∧ (2 : Int) ≤ 512 ∧ sorted_by_left [(1, 3, 3), (5, 7, 4)]
    ∧ (∀ b ∈ ([(1, 3, 3), (5, 7, 4)] : List Building), valid_building b)
    ∧ ∃ res, getSkyline [(1, 3, 3), (5, 7, 4)] 2 zero_mem = .ok res
      ∧ ∀ x, height_at res.ret x = max_cover [(1, 3, 3), (5, 7, 4)] x :=
  ⟨by decide, by decide, by decide, by decide, by decide,
    getSkyline_upper_contour [(1, 3, 3), (5, 7, 4)] 2 zero_mem (by decide) (by decide)
      (by decide) (by decide) (by decide)⟩

/-- C2: for a building list of length `n` with `1 ≤ n ≤ 512`, sorted by ascending left, in
which every building has `left < right` and `height > 0`, the skyline `getSkyline` returns
has strictly increasing x-coordinates and no two consecutive key points of the same
height. -/
theorem getSkyline_invariant (buildings : List Building) (n : Int) (mem : Mem)
    (hn : n = buildings.length) (h1 : 1 ≤ n) (h512 : n ≤ 512)
    (_hsorted : sorted_by_left buildings) (hvalid : ∀ b ∈ buildings, valid_building b) :
    ∃ res, getSkyline buildings n mem = .ok res
      ∧ increasing_x res.ret ∧ no_repeat res.ret := by
  have h := skyline_of_sem buildings (by omega) hvalid
  exact ⟨_, getSkyline_eq buildings n mem hn h1 h512, h.1, h.2.1⟩

theorem getSkyline_invariant_witness :
    (2 : Int) = ([(1, 3, 3), (5, 7, 4)] : List Building).length ∧ (1 : Int) ≤ 2
    ∧ (2 : Int) ≤ 512 ∧ sorted_by_left [(1, 3, 3), (5, 7, 4)]
    ∧ (∀ b ∈ ([(1, 3, 3), (5, 7, 4)] : List Building), valid_building b)
    ∧ ∃ res, getSkyline [(1, 3, 3), (5, 7, 4)] 2 zero_mem = .ok res
      ∧ increasing_x res.ret ∧ no_repeat res.ret :=
  ⟨by decide, by decide, by decide, by decide, by decide,
    getSkyline_invariant [(1, 3, 3), (5, 7, 4)] 2 zero_mem (by decide) (by decide)
      (by decide) (by decide) (by decide)⟩

/-- C3: on the input `[(2,9,10),(3,7,15),(5,12,12),(15,20,10),(19,24,8)]`, from any initial
content of the scratch buffers, `getSkyline` returns exactly the 7 key points
`[(2,10),(3,15),(7,12),(12,0),(15,10),(20,8),(24,0)]`, with `returnSize = 7`. -/
theorem getSkyline_classic (mem : Mem) :
    getSkyline [(2, 9, 10), (3, 7, 15), (5, 12, 12), (15, 20, 10), (19, 24, 8)] 5 mem
      = .ok ⟨7, [(2, 10), (3, 15), (7, 12), (12, 0), (15, 10), (20, 8), (24, 0)],
          [2, 2, 2, 2, 2, 2, 2]⟩ := by
  rw [getSkyline_eq _ 5 mem (by decide) (by decide) (by decide)]
  have h : skyline_of [(2, 9, 10), (3, 7, 15), (5, 12, 12), (15, 20, 10), (19, 24, 8)]
      = [(2, 10), (3, 15), (7, 12), (12, 0), (15, 10), (20, 8), (24, 0)] := by decide
  rw [h]
  rfl

/-- C4: for a single building `(left, right, height)` with `left < right` and
`height > 0`, `getSkyline` on the one-element list returns exactly the two key points
`[(left, height), (right, 0)]`; and `building_to_skyline` applied to an empty skyline with
room for two rows writes these two points and sets the size to `2`. -/
theorem getSkyline_single (left right height : Int) (mem : Mem) (hlr : left < right)
    (hh : 0 < height) :
    getSkyline [(left, right, height)] 1 mem
      = .ok ⟨2, [(left, height), (right, 0)], [2, 2]⟩
    ∧ ∀ skyline : Ptr, valid_base skyline → skyline.off + 2 ≤ 1024 →
        ∃ mem1, building_to_skyline (left, right, height) mem skyline 0 = .ok (mem1, 2)
          ∧ read_rows mem1 skyline 2 = [(left, height), (right, 0)] := by
  have hleaf := leaf_rows (left, right, height) ⟨hlr, hh⟩
  constructor
  · rw [getSkyline_eq _ 1 mem (by simp) (by decide) (by decide)]
    have h : skyline_of [(left, right, height)] = [(left, height), (right, 0)] := by
      rw [← hleaf]
      simp [skyline_of, skyline_rows]
    rw [h]
    rfl
  · intro skyline hv hb
    obtain ⟨mem1, hrun, hrows, _⟩ :=
      building_to_skyline_rows (left, right, height) mem skyline 0 hv (by omega)
    rw [read_rows_zero, hleaf] at hrun hrows
    exact ⟨mem1, hrun, hrows⟩

theorem getSkyline_single_witness :
    (2 : Int) < 9 ∧ (0 : Int) < 10
    ∧ getSkyline [(2, 9, 10)] 1 zero_mem = .ok ⟨2, [(2, 10), (9, 0)], [2, 2]⟩
    ∧ ∃ mem1, building_to_skyline (2, 9, 10) zero_mem ⟨1, 0⟩ 0 = .ok (mem1, 2)
        ∧ read_rows mem1 ⟨1, 0⟩ 2 = [(2, 10), (9, 0)] :=
  ⟨by decide, by decide, (getSkyline_single 2 9 10 zero_mem (by decide) (by decide)).1,
    (getSkyline_single 2 9 10 zero_mem (by decide) (by decide)).2 ⟨1, 0⟩ (by decide)
      (by decide)⟩

/-- C5: for two buildings `(l1, r1, h1)` and `(l2, r2, h2)` with `l1 < r1 < l2 < r2` and
`h1 > 0`, `h2 > 0`, `getSkyline` on the two-element list returns exactly
`[(l1,h1),(r1,0),(l2,h2),(r2,0)]`. -/
theorem getSkyline_disjoint (l1 r1 h1 l2 r2 h2 : Int) (mem : Mem) (ha : l1 < r1)
    (hb : r1 < l2) (_hc : l2 < r2) (hh1 : 0 < h1) (hh2 : 0 < h2) :
    getSkyline [(l1, r1, h1), (l2, r2, h2)] 2 mem
      = .ok ⟨4, [(l1, h1), (r1, 0), (l2, h2), (r2, 0)], [2, 2, 2, 2]⟩ := by
  rw [getSkyline_eq _ 2 mem (by simp) (by decide) (by decide)]
  have h : skyline_of [(l1, r1, h1), (l2, r2, h2)]
      = [(l1, h1), (r1, 0), (l2, h2), (r2, 0)] := by
    have e1 : ¬ h1 = 0 := by omega
    have e2 : ¬ h2 = 0 := by omega
    have e3 : ¬ (0 : Int) = h2 := by omega
    have e4 : l1 < l2 := by omega
    have e6 : ¬ h1 ≤ 0 := by omega
    simp [skyline_of, skyline_rows, add_point, merge_rows, merge_list, drain_list, int_max,
      e1, e2, e3, e4, e6, hh1, hb]
  rw [h]
  rfl

theorem getSkyline_disjoint_witness :
    (1 : Int) < 3 ∧ (3 : Int) < 5 ∧ (5 : Int) < 7 ∧ (0 : Int) < 3 ∧ (0 : Int) < 4
    ∧ getSkyline [(1, 3, 3), (5, 7, 4)] 2 zero_mem
      = .ok ⟨4, [(1, 3), (3, 0), (5, 4), (7, 0)], [2, 2, 2, 2]⟩ :=
  ⟨by decide, by decide, by decide, by decide, by decide,
    getSkyline_disjoint 1 3 3 5 7 4 zero_mem (by decide) (by decide) (by decide) (by decide)
      (by decide)⟩

/-! ## Claims about `merge_skyline` and `skyline_add_key_point` -/

/-- With its inputs laid out as in `merge_layout`, `merge_skyline` into an empty output
succeeds and writes `merge_rows s1 s2 []`. -/
theorem merge_skyline_layout (mem : Mem) (s1 s2 : List Row) (p1 p2 out : Ptr)
    (lay : merge_layout mem s1 s2 p1 p2 out) :
    ∃ mem1, merge_skyline mem p1 s1.length p2 s2.length out 0
        = .ok (mem1, (merge_rows s1 s2 []).length)
      ∧ read_rows mem1 out (merge_rows s1 s2 []).length = merge_rows s1 s2 [] := by
  obtain ⟨mem1, hrun, hrows, _⟩ := merge_skyline_rows mem p1 s1.length p2 s2.length out 0
    lay.base1 lay.base2 lay.base_out lay.fit1 lay.fit2 (by simpa using lay.fit_out)
    (fun a b ha _ hb => lay.apart1 a b ha (by omega))
    (fun a b ha _ hb => lay.apart2 a b ha (by omega))
  rw [lay.rows1, lay.rows2, read_rows_zero] at hrun hrows
  exact ⟨mem1, hrun, hrows⟩

theorem two_skylines_layout :
    merge_layout two_skylines_mem [(1, 3), (5, 0)] [(1, 4), (5, 0)] ⟨2, 0⟩ ⟨2, 2⟩ ⟨1, 0⟩ where
  base1 := by decide
  base2 := by decide
  base_out := by decide
  fit1 := by decide
  fit2 := by decide
  fit_out := by decide
  rows1 := by decide
  rows2 := by decide
  apart1 := by
    intro a b _ _ h
    simp [Ptr.add] at h
  apart2 := by
    intro a b _ _ h
    simp [Ptr.add] at h

theorem drain_list_eq_append (s : List Row) : ∀ out : List Row, no_repeat (out ++ s) →
    drain_list s out = out ++ s := by
  induction s with
  | nil => intro out _; simp [drain_list]
  | cons p t ih =>
    intro out h
    have hadd : add_point out p.1 p.2 = out ++ [p] := by
      rcases add_point_cases out p.1 p.2 with ⟨_, q, hq, hy⟩ | ⟨he, _⟩
      · unfold no_repeat at h
        rw [List.chain'_append] at h
        exact absurd hy (h.2.2 q hq p (by simp))
      · exact he
    rw [drain_list_cons, hadd, ih (out ++ [p]) (by simpa using h)]
    simp

/-- C6: for two skylines `s1` and `s2` that each have strictly increasing x, heights `≥ 0`
and (when non-empty) a final key point of height `0`, `merge_skyline` into an initially
empty output succeeds and produces a skyline whose height function is the pointwise
maximum of the inputs: at every integer `x` its height is
`max (height_at s1 x) (height_at s2 x)`. -/
theorem merge_skyline_pointwise_max (mem : Mem) (s1 s2 : List Row) (p1 p2 out : Ptr)
    (lay : merge_layout mem s1 s2 p1 p2 out)
    (hi1 : increasing_x s1) (hi2 : increasing_x s2)
    (hpos1 : ∀ p ∈ s1, 0 ≤ p.2) (hpos2 : ∀ p ∈ s2, 0 ≤ p.2)
    (hl1 : ∀ q, s1.getLast? = some q → q.2 = 0)
    (hl2 : ∀ q, s2.getLast? = some q → q.2 = 0) :
    ∃ mem1 k, merge_skyline mem p1 s1.length p2 s2.length out 0 = .ok (mem1, k)
      ∧ ∀ x, height_at (read_rows mem1 out k) x = max (height_at s1 x) (height_at s2 x) := by
  obtain ⟨mem1, hrun, hrows⟩ := merge_skyline_layout mem s1 s2 p1 p2 out lay
  refine ⟨mem1, _, hrun, fun x => ?_⟩
  rw [hrows]
  exact merge_rows_height_at s1 s2 hi1 hi2 hpos1 hpos2 hl1 hl2 x

theorem merge_skyline_pointwise_max_witness :
    ∃ mem1 k, merge_skyline two_skylines_mem ⟨2, 0⟩ 2 ⟨2, 2⟩ 2 ⟨1, 0⟩ 0 = .ok (mem1, k)
      ∧ ∀ x, height_at (read_rows mem1 ⟨1, 0⟩ k) x
          = max (height_at [(1, 3), (5, 0)] x) (height_at [(1, 4), (5, 0)] x) :=
  merge_skyline_pointwise_max two_skylines_mem [(1, 3), (5, 0)] [(1, 4), (5, 0)] ⟨2, 0⟩ ⟨2, 2⟩
    ⟨1, 0⟩ two_skylines_layout (by decide) (by decide) (by decide) (by decide) (by decide)
    (by decide)

/-- C7: for two input skylines that each have strictly increasing x-coordinates,
`merge_skyline` into an initially empty output succeeds and its result has strictly
increasing x-coordinates and no two consecutive key points of equal height. -/
theorem merge_skyline_invariant (mem : Mem) (s1 s2 : List Row) (p1 p2 out : Ptr)
    (lay : merge_layout mem s1 s2 p1 p2 out)
    (hi1 : increasing_x s1) (hi2 : increasing_x s2) :
    ∃ mem1 k, merge_skyline mem p1 s1.length p2 s2.length out 0 = .ok (mem1, k)
      ∧ increasing_x (read_rows mem1 out k) ∧ no_repeat (read_rows mem1 out k) := by
  obtain ⟨mem1, hrun, hrows⟩ := merge_skyline_layout mem s1 s2 p1 p2 out lay
  refine ⟨mem1, _, hrun, ?_, ?_⟩
  · rw [hrows]; exact merge_rows_increasing s1 s2 hi1 hi2
  · rw [hrows]; exact merge_rows_no_repeat s1 s2

theorem merge_skyline_invariant_witness :
    ∃ mem1 k, merge_skyline two_skylines_mem ⟨2, 0⟩ 2 ⟨2, 2⟩ 2 ⟨1, 0⟩ 0 = .ok (mem1, k)
      ∧ increasing_x (read_rows mem1 ⟨1, 0⟩ k) ∧ no_repeat (read_rows mem1 ⟨1, 0⟩ k) :=
  merge_skyline_invariant two_skylines_mem [(1, 3), (5, 0)] [(1, 4), (5, 0)] ⟨2, 0⟩ ⟨2, 2⟩
    ⟨1, 0⟩ two_skylines_layout (by decide) (by decide)

theorem merge_rows_nil_right (s : List Row) (h : no_repeat s) : merge_rows s [] [] = s := by
  rw [merge_rows, merge_list_nil_right, drain_list_eq_append s [] (by simpa using h)]
  rfl

theorem merge_rows_nil_left (s : List Row) (h : no_repeat s) : merge_rows [] s [] = s := by
  rw [merge_rows, merge_list_nil_left, drain_list_eq_append s [] (by simpa using h)]
  rfl

/-- C8: for a skyline `s` with strictly increasing x and no two consecutive equal heights,
`merge_skyline` of `s` with an empty skyline and of an empty skyline with `s`, into an
initially empty output, both succeed and produce exactly `s` (same points, same length);
and merging two empty skylines produces the empty skyline. -/
theorem merge_skyline_identity (mem : Mem) (s : List Row) (p pe out : Ptr)
    (_hinc : increasing_x s) (hnr : no_repeat s) :
    (merge_layout mem s [] p pe out →
      ∃ mem1, merge_skyline mem p s.length pe 0 out 0 = .ok (mem1, s.length)
        ∧ read_rows mem1 out s.length = s)
    ∧ (merge_layout mem [] s pe p out →
      ∃ mem1, merge_skyline mem pe 0 p s.length out 0 = .ok (mem1, s.length)
        ∧ read_rows mem1 out s.length = s)
    ∧ merge_skyline mem p 0 pe 0 out 0 = .ok (mem, 0) := by
  refine ⟨fun lay => ?_, fun lay => ?_, ?_⟩
  · obtain ⟨mem1, hrun, hrows⟩ := merge_skyline_layout mem s [] p pe out lay
    rw [merge_rows_nil_right s hnr] at hrun hrows
    exact ⟨mem1, hrun, hrows⟩
  · obtain ⟨mem1, hrun, hrows⟩ := merge_skyline_layout mem [] s pe p out lay
    rw [merge_rows_nil_left s hnr] at hrun hrows
    exact ⟨mem1, hrun, hrows⟩
  · simp [merge_skyline, merge_loop, drain_loop, Except.bind]

theorem one_skyline_layout_right :
    merge_layout one_skyline_mem [(1, 3), (5, 0)] [] ⟨2, 0⟩ ⟨2, 2⟩ ⟨1, 0⟩ where
  base1 := by decide
  base2 := by decide
  base_out := by decide
  fit1 := by decide
  fit2 := by decide
  fit_out := by decide
  rows1 := by decide
  rows2 := by decide
  apart1 := by
    intro a b _ _ h
    simp [Ptr.add] at h
  apart2 := by
    intro a b _ _ h
    simp [Ptr.add] at h

theorem one_skyline_layout_left :
    merge_layout one_skyline_mem [] [(1, 3), (5, 0)] ⟨2, 2⟩ ⟨2, 0⟩ ⟨1, 0⟩ where
  base1 := by decide
  base2 := by decide
  base_out := by decide
  fit1 := by decide
  fit2 := by decide
  fit_out := by decide
  rows1 := by decide
  rows2 := by decide
  apart1 := by
    intro a b _ _ h
    simp [Ptr.add] at h
  apart2 := by
    intro a b _ _ h
    simp [Ptr.add] at h

theorem merge_skyline_identity_witness :
    increasing_x [(1, 3), (5, 0)] ∧ no_repeat [(1, 3), (5, 0)]
    ∧ (∃ mem1, merge_skyline one_skyline_mem ⟨2, 0⟩ 2 ⟨2, 2⟩ 0 ⟨1, 0⟩ 0 = .ok (mem1, 2)
        ∧ read_rows mem1 ⟨1, 0⟩ 2 = [(1, 3), (5, 0)])
    ∧ (∃ mem1, merge_skyline one_skyline_mem ⟨2, 2⟩ 0 ⟨2, 0⟩ 2 ⟨1, 0⟩ 0 = .ok (mem1, 2)
        ∧ read_rows mem1 ⟨1, 0⟩ 2 = [(1, 3), (5, 0)])
    ∧ merge_skyline one_skyline_mem ⟨2, 0⟩ 0 ⟨2, 2⟩ 0 ⟨1, 0⟩ 0 = .ok (one_skyline_mem, 0) :=
  ⟨by decide, by simp [no_repeat],
    (merge_skyline_identity one_skyline_mem [(1, 3), (5, 0)] ⟨2, 0⟩ ⟨2, 2⟩ ⟨1, 0⟩ (by decide)
      (by simp [no_repeat])).1 one_skyline_layout_right,
    (merge_skyline_identity one_skyline_mem [(1, 3), (5, 0)] ⟨2, 0⟩ ⟨2, 2⟩ ⟨1, 0⟩ (by decide)
      (by simp [no_repeat])).2.1 one_skyline_layout_left,
    (merge_skyline_identity one_skyline_mem [(1, 3), (5, 0)] ⟨2, 0⟩ ⟨2, 2⟩ ⟨1, 0⟩ (by decide)
      (by simp [no_repeat])).2.2⟩

/-- C9: for a skyline of `size` rows at `skyline` (a pointer into one of the buffers):
if `size > 0`, the last row is inside the buffer and its height equals `y`,
`skyline_add_key_point` leaves the memory and the size unchanged; otherwise, when slot
`[size]` is inside the buffer, it writes `(x, y)` into slot `[size]`, leaves every other slot
(in particular slots `[0, size)`) unchanged and increases the size by exactly `1`. Whenever
it returns, the size has not decreased, has grown by at most `1`, and has not grown when `y`
equals the last height. -/
theorem skyline_add_key_point_spec (mem : Mem) (skyline : Ptr) (size : Nat) (x y : Int)
    (hbase : valid_base skyline) :
    (0 < size → skyline.off + size ≤ 1024 →
      (mem (skyline.add ((size : Int) - 1))).2 = y →
      skyline_add_key_point mem skyline size x y = .ok (mem, size))
    ∧ ((size = 0 ∨ (mem (skyline.add ((size : Int) - 1))).2 ≠ y) →
      skyline.off + size < 1024 →
      skyline_add_key_point mem skyline size x y
        = .ok (Function.update mem (skyline.add size) (x, y), size + 1)
      ∧ Function.update mem (skyline.add size) (x, y) (skyline.add size) = (x, y)
      ∧ ∀ i : Nat, i < size →
          Function.update mem (skyline.add size) (x, y) (skyline.add i) = mem (skyline.add i))
    ∧ (∀ r, skyline_add_key_point mem skyline size x y = .ok r →
        size ≤ r.2 ∧ r.2 ≤ size + 1
        ∧ (0 < size → (mem (skyline.add ((size : Int) - 1))).2 = y → r.2 = size)) := by
  refine ⟨?_, ?_, ?_⟩
  · intro hpos hfit hy
    have hl : in_bounds (skyline.add ((size : Int) - 1)) :=
      in_bounds_add skyline _ hbase (by omega) (by omega)
    simp [skyline_add_key_point, hpos, load_ok mem _ hl, Except.bind, hy]
  · intro hcase hfit
    have hs : in_bounds (skyline.add (size : Int)) :=
      in_bounds_add skyline _ hbase (by omega) (by omega)
    refine ⟨?_, by simp, ?_⟩
    · rcases hcase with h0 | hne
      · subst h0
        simp only [Nat.cast_zero] at hs
        simp [skyline_add_key_point, store, hs, Except.bind]
      · by_cases hpos : 0 < size
        · have hl : in_bounds (skyline.add ((size : Int) - 1)) :=
            in_bounds_add skyline _ hbase (by omega) (by omega)
          simp [skyline_add_key_point, hpos, load_ok mem _ hl, Except.bind, hne, store, hs]
        · have h0 : size = 0 := by omega
          subst h0
          simp only [Nat.cast_zero] at hs
          simp [skyline_add_key_point, store, hs, Except.bind]
    · intro i hi
      apply Function.update_noteq
      intro h
      have := (Ptr.add_inj skyline i size).mp h
      omega
  · intro r hr
    simp only [skyline_add_key_point, load, store] at hr
    by_cases hpos : 0 < size <;>
      by_cases hl : in_bounds (skyline.add ((size : Int) - 1)) <;>
      by_cases hs : in_bounds (skyline.add (size : Int)) <;>
      by_cases hy : (mem (skyline.add ((size : Int) - 1))).2 = y <;>
      simp [hpos, hl, hs, hy, Except.bind] at hr <;>
      (try (rw [← hr]; simp [hy, hpos]))

theorem skyline_add_key_point_spec_witness :
    valid_base ⟨2, 0⟩
    ∧ skyline_add_key_point one_skyline_mem ⟨2, 0⟩ 2 7 0 = .ok (one_skyline_mem, 2)
    ∧ skyline_add_key_point one_skyline_mem ⟨2, 0⟩ 2 7 4
        = .ok (Function.update one_skyline_mem (Ptr.add ⟨2, 0⟩ (2 : Nat)) (7, 4), 2 + 1) :=
  ⟨by decide,
    (skyline_add_key_point_spec one_skyline_mem ⟨2, 0⟩ 2 7 0 (by decide)).1 (by decide)
      (by decide) (by decide),
    ((skyline_add_key_point_spec one_skyline_mem ⟨2, 0⟩ 2 7 4 (by decide)).2.1
      (Or.inr (by decide)) (by decide)).1⟩

/-! ## `remove_duplicates` -/

theorem nums_load_ok (nums : List Int) (k : Nat) (hk : k < nums.length) (i : Int)
    (hi : i = k) : nums_load nums i = .ok (nums.getD k 0) := by
  subst hi
  have h1 : nums.get? k = some (nums.getD k 0) := by
    rw [List.get?_eq_get hk, List.getD_eq_getElem _ _ hk]
    rfl
  simp only [nums_load, Int.toNat_ofNat, h1]
  simp

theorem nums_store_ok (nums : List Int) (k : Nat) (hk : k < nums.length) (i : Int)
    (hi : i = k) (v : Int) : nums_store nums i v = .ok (nums.set k v) := by
  subst hi
  have h1 : (0 : Int) ≤ k ∧ (k : Int) < nums.length := by omega
  simp only [nums_store, h1, and_self, if_true, Int.toNat_ofNat]

theorem take_succ_set (cur : List Int) (p : Nat) (b : Int) (h : p < cur.length) :
    (cur.set p b).take (p + 1) = cur.take p ++ [b] := by
  rw [List.take_succ]
  congr 1
  · apply List.ext_getElem?
    intro i
    rw [List.getElem?_take, List.getElem?_take]
    split
    · rw [List.getElem?_set_ne (by omega)]
    · rfl
  · simp [h]

theorem keep_two_step_take (cur : List Int) (p : Nat) (h2 : 2 ≤ p) (hp : p ≤ cur.length)
    (v : Int) :
    keep_two_step (cur.take p) v
      = if cur.getD (p - 2) 0 < v then cur.take p ++ [v] else cur.take p := by
  have hlen : (cur.take p).length = p := by rw [List.length_take]; omega
  have hget : (cur.take p).getD (p - 2) 0 = cur.getD (p - 2) 0 := by
    rw [List.getD_eq_getElem _ _ (by omega), List.getD_eq_getElem _ _ (by omega)]
    simp
  rw [keep_two_step, hlen, hget]

/-- From a loop state with `2 ≤ p ≤ i ≤ n` and fuel for the iterations left, the loop of
`remove_duplicates` succeeds; on exit the first `p` values are the fold of `keep_two_step`
over the values from `i` on, started from the first `p` values. -/
theorem remove_duplicates_loop_spec (fuel : Nat) : ∀ (cur : List Int) (p i : Nat),
    2 ≤ p → p ≤ i → i ≤ cur.length → cur.length - i ≤ fuel →
    ∃ out, remove_duplicates_loop cur.length fuel cur p i
        = .ok (out, (((cur.drop i).foldl keep_two_step (cur.take p)).length : Nat))
      ∧ out.length = cur.length
      ∧ out.take ((cur.drop i).foldl keep_two_step (cur.take p)).length
        = (cur.drop i).foldl keep_two_step (cur.take p) := by
  induction fuel with
  | zero =>
    intro cur p i h2 hpi hin hf
    have hi : i = cur.length := by omega
    subst hi
    refine ⟨cur, ?_, rfl, ?_⟩
    · rw [remove_duplicates_loop]
      simp [List.length_take, hpi]
    · simp [List.length_take, hpi]
  | succ f ih =>
    intro cur p i h2 hpi hin hf
    by_cases hi : i = cur.length
    · subst hi
      refine ⟨cur, ?_, rfl, ?_⟩
      · rw [remove_duplicates_loop]
        simp [List.length_take, hpi]
      · simp [List.length_take, hpi]
    · have hlt : i < cur.length := by omega
      have hne : ((i : Int) ≠ (cur.length : Int)) := by omega
      have hla := nums_load_ok cur (p - 2) (by omega) ((p : Int) - 2) (by omega)
      have hlb := nums_load_ok cur i hlt (i : Int) rfl
      have hdrop : cur.drop i = cur.getD i 0 :: cur.drop (i + 1) := by
        rw [List.drop_eq_getElem_cons hlt, List.getD_eq_getElem _ _ hlt]
      rw [hdrop, List.foldl_cons, keep_two_step_take cur p h2 (by omega)]
      rw [remove_duplicates_loop]
      simp only [hne, ne_eq, not_false_eq_true, if_true, hla, hlb, Except.bind]
      by_cases hab : cur.getD (p - 2) 0 < cur.getD i 0
      · have hst := nums_store_ok cur p (by omega) (p : Int) rfl (cur.getD i 0)
        obtain ⟨out, hrun, hlen, htake⟩ := ih (cur.set p (cur.getD i 0)) (p + 1) (i + 1)
          (by omega) (by omega) (by rw [List.length_set]; omega)
          (by rw [List.length_set]; omega)
        rw [take_succ_set cur p _ (by omega), List.drop_set_of_lt _ cur (by omega)]
          at hrun htake
        simp only [List.length_set, Nat.cast_add, Nat.cast_one] at hrun hlen
        simp only [hab, if_true, hst]
        exact ⟨out, hrun, hlen, htake⟩
      · obtain ⟨out, hrun, hlen, htake⟩ := ih cur p (i + 1) h2 (by omega) (by omega)
          (by omega)
        simp only [Nat.cast_add, Nat.cast_one] at hrun
        simp only [hab, if_false]
        exact ⟨out, hrun, hlen, htake⟩

/-- `remove_duplicates` succeeds on every array (with `numsSize` its length), returns the
length of `keep_two nums` and leaves `keep_two nums` in the first that many slots. -/
theorem remove_duplicates_eq (nums : List Int) :
    ∃ out, remove_duplicates nums nums.length = .ok (out, ((keep_two nums).length : Nat))
      ∧ out.length = nums.length ∧ out.take (keep_two nums).length = keep_two nums := by
  by_cases h : nums.length < 2
  · have h1 : nums.drop 2 = [] := List.drop_eq_nil_of_le (by omega)
    have h2 : nums.take 2 = nums := List.take_of_length_le (by omega)
    have hk : keep_two nums = nums := by rw [keep_two, h1, h2]; rfl
    have hlt : (nums.length : Int) < 2 := by omega
    rw [hk]
    exact ⟨nums, by simp [remove_duplicates, hlt], rfl, List.take_length _⟩
  · have hge : ¬ (nums.length : Int) < 2 := by omega
    obtain ⟨out, hrun, hlen, htake⟩ := remove_duplicates_loop_spec nums.length nums 2 2
      (le_refl _) (le_refl _) (by omega) (by omega)
    refine ⟨out, ?_, hlen, htake⟩
    simp only [remove_duplicates, hge, if_false, Int.toNat_ofNat]
    exact hrun

theorem keep_two_fold_sorted (rest : List Int) : ∀ acc : List Int,
    non_decreasing acc → non_decreasing rest → (∀ a ∈ acc, ∀ v ∈ rest, a ≤ v) →
    two_apart acc →
    non_decreasing (rest.foldl keep_two_step acc) ∧ two_apart (rest.foldl keep_two_step acc) := by
  induction rest with
  | nil => intro acc ha _ _ hg; exact ⟨ha, hg⟩
  | cons v t ih =>
    intro acc ha hr hle hg
    have hr' : non_decreasing t ∧ ∀ w ∈ t, v ≤ w := by
      unfold non_decreasing at hr ⊢
      rw [List.pairwise_cons] at hr
      exact ⟨hr.2, hr.1⟩
    rw [List.foldl_cons]
    by_cases hacc : acc.getD (acc.length - 2) 0 < v
    · have hstep : keep_two_step acc v = acc ++ [v] := by rw [keep_two_step, if_pos hacc]
      rw [hstep]
      apply ih _ _ hr'.1
      · intro a ha' w hw
        rcases List.mem_append.mp ha' with h | h
        · exact hle a h w (List.mem_cons_of_mem _ hw)
        · rw [List.mem_singleton.mp h]; exact hr'.2 w hw
      · intro j hj
        rw [List.length_append, List.length_singleton] at hj
        rw [List.getD_append _ _ _ _ (by omega)]
        by_cases hlast : j + 2 < acc.length
        · rw [List.getD_append _ _ _ _ hlast]
          exact hg j hlast
        · have hj2 : j + 2 = acc.length := by omega
          have hjj : j = acc.length - 2 := by omega
          rw [List.getD_append_right _ _ _ _ (by omega), hj2, hjj]
          simpa using hacc
      · unfold non_decreasing at ha ⊢
        rw [List.pairwise_append]
        refine ⟨ha, List.pairwise_singleton _ _, ?_⟩
        intro a ha' w hw
        rw [List.mem_singleton.mp hw]
        exact hle a ha' v (List.mem_cons_self _ _)
    · have hstep : keep_two_step acc v = acc := by rw [keep_two_step, if_neg hacc]
      rw [hstep]
      exact ih acc ha hr'.1 (fun a ha' w hw => hle a ha' w (List.mem_cons_of_mem _ hw)) hg

theorem keep_two_sorted (nums : List Int) (hs : non_decreasing nums) :
    non_decreasing (keep_two nums) ∧ two_apart (keep_two nums) := by
  have hsplit : non_decreasing (nums.take 2 ++ nums.drop 2) := by
    rw [List.take_append_drop]; exact hs
  unfold non_decreasing at hsplit
  rw [List.pairwise_append] at hsplit
  apply keep_two_fold_sorted _ _ hsplit.1 hsplit.2.1 hsplit.2.2
  intro j hj
  rw [List.length_take] at hj
  omega

/-- C10, as the code has it: for every non-decreasing integer array `nums` of length `n`,
`remove_duplicates` succeeds, returns `k` and leaves in `nums[0..k)` the first two input
values followed by exactly the later input values that are strictly greater than the value
accepted two places earlier (`keep_two`); the retained part is non-decreasing and every
value in it is strictly smaller than the value two places later, so each value is kept at
most twice. -/
theorem remove_duplicates_keeps_two (nums : List Int) (hs : non_decreasing nums) :
    ∃ out, remove_duplicates nums nums.length = .ok (out, ((keep_two nums).length : Nat))
      ∧ out.take (keep_two nums).length = keep_two nums
      ∧ non_decreasing (keep_two nums) ∧ two_apart (keep_two nums) := by
  obtain ⟨out, hrun, _, htake⟩ := remove_duplicates_eq nums
  exact ⟨out, hrun, htake, keep_two_sorted nums hs⟩

theorem remove_duplicates_keeps_two_witness :
    non_decreasing [1, 1, 1, 2, 2, 3]
    ∧ ∃ out, remove_duplicates [1, 1, 1, 2, 2, 3] ([1, 1, 1, 2, 2, 3] : List Int).length
        = .ok (out, ((keep_two [1, 1, 1, 2, 2, 3]).length : Nat))
      ∧ out.take (keep_two [1, 1, 1, 2, 2, 3]).length = keep_two [1, 1, 1, 2, 2, 3]
      ∧ non_decreasing (keep_two [1, 1, 1, 2, 2, 3])
      ∧ two_apart (keep_two [1, 1, 1, 2, 2, 3]) :=
  ⟨by decide, remove_duplicates_keeps_two [1, 1, 1, 2, 2, 3] (by decide)⟩

/-- C10 fails as stated: on the non-decreasing array `[1, 1, 2]` `remove_duplicates` returns
`3` and leaves `[1, 1, 2]`, which is not strictly increasing and is not the list of values
strictly greater than the previously accepted value (that list is `[1, 2]`). -/
theorem remove_duplicates_not_strict :
    non_decreasing [1, 1, 2]
    ∧ remove_duplicates [1, 1, 2] 3 = .ok ([1, 1, 2], 3)
    ∧ ¬ strictly_increasing (List.take 3 [1, 1, 2])
    ∧ keep_greater_than_previous [1, 1, 2] = [1, 2]
    ∧ List.take 3 [1, 1, 2] ≠ keep_greater_than_previous [1, 1, 2] :=
  ⟨by decide, by rfl, by decide, by decide, by decide⟩

/-! ## Faults -/

theorem bind_eq_ok {α β : Type} (x : Except Fault α) (f : α → Except Fault β) (r : β) :
    x.bind f = .ok r ↔ ∃ a, x = .ok a ∧ f a = .ok r := by
  cases x <;> simp [Except.bind]

theorem only_oob_ok {α : Type} (a : α) : only_oob (Except.ok a : Except Fault α) := by
  intro e h
  exact Except.noConfusion h

theorem only_oob_bind {α β : Type} (x : Except Fault α) (f : α → Except Fault β)
    (hx : only_oob x) (hf : ∀ a, x = .ok a → only_oob (f a)) : only_oob (x.bind f) := by
  cases x with
  | error e0 =>
    intro e h
    exact hx e (by simpa [Except.bind] using h)
  | ok a => exact hf a rfl

theorem only_oob_load (mem : Mem) (p : Ptr) : only_oob (load mem p) := by
  intro e h
  unfold load at h
  split at h
  · exact Except.noConfusion h
  · exact (Except.error.inj h).symm

theorem only_oob_store (mem : Mem) (p : Ptr) (v : Row) : only_oob (store mem p v) := by
  intro e h
  unfold store at h
  split at h
  · exact Except.noConfusion h
  · exact (Except.error.inj h).symm

theorem only_oob_add (mem : Mem) (p : Ptr) (n : Nat) (x y : Int) :
    only_oob (skyline_add_key_point mem p n x y) := by
  have happ : only_oob ((store mem (p.add n) (x, y)).bind fun mem1 =>
      (Except.ok (mem1, n + 1) : Except Fault (Mem × Nat))) :=
    only_oob_bind _ _ (only_oob_store _ _ _) (fun _ _ => only_oob_ok _)
  unfold skyline_add_key_point
  split
  · apply only_oob_bind _ _ (only_oob_load _ _)
    intro last _
    split
    · exact only_oob_ok _
    · exact happ
  · exact happ

theorem only_oob_building (b : Building) (mem : Mem) (p : Ptr) (n : Nat) :
    only_oob (building_to_skyline b mem p n) :=
  only_oob_bind _ _ (only_oob_add _ _ _ _ _) (fun _ _ => only_oob_add _ _ _ _ _)

theorem only_oob_drain (src out : Ptr) (count : Nat) : ∀ (i : Nat) (mem : Mem) (n : Nat),
    only_oob (drain_loop src out count i mem n) := by
  induction count with
  | zero => intro i mem n; exact only_oob_ok _
  | succ c ih =>
    intro i mem n
    rw [drain_loop]
    apply only_oob_bind _ _ (only_oob_load _ _)
    intro p _
    apply only_oob_bind _ _ (only_oob_add _ _ _ _ _)
    intro r _
    exact ih _ _ _

/-- With fuel for the rows left, the `while` loop of `merge_skyline` never runs out of
fuel. -/
theorem only_oob_merge_loop (p1 : Ptr) (n1 : Nat) (p2 : Ptr) (n2 : Nat) (out : Ptr)
    (fuel : Nat) : ∀ st : MergeState, (n1 - st.i1) + (n2 - st.i2) ≤ fuel →
    only_oob (merge_loop p1 n1 p2 n2 out fuel st) := by
  induction fuel with
  | zero =>
    intro st hf
    have hdone : ¬ (st.i1 < n1 ∧ st.i2 < n2) := by omega
    rw [merge_loop_done _ _ _ _ _ _ _ hdone]
    exact only_oob_ok _
  | succ f ih =>
    intro st hf
    by_cases hc : st.i1 < n1 ∧ st.i2 < n2
    · rw [merge_loop]
      simp only [hc, and_self, if_true]
      apply only_oob_bind _ _ (only_oob_load _ _)
      intro a _
      apply only_oob_bind _ _ (only_oob_load _ _)
      intro b _
      apply only_oob_bind _ _ (only_oob_add _ _ _ _ _)
      intro r _
      apply ih
      by_cases c1 : a.1 ≤ b.1 <;> by_cases c2 : b.1 ≤ a.1 <;>
        simp only [c1, c2, if_true, if_false] <;> omega
    · rw [merge_loop_done _ _ _ _ _ _ _ hc]
      exact only_oob_ok _

theorem only_oob_merge_skyline (mem : Mem) (p1 : Ptr) (n1 : Nat) (p2 : Ptr) (n2 : Nat)
    (out : Ptr) (n : Nat) : only_oob (merge_skyline mem p1 n1 p2 n2 out n) := by
  unfold merge_skyline
  apply only_oob_bind _ _ (only_oob_merge_loop _ _ _ _ _ _ _ (by simp))
  intro st _
  apply only_oob_bind _ _ (only_oob_drain _ _ _ _ _ _)
  intro r _
  exact only_oob_drain _ _ _ _ _ _

theorem only_oob_building_at (buildings : List Building) (l : Int) :
    only_oob (building_at buildings l) := by
  intro e h
  unfold building_at at h
  split at h
  · split at h
    · exact Except.noConfusion h
    · exact (Except.error.inj h).symm
  · exact (Except.error.inj h).symm

/-- For a range `l ≤ r` and fuel `≥ r - l + 1`, `get_skyline` neither fails its assertion
nor runs out of fuel, whatever the buildings, the buffers and the pointers are. -/
theorem only_oob_get_skyline (buildings : List Building) (buf1 buf2 : Ptr) (fuel : Nat) :
    ∀ (l r : Int) (mem : Mem) (skyline : Ptr) (n : Nat) (buf_id : Int),
    l ≤ r → r - l + 1 ≤ fuel →
    only_oob (get_skyline buildings buf1 buf2 fuel l r mem skyline n buf_id) := by
  induction fuel with
  | zero => intro l r mem skyline n buf_id hlr hf; omega
  | succ f ih =>
    intro l r mem skyline n buf_id hlr hf
    rw [get_skyline]
    by_cases heq : l = r
    · simp only [heq, if_true]
      exact only_oob_bind _ _ (only_oob_building_at _ _) (fun _ _ => only_oob_building _ _ _ _)
    · have hlt : l < r := by omega
      have hdiv : Int.tdiv (r - l) 2 = (r - l) / 2 :=
        Int.tdiv_eq_ediv (by omega) (by omega)
      simp only [heq, hlt, if_false, not_true_eq_false, hdiv]
      apply only_oob_bind _ _ (ih _ _ _ _ _ _ (by omega) (by omega))
      intro r1 _
      apply only_oob_bind _ _ (ih _ _ _ _ _ _ (by omega) (by omega))
      intro r2 _
      exact only_oob_merge_skyline _ _ _ _ _ _ _

theorem other_buf_off (skyline : Ptr) (buf_id : Int) :
    (get_the_other_buf ⟨1, 0⟩ ⟨2, 0⟩ skyline buf_id).1.off = skyline.off := by
  unfold get_the_other_buf
  split <;> simp [Ptr.add, Ptr.diff]

theorem bind_error {α β : Type} (e : Fault) (f : α → Except Fault β) :
    (Except.error e : Except Fault α).bind f = .error e := rfl

/-- A call of `get_skyline` whose last building's rows start at or beyond row `1024` stops
at an access outside the buffers. -/
theorem get_skyline_oob (buildings : List Building) (fuel : Nat) :
    ∀ (l r : Int) (mem : Mem) (skyline : Ptr) (buf_id : Int),
    l ≤ r → r - l + 1 ≤ fuel → 1024 ≤ skyline.off + 2 * (r - l) →
    get_skyline buildings ⟨1, 0⟩ ⟨2, 0⟩ fuel l r mem skyline 0 buf_id
      = .error .out_of_bounds := by
  induction fuel with
  | zero => intro l r mem skyline buf_id hlr hf; omega
  | succ f ih =>
    intro l r mem skyline buf_id hlr hf hoff
    by_cases heq : l = r
    · subst heq
      have hnb : ¬ in_bounds (skyline.add 0) := by
        intro h
        have := h.2.2
        simp only [Ptr.add, BUF_ROWS] at this
        omega
      rw [get_skyline]
      simp only [if_true]
      cases hb : building_at buildings l with
      | error e =>
        have := only_oob_building_at buildings l e hb
        rw [this]
        rfl
      | ok b =>
        simp [Except.bind, building_to_skyline, skyline_add_key_point, store, hnb]
    · have hlt : l < r := by omega
      have hdiv : Int.tdiv (r - l) 2 = (r - l) / 2 :=
        Int.tdiv_eq_ediv (by omega) (by omega)
      have hright := fun m1 => ih (l + (r - l) / 2 + 1) r m1
        ((get_the_other_buf ⟨1, 0⟩ ⟨2, 0⟩ skyline buf_id).1.add (2 * (l + (r - l) / 2 - l + 1)))
        (get_the_other_buf ⟨1, 0⟩ ⟨2, 0⟩ skyline buf_id).2 (by omega) (by omega)
        (by
          have := other_buf_off skyline buf_id
          simp only [Ptr.add]
          omega)
      rw [get_skyline]
      simp only [heq, hlt, if_false, not_true_eq_false, hdiv]
      cases hleft : get_skyline buildings ⟨1, 0⟩ ⟨2, 0⟩ f l (l + (r - l) / 2) mem
          (get_the_other_buf ⟨1, 0⟩ ⟨2, 0⟩ skyline buf_id).1 0
          (get_the_other_buf ⟨1, 0⟩ ⟨2, 0⟩ skyline buf_id).2 with
      | error e =>
        have := only_oob_get_skyline buildings ⟨1, 0⟩ ⟨2, 0⟩ f l (l + (r - l) / 2) mem _ 0 _
          (by omega) (by omega) e hleft
        rw [this]
        rfl
      | ok r1 =>
        simp only [Except.bind, hright r1.1]

/-- With more than `512` buildings `getSkyline` makes no capacity check: the recursion
starts and stops at an access outside the `1024` rows of a scratch buffer. -/
theorem getSkyline_oob (buildings : List Building) (n : Int) (mem : Mem) (hn : 512 < n) :
    getSkyline buildings n mem = .error .out_of_bounds := by
  have h := get_skyline_oob buildings (n.toNat + 1) 0 (n - 1) mem ⟨1, 0⟩ 1 (by omega)
    (by omega) (by simp only; omega)
  simp only [getSkyline, h]
  rfl

/-! ## Which slots a run writes -/

/-- `skyline_add_key_point` changes no slot other than `[size]`, and that one only when
the size grows. -/
theorem add_frame (mem : Mem) (p : Ptr) (n : Nat) (x y : Int) (r : Mem × Nat)
    (h : skyline_add_key_point mem p n x y = .ok r) :
    n ≤ r.2 ∧ ∀ q, (∀ b : Nat, n ≤ b → b < r.2 → q ≠ p.add b) → r.1 q = mem q := by
  have happ : ∀ r : Mem × Nat,
      ((store mem (p.add n) (x, y)).bind fun mem1 =>
        (Except.ok (mem1, n + 1) : Except Fault (Mem × Nat))) = .ok r →
      n ≤ r.2 ∧ ∀ q, (∀ b : Nat, n ≤ b → b < r.2 → q ≠ p.add b) → r.1 q = mem q := by
    intro r hr
    obtain ⟨m1, hst, hr⟩ := (bind_eq_ok _ _ _).mp hr
    unfold store at hst
    split at hst
    · have e1 := Except.ok.inj hst
      have e2 := Except.ok.inj hr
      subst e1
      subst e2
      refine ⟨by simp, fun q hq => ?_⟩
      exact Function.update_noteq (hq n (le_refl _) (by simp)) _ _
    · exact Except.noConfusion hst
  unfold skyline_add_key_point at h
  split at h
  · obtain ⟨last, _, h⟩ := (bind_eq_ok _ _ _).mp h
    split at h
    · have e := Except.ok.inj h
      subst e
      exact ⟨le_refl _, fun q _ => rfl⟩
    · exact happ r h
  · exact happ r h

theorem building_frame (b : Building) (mem : Mem) (p : Ptr) (n : Nat) (r : Mem × Nat)
    (h : building_to_skyline b mem p n = .ok r) :
    n ≤ r.2 ∧ ∀ q, (∀ k : Nat, n ≤ k → k < r.2 → q ≠ p.add k) → r.1 q = mem q := by
  unfold building_to_skyline at h
  obtain ⟨r1, h1, h2⟩ := (bind_eq_ok _ _ _).mp h
  obtain ⟨a1, f1⟩ := add_frame _ _ _ _ _ _ h1
  obtain ⟨a2, f2⟩ := add_frame _ _ _ _ _ _ h2
  refine ⟨by omega, fun q hq => ?_⟩
  rw [f2 q (fun k hk1 hk2 => hq k (by omega) hk2),
    f1 q (fun k hk1 hk2 => hq k hk1 (by omega))]

theorem drain_frame (src out : Ptr) (count : Nat) : ∀ (i : Nat) (mem : Mem) (n : Nat)
    (r : Mem × Nat), drain_loop src out count i mem n = .ok r →
    n ≤ r.2 ∧ ∀ q, (∀ b : Nat, n ≤ b → b < r.2 → q ≠ out.add b) → r.1 q = mem q := by
  induction count with
  | zero =>
    intro i mem n r h
    have e := Except.ok.inj h
    subst e
    exact ⟨le_refl _, fun q _ => rfl⟩
  | succ c ih =>
    intro i mem n r h
    rw [drain_loop] at h
    obtain ⟨p, _, h⟩ := (bind_eq_ok _ _ _).mp h
    obtain ⟨r1, h1, h2⟩ := (bind_eq_ok _ _ _).mp h
    obtain ⟨a1, f1⟩ := add_frame _ _ _ _ _ _ h1
    obtain ⟨a2, f2⟩ := ih _ _ _ _ h2
    refine ⟨by omega, fun q hq => ?_⟩
    rw [f2 q (fun k hk1 hk2 => hq k (by omega) hk2),
      f1 q (fun k hk1 hk2 => hq k hk1 (by omega))]

theorem merge_loop_frame (p1 : Ptr) (n1 : Nat) (p2 : Ptr) (n2 : Nat) (out : Ptr)
    (fuel : Nat) : ∀ (st st1 : MergeState), merge_loop p1 n1 p2 n2 out fuel st = .ok st1 →
    st.skyline_size ≤ st1.skyline_size
    ∧ ∀ q, (∀ b : Nat, st.skyline_size ≤ b → b < st1.skyline_size → q ≠ out.add b) →
        st1.mem q = st.mem q := by
  induction fuel with
  | zero =>
    intro st st1 h
    rw [merge_loop] at h
    split at h
    · exact Except.noConfusion h
    · have e := Except.ok.inj h
      subst e
      exact ⟨le_refl _, fun q _ => rfl⟩
  | succ f ih =>
    intro st st1 h
    rw [merge_loop] at h
    split at h
    · obtain ⟨a, _, h⟩ := (bind_eq_ok _ _ _).mp h
      obtain ⟨b, _, h⟩ := (bind_eq_ok _ _ _).mp h
      obtain ⟨r1, h1, h2⟩ := (bind_eq_ok _ _ _).mp h
      obtain ⟨a1, f1⟩ := add_frame _ _ _ _ _ _ h1
      obtain ⟨a2, f2⟩ := ih _ _ h2
      simp only at a2 f2
      refine ⟨by omega, fun q hq => ?_⟩
      rw [f2 q (fun k hk1 hk2 => hq k (by omega) hk2),
        f1 q (fun k hk1 hk2 => hq k hk1 (by omega))]
    · have e := Except.ok.inj h
      subst e
      exact ⟨le_refl _, fun q _ => rfl⟩

/-- `merge_skyline` changes only the output slots from `[skyline_size]` up to the final
size. -/
theorem merge_skyline_frame (mem : Mem) (p1 : Ptr) (n1 : Nat) (p2 : Ptr) (n2 : Nat) (out : Ptr)
    (n : Nat) (r : Mem × Nat) (h : merge_skyline mem p1 n1 p2 n2 out n = .ok r) :
    n ≤ r.2 ∧ ∀ q, (∀ b : Nat, n ≤ b → b < r.2 → q ≠ out.add b) → r.1 q = mem q := by
  unfold merge_skyline at h
  obtain ⟨st, h0, h⟩ := (bind_eq_ok _ _ _).mp h
  obtain ⟨r1, h1, h2⟩ := (bind_eq_ok _ _ _).mp h
  obtain ⟨a0, f0⟩ := merge_loop_frame _ _ _ _ _ _ _ _ h0
  obtain ⟨a1, f1⟩ := drain_frame _ _ _ _ _ _ _ h1
  obtain ⟨a2, f2⟩ := drain_frame _ _ _ _ _ _ _ h2
  simp only at a0 f0
  refine ⟨by omega, fun q hq => ?_⟩
  rw [f2 q (fun k hk1 hk2 => hq k (by omega) hk2),
    f1 q (fun k hk1 hk2 => hq k (by omega) (by omega)),
    f0 q (fun k hk1 hk2 => hq k hk1 (by omega))]

/-! ## One call of `get_skyline` taken apart -/

theorem same_writes_trans (a a1 a2 b b1 b2 : Mem) (h1 : same_writes a a1 b b1)
    (h2 : same_writes a1 a2 b1 b2) : same_writes a a2 b b2 := by
  intro q
  rcases h2 q with e | ⟨e1, e2⟩
  · exact Or.inl e
  · rcases h1 q with e | ⟨e3, e4⟩
    · exact Or.inl (by rw [e1, e2, e])
    · exact Or.inr ⟨by rw [e1, e3], by rw [e2, e4]⟩

theorem same_writes_of_rows (a a1 b b1 : Mem) (out : Ptr) (k : Nat)
    (hrows : read_rows a1 out k = read_rows b1 out k)
    (fa : ∀ q, (∀ i : Nat, i < k → q ≠ out.add i) → a1 q = a q)
    (fb : ∀ q, (∀ i : Nat, i < k → q ≠ out.add i) → b1 q = b q) :
    same_writes a a1 b b1 := by
  intro q
  by_cases h : ∃ i : Nat, i < k ∧ q = out.add i
  · obtain ⟨i, hi, rfl⟩ := h
    left
    have e1 := read_rows_getElem? a1 out k i hi
    have e2 := read_rows_getElem? b1 out k i hi
    rw [hrows, e2] at e1
    exact (Option.some.inj e1).symm
  · right
    have h' : ∀ i : Nat, i < k → q ≠ out.add i := fun i hi hq => h ⟨i, hi, hq⟩
    exact ⟨fa q h', fb q h'⟩

theorem other_buf_facts (skyline : Ptr) (buf_id : Int) (hid : buf_id = 1 ∨ buf_id = 2)
    (hbuf : (skyline.buf : Int) = buf_id) :
    (get_the_other_buf ⟨1, 0⟩ ⟨2, 0⟩ skyline buf_id).1.off = skyline.off
    ∧ ((get_the_other_buf ⟨1, 0⟩ ⟨2, 0⟩ skyline buf_id).2 = 1
        ∨ (get_the_other_buf ⟨1, 0⟩ ⟨2, 0⟩ skyline buf_id).2 = 2)
    ∧ ((get_the_other_buf ⟨1, 0⟩ ⟨2, 0⟩ skyline buf_id).1.buf : Int)
        = (get_the_other_buf ⟨1, 0⟩ ⟨2, 0⟩ skyline buf_id).2
    ∧ (get_the_other_buf ⟨1, 0⟩ ⟨2, 0⟩ skyline buf_id).1.buf ≠ skyline.buf := by
  unfold get_the_other_buf
  rcases hid with h | h
  · subst h
    simp [Ptr.add, Ptr.diff]
    omega
  · subst h
    simp [Ptr.add, Ptr.diff]
    omega

theorem valid_call_children (buildings : List Building) (f : Nat) (l r : Int) (skyline : Ptr)
    (buf_id : Int) (hc : valid_call buildings (f + 1) l r skyline buf_id) (hlt : l < r)
    (m : Int) (hm : m = l + (r - l) / 2) (ob : Ptr × Int)
    (hob : ob = get_the_other_buf ⟨1, 0⟩ ⟨2, 0⟩ skyline buf_id) :
    valid_call buildings f l m ob.1 ob.2
    ∧ valid_call buildings f (m + 1) r (ob.1.add (2 * (m - l + 1))) ob.2
    ∧ ob.1.buf ≠ skyline.buf ∧ ob.1.off = skyline.off := by
  obtain ⟨o1, o2, o3, o4⟩ := other_buf_facts skyline buf_id hc.id_ok hc.buf_ok
  obtain ⟨h0, hle, hhi, hf, _, _, hoff, hfit⟩ := hc
  subst hob
  subst hm
  refine ⟨⟨h0, by omega, by omega, by omega, o2, o3, by omega, by omega⟩,
    ⟨by omega, by omega, hhi, by omega, o2, o3, ?_, ?_⟩, o4, o1⟩
  · simp only [Ptr.add]; omega
  · simp only [Ptr.add]; omega

/-- A call with `l = r` is `building_to_skyline` on `buildings[l]`. -/
theorem get_skyline_leaf (buildings : List Building) (f : Nat) (l : Int) (mem : Mem)
    (skyline : Ptr) (buf_id : Int) (hc : valid_call buildings (f + 1) l l skyline buf_id) :
    ∃ b mem1, buildings.get? l.toNat = some b
      ∧ get_skyline buildings ⟨1, 0⟩ ⟨2, 0⟩ (f + 1) l l mem skyline 0 buf_id
          = building_to_skyline b mem skyline 0
      ∧ building_to_skyline b mem skyline 0
          = .ok (mem1, (skyline_rows buildings (f + 1) l l).length)
      ∧ read_rows mem1 skyline (skyline_rows buildings (f + 1) l l).length
          = skyline_rows buildings (f + 1) l l := by
  have hidx : l.toNat < buildings.length := by have := hc.hi; have := hc.lo; omega
  obtain ⟨b, hget⟩ : ∃ b, buildings.get? l.toNat = some b := ⟨_, List.get?_eq_get hidx⟩
  have hrun : get_skyline buildings ⟨1, 0⟩ ⟨2, 0⟩ (f + 1) l l mem skyline 0 buf_id
      = building_to_skyline b mem skyline 0 := by
    simp only [get_skyline, if_true, building_at, hc.lo, hget, Except.bind]
  obtain ⟨mem1, h1, h2, _⟩ := get_skyline_rows buildings (f + 1) l l mem skyline buf_id
    hc.lo hc.le hc.hi hc.fuel_ok hc.id_ok hc.buf_ok hc.off_ok hc.fit
  exact ⟨b, mem1, hget, hrun, by rw [← hrun]; exact h1, h2⟩

/-- A call with `l < r` is the left call, the right call on the memory the left one
leaves, and `merge_skyline` on the memory the right one leaves; the right call does not
touch the rows of the left one. -/
theorem get_skyline_node (buildings : List Building) (f : Nat) (l r : Int) (mem : Mem)
    (skyline : Ptr) (buf_id : Int) (hc : valid_call buildings (f + 1) l r skyline buf_id)
    (hlt : l < r) (m : Int) (hm : m = l + (r - l) / 2) (ob : Ptr × Int)
    (hob : ob = get_the_other_buf ⟨1, 0⟩ ⟨2, 0⟩ skyline buf_id) :
    ∃ m1 m2 m3,
      get_skyline buildings ⟨1, 0⟩ ⟨2, 0⟩ f l m mem ob.1 0 ob.2
        = .ok (m1, (skyline_rows buildings f l m).length)
      ∧ get_skyline buildings ⟨1, 0⟩ ⟨2, 0⟩ f (m + 1) r m1 (ob.1.add (2 * (m - l + 1))) 0 ob.2
        = .ok (m2, (skyline_rows buildings f (m + 1) r).length)
      ∧ merge_skyline m2 ob.1 (skyline_rows buildings f l m).length
          (ob.1.add (2 * (m - l + 1))) (skyline_rows buildings f (m + 1) r).length skyline 0
        = .ok (m3, (skyline_rows buildings (f + 1) l r).length)
      ∧ get_skyline buildings ⟨1, 0⟩ ⟨2, 0⟩ (f + 1) l r mem skyline 0 buf_id
        = .ok (m3, (skyline_rows buildings (f + 1) l r).length)
      ∧ read_rows m1 ob.1 (skyline_rows buildings f l m).length = skyline_rows buildings f l m
      ∧ read_rows m2 ob.1 (skyline_rows buildings f l m).length = skyline_rows buildings f l m
      ∧ read_rows m2 (ob.1.add (2 * (m - l + 1))) (skyline_rows buildings f (m + 1) r).length
        = skyline_rows buildings f (m + 1) r
      ∧ read_rows m3 skyline (skyline_rows buildings (f + 1) l r).length
        = skyline_rows buildings (f + 1) l r
      ∧ skyline_rows buildings (f + 1) l r
        = merge_rows (skyline_rows buildings f l m) (skyline_rows buildings f (m + 1) r) [] := by
  obtain ⟨c1, c2, hbuf, hoff⟩ := valid_call_children buildings f l r skyline buf_id hc hlt m hm
    ob hob
  obtain ⟨m1, hrun1, hrows1, _⟩ := get_skyline_rows buildings f l m mem ob.1 ob.2
    c1.lo c1.le c1.hi c1.fuel_ok c1.id_ok c1.buf_ok c1.off_ok c1.fit
  obtain ⟨m2, hrun2, hrows2, hframe2⟩ := get_skyline_rows buildings f (m + 1) r m1
    (ob.1.add (2 * (m - l + 1))) ob.2
    c2.lo c2.le c2.hi c2.fuel_ok c2.id_ok c2.buf_ok c2.off_ok c2.fit
  obtain ⟨m3, hrun3, hrows3, _⟩ := get_skyline_rows buildings (f + 1) l r mem skyline buf_id
    hc.lo hc.le hc.hi hc.fuel_ok hc.id_ok hc.buf_ok hc.off_ok hc.fit
  have hk1 := skyline_rows_length buildings f l m c1.le
  have hkeep : read_rows m2 ob.1 (skyline_rows buildings f l m).length
      = skyline_rows buildings f l m := by
    refine Eq.trans ?_ hrows1
    apply read_rows_congr
    intro i hi
    apply hframe2
    simp only [Ptr.add]
    omega
  have hne : ¬ l = r := by omega
  have hdiv : Int.tdiv (r - l) 2 = (r - l) / 2 :=
    Int.tdiv_eq_ediv (by omega) (by omega)
  have hsr : skyline_rows buildings (f + 1) l r
      = merge_rows (skyline_rows buildings f l m) (skyline_rows buildings f (m + 1) r) [] := by
    rw [skyline_rows, hm]
    simp [hne, hlt]
  have hmerge : merge_skyline m2 ob.1 (skyline_rows buildings f l m).length
      (ob.1.add (2 * (m - l + 1))) (skyline_rows buildings f (m + 1) r).length skyline 0
      = .ok (m3, (skyline_rows buildings (f + 1) l r).length) := by
    rw [← hrun3, get_skyline]
    simp only [hne, hlt, if_false, not_true_eq_false, hdiv, ← hob, ← hm, hrun1, hrun2,
      Except.bind]
  exact ⟨m1, m2, m3, hrun1, hrun2, hmerge, hrun3, hrows1, hkeep, hrows2, hrows3, hsr⟩

/-- The slots a call of `get_skyline` writes and the values it writes there do not depend
on the initial content of the buffers: the call reads no slot before writing it. -/
theorem get_skyline_same_writes (buildings : List Building) (fuel : Nat) :
    ∀ (l r : Int) (mem mem' : Mem) (skyline : Ptr) (buf_id : Int),
    valid_call buildings fuel l r skyline buf_id →
    ∃ m1 m1',
      get_skyline buildings ⟨1, 0⟩ ⟨2, 0⟩ fuel l r mem skyline 0 buf_id
        = .ok (m1, (skyline_rows buildings fuel l r).length)
      ∧ get_skyline buildings ⟨1, 0⟩ ⟨2, 0⟩ fuel l r mem' skyline 0 buf_id
        = .ok (m1', (skyline_rows buildings fuel l r).length)
      ∧ same_writes mem m1 mem' m1' := by
  induction fuel with
  | zero =>
    intro l r mem mem' skyline buf_id hc
    have := hc.fuel_ok
    have := hc.le
    omega
  | succ f ih =>
    intro l r mem mem' skyline buf_id hc
    by_cases heq : l = r
    · subst heq
      obtain ⟨b, m1, hget, hrun, hb, hrows⟩ := get_skyline_leaf buildings f l mem skyline buf_id hc
      obtain ⟨b', m1', hget', hrun', hb', hrows'⟩ :=
        get_skyline_leaf buildings f l mem' skyline buf_id hc
      obtain ⟨_, f1⟩ := building_frame _ _ _ _ _ hb
      obtain ⟨_, f1'⟩ := building_frame _ _ _ _ _ hb'
      refine ⟨m1, m1', by rw [hrun, hb], by rw [hrun', hb'], ?_⟩
      apply same_writes_of_rows mem m1 mem' m1' skyline _ (by rw [hrows, hrows'])
      · exact fun q hq => f1 q (fun k _ hk => hq k hk)
      · exact fun q hq => f1' q (fun k _ hk => hq k hk)
    · have hlt : l < r := by have := hc.le; omega
      obtain ⟨c1, c2, _, _⟩ := valid_call_children buildings f l r skyline buf_id hc hlt _ rfl
        _ rfl
      obtain ⟨m1, m2, m3, hl, hr, hm, hrun, _, _, _, hrows, _⟩ :=
        get_skyline_node buildings f l r mem skyline buf_id hc hlt _ rfl _ rfl
      obtain ⟨m1', m2', m3', hl', hr', hm', hrun', _, _, _, hrows', _⟩ :=
        get_skyline_node buildings f l r mem' skyline buf_id hc hlt _ rfl _ rfl
      obtain ⟨a, a', ha, ha', hsw1⟩ := ih _ _ mem mem' _ _ c1
      obtain ⟨b, b', hb, hb', hsw2⟩ := ih _ _ m1 m1' _ _ c2
      have e1 : a = m1 := by rw [hl] at ha; exact (Prod.mk.inj (Except.ok.inj ha)).1.symm
      have e1' : a' = m1' := by rw [hl'] at ha'; exact (Prod.mk.inj (Except.ok.inj ha')).1.symm
      have e2 : b = m2 := by rw [hr] at hb; exact (Prod.mk.inj (Except.ok.inj hb)).1.symm
      have e2' : b' = m2' := by rw [hr'] at hb'; exact (Prod.mk.inj (Except.ok.inj hb')).1.symm
      subst e1 e1' e2 e2'
      obtain ⟨_, f3⟩ := merge_skyline_frame _ _ _ _ _ _ _ _ hm
      obtain ⟨_, f3'⟩ := merge_skyline_frame _ _ _ _ _ _ _ _ hm'
      refine ⟨m3, m3', hrun, hrun', ?_⟩
      apply same_writes_trans _ _ _ _ _ _ (same_writes_trans _ _ _ _ _ _ hsw1 hsw2)
      apply same_writes_of_rows b m3 b' m3' skyline _ (by rw [hrows, hrows'])
      · exact fun q hq => f3 q (fun k _ hk => hq k hk)
      · exact fun q hq => f3' q (fun k _ hk => hq k hk)

theorem valid_call_root (buildings : List Building) (n : Int) (hn : n = buildings.length)
    (h1 : 1 ≤ n) (h512 : n ≤ 512) :
    valid_call buildings (n.toNat + 1) 0 (n - 1) ⟨1, 0⟩ 1 :=
  ⟨le_refl _, by omega, by omega, by omega, Or.inl rfl, rfl, le_refl _, by simp only; omega⟩

/-! ## The calls of the recursion -/

/-- The logging run computes what `get_skyline` computes. -/
theorem get_skyline_log_result (buildings : List Building) (buf1 buf2 : Ptr) (fuel : Nat) :
    ∀ (l r : Int) (mem : Mem) (skyline : Ptr) (n : Nat) (buf_id : Int) (d : Nat),
    (get_skyline_log buildings buf1 buf2 fuel l r mem skyline n buf_id d).2
      = get_skyline buildings buf1 buf2 fuel l r mem skyline n buf_id := by
  induction fuel with
  | zero => intro l r mem skyline n buf_id d; rfl
  | succ f ih =>
    intro l r mem skyline n buf_id d
    rw [get_skyline_log, get_skyline]
    by_cases heq : l = r
    · simp only [heq, if_true]
    · by_cases hlt : l < r
      · simp only [heq, hlt, if_false, not_true_eq_false]
        rw [← ih l (l + Int.tdiv (r - l) 2) mem (get_the_other_buf buf1 buf2 skyline buf_id).1 0
          (get_the_other_buf buf1 buf2 skyline buf_id).2 (d + 1)]
        cases hleft : (get_skyline_log buildings buf1 buf2 f l (l + Int.tdiv (r - l) 2) mem
            (get_the_other_buf buf1 buf2 skyline buf_id).1 0
            (get_the_other_buf buf1 buf2 skyline buf_id).2 (d + 1)).2 with
        | error e => rfl
        | ok r1 =>
          simp only [Except.bind]
          rw [← ih]
      · simp only [heq, hlt, if_false, not_false_eq_true, if_true]

/-- The log of a call starts with the call itself. -/
theorem get_skyline_log_head (buildings : List Building) (buf1 buf2 : Ptr) (fuel : Nat)
    (l r : Int) (mem : Mem) (skyline : Ptr) (n : Nat) (buf_id : Int) (d : Nat) :
    ∃ rest, (get_skyline_log buildings buf1 buf2 fuel l r mem skyline n buf_id d).1
      = ⟨l, r, skyline, buf_id, d⟩ :: rest := by
  cases fuel with
  | zero => exact ⟨[], rfl⟩
  | succ f =>
    rw [get_skyline_log]
    by_cases heq : l = r
    · simp only [heq, if_true]
      exact ⟨[], rfl⟩
    · by_cases hlt : l < r
      · simp only [heq, hlt, if_false, not_true_eq_false]
        split
        · exact ⟨_, rfl⟩
        · exact ⟨_, rfl⟩
      · simp only [heq, hlt, if_false, not_false_eq_true, if_true]
        exact ⟨[], rfl⟩

/-- The log of a call with `l < r` contains its left recursive call, made with the pointer
and the id that `get_the_other_buf` returns. -/
theorem get_skyline_log_left (buildings : List Building) (buf1 buf2 : Ptr) (f : Nat)
    (l r : Int) (mem : Mem) (skyline : Ptr) (n : Nat) (buf_id : Int) (d : Nat) (hlt : l < r) :
    (⟨l, l + Int.tdiv (r - l) 2, (get_the_other_buf buf1 buf2 skyline buf_id).1,
        (get_the_other_buf buf1 buf2 skyline buf_id).2, d + 1⟩ : Call)
      ∈ (get_skyline_log buildings buf1 buf2 (f + 1) l r mem skyline n buf_id d).1 := by
  have heq : ¬ l = r := by omega
  obtain ⟨rest, hrest⟩ := get_skyline_log_head buildings buf1 buf2 f l
    (l + Int.tdiv (r - l) 2) mem (get_the_other_buf buf1 buf2 skyline buf_id).1 0
    (get_the_other_buf buf1 buf2 skyline buf_id).2 (d + 1)
  rw [get_skyline_log]
  simp only [heq, hlt, if_false, not_true_eq_false]
  split
  · simp only [hrest]
    simp
  · simp only [hrest]
    simp

/-- In the recursion the buffers alternate: if a call at an even depth has its output region
in buffer `1` with `buf_id = 1`, or one at an odd depth has it in buffer `2` with
`buf_id = 2`, then so has every call it makes. -/
theorem get_skyline_log_parity (buildings : List Building) (fuel : Nat) :
    ∀ (l r : Int) (mem : Mem) (skyline : Ptr) (n : Nat) (buf_id : Int) (d : Nat),
    ((d % 2 = 0 ∧ skyline.buf = 1 ∧ buf_id = 1) ∨ (d % 2 = 1 ∧ skyline.buf = 2 ∧ buf_id = 2)) →
    ∀ c ∈ (get_skyline_log buildings ⟨1, 0⟩ ⟨2, 0⟩ fuel l r mem skyline n buf_id d).1,
      (c.depth % 2 = 0 ∧ c.skyline.buf = 1 ∧ c.buf_id = 1)
      ∨ (c.depth % 2 = 1 ∧ c.skyline.buf = 2 ∧ c.buf_id = 2) := by
  induction fuel with
  | zero =>
    intro l r mem skyline n buf_id d h c hc
    rw [get_skyline_log] at hc
    rw [List.mem_singleton.mp hc]
    exact h
  | succ f ih =>
    intro l r mem skyline n buf_id d h c hc
    have hchild : ((d + 1) % 2 = 0 ∧ (get_the_other_buf ⟨1, 0⟩ ⟨2, 0⟩ skyline buf_id).1.buf = 1
          ∧ (get_the_other_buf ⟨1, 0⟩ ⟨2, 0⟩ skyline buf_id).2 = 1)
        ∨ ((d + 1) % 2 = 1 ∧ (get_the_other_buf ⟨1, 0⟩ ⟨2, 0⟩ skyline buf_id).1.buf = 2
          ∧ (get_the_other_buf ⟨1, 0⟩ ⟨2, 0⟩ skyline buf_id).2 = 2) := by
      rcases h with ⟨h1, _, h3⟩ | ⟨h1, _, h3⟩
      · right
        subst h3
        refine ⟨by omega, ?_, ?_⟩ <;> simp [get_the_other_buf, Ptr.add]
      · left
        subst h3
        refine ⟨by omega, ?_, ?_⟩ <;> simp [get_the_other_buf, Ptr.add]
    have hchild2 : ∀ k : Int, ((d + 1) % 2 = 0
          ∧ ((get_the_other_buf ⟨1, 0⟩ ⟨2, 0⟩ skyline buf_id).1.add k).buf = 1
          ∧ (get_the_other_buf ⟨1, 0⟩ ⟨2, 0⟩ skyline buf_id).2 = 1)
        ∨ ((d + 1) % 2 = 1
          ∧ ((get_the_other_buf ⟨1, 0⟩ ⟨2, 0⟩ skyline buf_id).1.add k).buf = 2
          ∧ (get_the_other_buf ⟨1, 0⟩ ⟨2, 0⟩ skyline buf_id).2 = 2) := fun k => hchild
    rw [get_skyline_log] at hc
    by_cases heq : l = r
    · simp only [heq, if_true] at hc
      rw [List.mem_singleton.mp hc]
      exact h
    · by_cases hlt : l < r
      · simp only [heq, hlt, if_false, not_true_eq_false] at hc
        split at hc
        · rcases List.mem_cons.mp hc with hc | hc
          · rw [hc]; exact h
          · exact ih _ _ _ _ _ _ _ hchild c hc
        · rcases List.mem_cons.mp hc with hc | hc
          · rw [hc]; exact h
          · rcases List.mem_append.mp hc with hc | hc
            · exact ih _ _ _ _ _ _ _ hchild c hc
            · exact ih _ _ _ _ _ _ _ (hchild2 _) c hc
      · simp only [heq, hlt, if_false, not_false_eq_true, if_true] at hc
        rw [List.mem_singleton.mp hc]
        exact h

/-- A call of `get_skyline` on a range `[l, r]` that contains building `512`, with its output
region at row `2 * l`: every access is inside the buffers until the call for building `512`
alone is entered, the last call made, with its output pointer at row `1024`; a run with
checked accesses stops there. -/
theorem get_skyline_log_overrun (buildings : List Building) (fuel : Nat) :
    ∀ (l r : Int) (mem : Mem) (skyline : Ptr) (buf_id : Int) (d : Nat),
    0 ≤ l → l ≤ 512 → 512 ≤ r → r < buildings.length → r - l + 1 ≤ fuel →
    (buf_id = 1 ∨ buf_id = 2) → (skyline.buf : Int) = buf_id → skyline.off = 2 * l →
    (get_skyline_log buildings ⟨1, 0⟩ ⟨2, 0⟩ fuel l r mem skyline 0 buf_id d).2
      = .error .out_of_bounds
    ∧ ∃ c : Call,
        (get_skyline_log buildings ⟨1, 0⟩ ⟨2, 0⟩ fuel l r mem skyline 0 buf_id d).1.getLast?
          = some c
        ∧ c.l = 512 ∧ c.r = 512 ∧ c.skyline.off = 1024 := by
  induction fuel with
  | zero => intro l r mem skyline buf_id d h0 hl hr hlen hf; omega
  | succ f ih =>
    intro l r mem skyline buf_id d h0 hl hr hlen hf hid hbuf hoff
    refine ⟨?_, ?_⟩
    · rw [get_skyline_log_result]
      exact get_skyline_oob buildings (f + 1) l r mem skyline buf_id (by omega) hf (by omega)
    · by_cases heq : l = r
      · subst heq
        rw [get_skyline_log]
        simp only [if_true]
        exact ⟨_, rfl, (by show l = 512; omega), (by show l = 512; omega),
          (by show skyline.off = 1024; omega)⟩
      · have hlt : l < r := by omega
        have hdiv : Int.tdiv (r - l) 2 = (r - l) / 2 :=
          Int.tdiv_eq_ediv (by omega) (by omega)
        obtain ⟨o1, o2, o3, _⟩ := other_buf_facts skyline buf_id hid hbuf
        rw [get_skyline_log]
        simp only [heq, hlt, if_false, not_true_eq_false, hdiv]
        by_cases hm : 512 ≤ l + (r - l) / 2
        · obtain ⟨herr, c, hlast, hc⟩ := ih l (l + (r - l) / 2) mem
            (get_the_other_buf ⟨1, 0⟩ ⟨2, 0⟩ skyline buf_id).1
            (get_the_other_buf ⟨1, 0⟩ ⟨2, 0⟩ skyline buf_id).2 (d + 1) h0 hl hm (by omega)
            (by omega) o2 o3 (by omega)
          rw [herr]
          simp only
          refine ⟨c, ?_, hc⟩
          rw [List.getLast?_cons, hlast]
          rfl
        · obtain ⟨mem1, hrun, _, _⟩ := get_skyline_rows buildings f l (l + (r - l) / 2) mem
            (get_the_other_buf ⟨1, 0⟩ ⟨2, 0⟩ skyline buf_id).1
            (get_the_other_buf ⟨1, 0⟩ ⟨2, 0⟩ skyline buf_id).2 h0 (by omega) (by omega)
            (by omega) o2 o3 (by omega) (by omega)
          rw [← get_skyline_log_result buildings ⟨1, 0⟩ ⟨2, 0⟩ f l (l + (r - l) / 2) mem
            (get_the_other_buf ⟨1, 0⟩ ⟨2, 0⟩ skyline buf_id).1 0
            (get_the_other_buf ⟨1, 0⟩ ⟨2, 0⟩ skyline buf_id).2 (d + 1)] at hrun
          obtain ⟨_, c, hlast, hc⟩ := ih (l + (r - l) / 2 + 1) r mem1
            ((get_the_other_buf ⟨1, 0⟩ ⟨2, 0⟩ skyline buf_id).1.add
              (2 * (l + (r - l) / 2 - l + 1)))
            (get_the_other_buf ⟨1, 0⟩ ⟨2, 0⟩ skyline buf_id).2 (d + 1) (by omega) (by omega)
            hr hlen (by omega) o2 o3 (by simp only [Ptr.add]; omega)
          rw [hrun]
          simp only
          refine ⟨c, ?_, hc⟩
          rw [List.getLast?_cons, List.getLast?_append, hlast]
          rfl

/-! ## Claims about the scratch buffers and the recursion -/

/-- C11: for a building list of length `n` with `1 ≤ n ≤ 512` (including exactly `512`),
with every buffer access bounds-checked against the `1024` rows, `getSkyline` never takes
the out-of-bounds branch and succeeds, from any initial content of the buffers; the
recursion of `get_skyline` it starts returns at most `2 * n ≤ 1024` rows and changes no
slot outside rows `[0, 2 * n)`. -/
theorem getSkyline_in_bounds (buildings : List Building) (n : Int) (mem : Mem)
    (hn : n = buildings.length) (h1 : 1 ≤ n) (h512 : n ≤ 512) :
    (∃ res, getSkyline buildings n mem = .ok res)
    ∧ getSkyline buildings n mem ≠ .error .out_of_bounds
    ∧ ∃ mem1 k,
        get_skyline buildings ⟨1, 0⟩ ⟨2, 0⟩ (n.toNat + 1) 0 (n - 1) mem ⟨1, 0⟩ 0 1
          = .ok (mem1, k)
        ∧ (k : Int) ≤ 2 * n ∧ 2 * n ≤ 1024
        ∧ ∀ q : Ptr, ¬ (0 ≤ q.off ∧ q.off < 2 * n) → mem1 q = mem q := by
  have hc := valid_call_root buildings n hn h1 h512
  obtain ⟨mem1, hrun, _, hframe⟩ := get_skyline_rows buildings (n.toNat + 1) 0 (n - 1) mem
    ⟨1, 0⟩ 1 hc.lo hc.le hc.hi hc.fuel_ok hc.id_ok hc.buf_ok hc.off_ok hc.fit
  have hlen := skyline_rows_length buildings (n.toNat + 1) 0 (n - 1) hc.le
  have hok := getSkyline_eq buildings n mem hn h1 h512
  refine ⟨⟨_, hok⟩, ?_, mem1, _, hrun, by omega, by omega, ?_⟩
  · rw [hok]
    exact fun h => Except.noConfusion h
  · intro q hq
    apply hframe
    simp only
    intro h
    apply hq
    omega

theorem getSkyline_in_bounds_witness :
    (∃ res, getSkyline (List.replicate 512 (0, 1, 1)) 512 zero_mem = .ok res)
    ∧ getSkyline (List.replicate 512 (0, 1, 1)) 512 zero_mem ≠ .error .out_of_bounds :=
  ⟨(getSkyline_in_bounds (List.replicate 512 (0, 1, 1)) 512 zero_mem
      (by rw [List.length_replicate]; rfl) (by decide)
      (by decide)).1,
    (getSkyline_in_bounds (List.replicate 512 (0, 1, 1)) 512 zero_mem
      (by rw [List.length_replicate]; rfl) (by decide)
      (by decide)).2.1⟩

/-- C12, as the code has it: `getSkyline` makes no capacity check.  For every building list
with more than `512` buildings no error is reported before the recursion begins:
`getSkyline` calls `get_skyline(0, n - 1)`; every access is inside the buffers until the
call of `get_skyline` for building `512` alone is entered, the last call of the checked
run, with its output pointer at row `1024` of a scratch buffer; the first thing that call
does is to store a key point at that row, outside the `1024` rows (an unchecked write in C,
where the behaviour is then undefined; the fault `out_of_bounds` when accesses are
bounds-checked). -/
theorem getSkyline_no_capacity_check (buildings : List Building) (n : Int) (mem : Mem)
    (hn : n = buildings.length) (h : 512 < n) :
    ∃ c : Call,
      (get_skyline_log buildings ⟨1, 0⟩ ⟨2, 0⟩ (n.toNat + 1) 0 (n - 1) mem ⟨1, 0⟩ 0 1 0).1.getLast?
        = some c
      ∧ c.l = 512 ∧ c.r = 512 ∧ c.skyline.off = 1024
      ∧ (c.skyline.buf = 1 ∨ c.skyline.buf = 2)
      ∧ ¬ in_bounds (c.skyline.add 0)
      ∧ (∀ (m : Mem) (b : Building),
          building_to_skyline b m c.skyline 0
            = (store m ⟨c.skyline.buf, 1024⟩ (b.1, b.2.2)).bind fun m1 =>
                skyline_add_key_point m1 c.skyline 1 b.2.1 0)
      ∧ (get_skyline_log buildings ⟨1, 0⟩ ⟨2, 0⟩ (n.toNat + 1) 0 (n - 1) mem ⟨1, 0⟩ 0 1 0).2
          = get_skyline buildings ⟨1, 0⟩ ⟨2, 0⟩ (n.toNat + 1) 0 (n - 1) mem ⟨1, 0⟩ 0 1
      ∧ get_skyline buildings ⟨1, 0⟩ ⟨2, 0⟩ (n.toNat + 1) 0 (n - 1) mem ⟨1, 0⟩ 0 1
          = .error .out_of_bounds
      ∧ getSkyline buildings n mem = .error .out_of_bounds := by
  obtain ⟨_, c, hlast, hl, hr, hoff⟩ := get_skyline_log_overrun buildings (n.toNat + 1) 0
    (n - 1) mem ⟨1, 0⟩ 1 0 (le_refl _) (by decide) (by omega) (by omega) (by omega)
    (Or.inl rfl) rfl rfl
  have hpar := get_skyline_log_parity buildings (n.toNat + 1) 0 (n - 1) mem ⟨1, 0⟩ 0 1 0
    (Or.inl ⟨rfl, rfl, rfl⟩) c (List.mem_of_getLast?_eq_some hlast)
  refine ⟨c, hlast, hl, hr, hoff, ?_, ?_, ?_, get_skyline_log_result _ _ _ _ _ _ _ _ _ _ _,
    get_skyline_oob buildings (n.toNat + 1) 0 (n - 1) mem ⟨1, 0⟩ 1 (by omega) (by omega)
      (by simp only; omega),
    getSkyline_oob buildings n mem h⟩
  · rcases hpar with ⟨_, hb, _⟩ | ⟨_, hb, _⟩
    · exact Or.inl hb
    · exact Or.inr hb
  · intro hin
    have := hin.2.2
    simp only [Ptr.add, BUF_ROWS] at this
    omega
  · intro m b
    have hp : c.skyline.add ((0 : Nat) : Int) = ⟨c.skyline.buf, 1024⟩ := by
      simp only [Ptr.add, Nat.cast_zero, add_zero, hoff]
    simp only [building_to_skyline, skyline_add_key_point, gt_iff_lt, lt_self_iff_false,
      if_false, hp, zero_add]
    cases store m ⟨c.skyline.buf, 1024⟩ (b.1, b.2.2) <;> rfl

theorem getSkyline_no_capacity_check_witness :
    (513 : Int) = (List.replicate 513 ((0, 1, 1) : Building)).length ∧ (512 : Int) < 513
    ∧ ∃ c : Call,
      (get_skyline_log (List.replicate 513 (0, 1, 1)) ⟨1, 0⟩ ⟨2, 0⟩ ((513 : Int).toNat + 1) 0
        (513 - 1) zero_mem ⟨1, 0⟩ 0 1 0).1.getLast? = some c
      ∧ c.l = 512 ∧ c.r = 512 ∧ c.skyline.off = 1024 :=
  ⟨by rw [List.length_replicate]; rfl, by decide,
    (getSkyline_no_capacity_check (List.replicate 513 (0, 1, 1)) 513 zero_mem
      (by rw [List.length_replicate]; rfl) (by decide)).imp
      fun _ hc => ⟨hc.1, hc.2.1, hc.2.2.1, hc.2.2.2.1⟩⟩

/-- C12 fails as stated: on `513` buildings `getSkyline` does not reject the input before
the recursion.  The call `get_skyline(0, 512)` is made and the recursion goes on, inside the
buffers, until the call for building `512` is entered with its output pointer at row `1024`,
where it stores outside the `1024` rows of a scratch buffer; a run with checked accesses
ends there with the fault `out_of_bounds`, not with a rejection of the input. -/
theorem getSkyline_513_out_of_bounds :
    (∃ c : Call,
      (get_skyline_log (List.replicate 513 (0, 1, 1)) ⟨1, 0⟩ ⟨2, 0⟩ 514 0 512 zero_mem
        ⟨1, 0⟩ 0 1 0).1.getLast? = some c
      ∧ c.l = 512 ∧ c.r = 512 ∧ c.skyline.off = 1024)
    ∧ (get_skyline_log (List.replicate 513 (0, 1, 1)) ⟨1, 0⟩ ⟨2, 0⟩ 514 0 512 zero_mem
        ⟨1, 0⟩ 0 1 0).2
        = get_skyline (List.replicate 513 (0, 1, 1)) ⟨1, 0⟩ ⟨2, 0⟩ 514 0 512 zero_mem
            ⟨1, 0⟩ 0 1
    ∧ getSkyline (List.replicate 513 (0, 1, 1)) 513 zero_mem = .error .out_of_bounds :=
  ⟨(get_skyline_log_overrun (List.replicate 513 (0, 1, 1)) 514 0 512 zero_mem ⟨1, 0⟩ 1 0
      (by decide) (by decide) (by decide) (by rw [List.length_replicate]; decide)
      (by decide) (Or.inl rfl) rfl rfl).2,
    get_skyline_log_result _ _ _ _ _ _ _ _ _ _ _,
    getSkyline_oob (List.replicate 513 (0, 1, 1)) 513 zero_mem (by decide)⟩

/-- C13: for a call of `get_skyline` on `[l, r]` with `l < r` whose output region starts at
offset `o`, with `m = l + (r - l) / 2` and `left_size = m - l + 1`: both recursive calls
succeed; the left child's skyline occupies slots `[o, o + left_length)` and the right
child's `[o + 2 * left_size, o + 2 * left_size + right_length)` of the other buffer, with
`left_length ≤ 2 * left_size` and `right_length ≤ 2 * (r - m)`; the two regions share no
slot, and after the right call both hold the children's skylines. -/
theorem sibling_regions_disjoint (buildings : List Building) (f : Nat) (l r : Int) (mem : Mem)
    (skyline : Ptr) (buf_id : Int) (hc : valid_call buildings (f + 1) l r skyline buf_id)
    (hlt : l < r) (m : Int) (hm : m = l + Int.tdiv (r - l) 2) (ob : Ptr × Int)
    (hob : ob = get_the_other_buf ⟨1, 0⟩ ⟨2, 0⟩ skyline buf_id) :
    ∃ (m1 m2 : Mem) (left_length right_length : Nat),
      get_skyline buildings ⟨1, 0⟩ ⟨2, 0⟩ f l m mem ob.1 0 ob.2 = .ok (m1, left_length)
      ∧ get_skyline buildings ⟨1, 0⟩ ⟨2, 0⟩ f (m + 1) r m1 (ob.1.add (2 * (m - l + 1))) 0 ob.2
          = .ok (m2, right_length)
      ∧ ob.1.buf ≠ skyline.buf ∧ ob.1.off = skyline.off
      ∧ (ob.1.add (2 * (m - l + 1))).off = skyline.off + 2 * (m - l + 1)
      ∧ (left_length : Int) ≤ 2 * (m - l + 1) ∧ (right_length : Int) ≤ 2 * (r - m)
      ∧ skyline.off + 2 * (m - l + 1) + right_length ≤ 1024
      ∧ (∀ i j : Nat, i < left_length → j < right_length →
          ob.1.add i ≠ (ob.1.add (2 * (m - l + 1))).add j)
      ∧ read_rows m2 ob.1 left_length = skyline_rows buildings f l m
      ∧ read_rows m2 (ob.1.add (2 * (m - l + 1))) right_length
          = skyline_rows buildings f (m + 1) r := by
  have hdiv : Int.tdiv (r - l) 2 = (r - l) / 2 :=
    Int.tdiv_eq_ediv (by omega) (by omega)
  rw [hdiv] at hm
  obtain ⟨c1, c2, hbuf, hoff⟩ := valid_call_children buildings f l r skyline buf_id hc hlt m hm
    ob hob
  obtain ⟨m1, m2, _, hl, hr, _, _, _, hk1, hk2, _, _⟩ :=
    get_skyline_node buildings f l r mem skyline buf_id hc hlt m hm ob hob
  have hl1 := skyline_rows_length buildings f l m c1.le
  have hl2 := skyline_rows_length buildings f (m + 1) r c2.le
  have hfit := hc.fit
  refine ⟨m1, m2, _, _, hl, hr, hbuf, hoff, by simp only [Ptr.add]; omega, hl1, by omega,
    by omega, ?_, hk1, hk2⟩
  intro i j hi hj h
  have := congrArg Ptr.off h
  simp only [Ptr.add] at this
  omega

theorem sibling_regions_disjoint_witness :
    ∃ (m1 m2 : Mem) (left_length right_length : Nat),
      get_skyline [(1, 3, 3), (5, 7, 4)] ⟨1, 0⟩ ⟨2, 0⟩ 2 0 0 zero_mem ⟨2, 0⟩ 0 2
        = .ok (m1, left_length)
      ∧ get_skyline [(1, 3, 3), (5, 7, 4)] ⟨1, 0⟩ ⟨2, 0⟩ 2 1 1 m1 ⟨2, 2⟩ 0 2
        = .ok (m2, right_length)
      ∧ ∀ i j : Nat, i < left_length → j < right_length →
          Ptr.add ⟨2, 0⟩ i ≠ Ptr.add ⟨2, 2⟩ j := by
  obtain ⟨m1, m2, k1, k2, h1, h2, _, _, _, _, _, _, h3, _⟩ :=
    sibling_regions_disjoint [(1, 3, 3), (5, 7, 4)] 2 0 1 zero_mem ⟨1, 0⟩ 1
      ⟨by decide, by decide, by decide, by decide, by decide, by decide, by decide, by decide⟩
      (by decide) 0 (by decide) (⟨2, 0⟩, 2) (by decide)
  exact ⟨m1, m2, k1, k2, h1, h2, h3⟩

/-- C18: for a call `get_skyline(l, r)` with `l ≤ r` whose output region starts at offset
`o` of one buffer, run from any two initial memories: both runs succeed with the same size;
the recursion changes no slot with offset outside `[o, o + 2 * (r - l + 1))`, in either
buffer; it writes the same values into the same slots whatever the initial memory is, so
its result inside the region depends on no slot outside it; and for `l < r` the call for
the right half leaves the rows the left half has written unchanged, and `merge_skyline`
runs on the memory with both children's results. -/
theorem get_skyline_frame (buildings : List Building) (f : Nat) (l r : Int) (mem mem' : Mem)
    (skyline : Ptr) (buf_id : Int) (hc : valid_call buildings (f + 1) l r skyline buf_id) :
    (∃ (m1 m1' : Mem) (k : Nat),
      get_skyline buildings ⟨1, 0⟩ ⟨2, 0⟩ (f + 1) l r mem skyline 0 buf_id = .ok (m1, k)
      ∧ get_skyline buildings ⟨1, 0⟩ ⟨2, 0⟩ (f + 1) l r mem' skyline 0 buf_id = .ok (m1', k)
      ∧ (∀ q : Ptr, ¬ (skyline.off ≤ q.off ∧ q.off < skyline.off + 2 * (r - l + 1)) →
          m1 q = mem q)
      ∧ same_writes mem m1 mem' m1'
      ∧ ((∀ q : Ptr, skyline.off ≤ q.off ∧ q.off < skyline.off + 2 * (r - l + 1) →
            mem q = mem' q) →
          ∀ q : Ptr, skyline.off ≤ q.off ∧ q.off < skyline.off + 2 * (r - l + 1) →
            m1 q = m1' q))
    ∧ (l < r → ∃ (ma mb : Mem) (left_length right_length : Nat),
        get_skyline buildings ⟨1, 0⟩ ⟨2, 0⟩ f l (l + Int.tdiv (r - l) 2) mem
            (get_the_other_buf ⟨1, 0⟩ ⟨2, 0⟩ skyline buf_id).1 0
            (get_the_other_buf ⟨1, 0⟩ ⟨2, 0⟩ skyline buf_id).2 = .ok (ma, left_length)
        ∧ get_skyline buildings ⟨1, 0⟩ ⟨2, 0⟩ f (l + Int.tdiv (r - l) 2 + 1) r ma
            ((get_the_other_buf ⟨1, 0⟩ ⟨2, 0⟩ skyline buf_id).1.add
              (2 * (l + Int.tdiv (r - l) 2 - l + 1))) 0
            (get_the_other_buf ⟨1, 0⟩ ⟨2, 0⟩ skyline buf_id).2 = .ok (mb, right_length)
        ∧ read_rows mb (get_the_other_buf ⟨1, 0⟩ ⟨2, 0⟩ skyline buf_id).1 left_length
            = read_rows ma (get_the_other_buf ⟨1, 0⟩ ⟨2, 0⟩ skyline buf_id).1 left_length
        ∧ get_skyline buildings ⟨1, 0⟩ ⟨2, 0⟩ (f + 1) l r mem skyline 0 buf_id
            = merge_skyline mb (get_the_other_buf ⟨1, 0⟩ ⟨2, 0⟩ skyline buf_id).1 left_length
                ((get_the_other_buf ⟨1, 0⟩ ⟨2, 0⟩ skyline buf_id).1.add
                  (2 * (l + Int.tdiv (r - l) 2 - l + 1))) right_length skyline 0) := by
  constructor
  · obtain ⟨m1, m1', h1, h1', hsw⟩ :=
      get_skyline_same_writes buildings (f + 1) l r mem mem' skyline buf_id hc
    obtain ⟨m2, h2, _, hframe⟩ := get_skyline_rows buildings (f + 1) l r mem skyline buf_id
      hc.lo hc.le hc.hi hc.fuel_ok hc.id_ok hc.buf_ok hc.off_ok hc.fit
    have e : m2 = m1 := by rw [h1] at h2; exact (Prod.mk.inj (Except.ok.inj h2)).1.symm
    subst e
    refine ⟨m2, m1', _, h1, h1', hframe, hsw, fun hagree q hq => ?_⟩
    rcases hsw q with e | ⟨e1, e2⟩
    · exact e
    · rw [e1, e2]
      exact hagree q hq
  · intro hlt
    have hdiv : Int.tdiv (r - l) 2 = (r - l) / 2 :=
      Int.tdiv_eq_ediv (by omega) (by omega)
    rw [hdiv]
    obtain ⟨m1, m2, m3, hl, hr, hm, hrun, hk1, hk2, _, _, _⟩ :=
      get_skyline_node buildings f l r mem skyline buf_id hc hlt _ rfl _ rfl
    exact ⟨m1, m2, _, _, hl, hr, by rw [hk1, hk2], by rw [hrun, hm]⟩

theorem get_skyline_frame_witness :
    ∃ (m1 m1' : Mem) (k : Nat),
      get_skyline [(1, 3, 3), (5, 7, 4)] ⟨1, 0⟩ ⟨2, 0⟩ 3 0 1 zero_mem ⟨1, 0⟩ 0 1 = .ok (m1, k)
      ∧ get_skyline [(1, 3, 3), (5, 7, 4)] ⟨1, 0⟩ ⟨2, 0⟩ 3 0 1 one_skyline_mem ⟨1, 0⟩ 0 1
          = .ok (m1', k)
      ∧ (∀ q : Ptr, ¬ ((0 : Int) ≤ q.off ∧ q.off < 0 + 2 * (1 - 0 + 1)) → m1 q = zero_mem q)
      ∧ same_writes zero_mem m1 one_skyline_mem m1' := by
  obtain ⟨m1, m1', k, h1, h2, h3, h4, _⟩ :=
    (get_skyline_frame [(1, 3, 3), (5, 7, 4)] 2 0 1 zero_mem one_skyline_mem ⟨1, 0⟩ 1
      ⟨by decide, by decide, by decide, by decide, by decide, by decide, by decide,
        by decide⟩).1
  exact ⟨m1, m1', k, h1, h2, h3, h4⟩

/-- C20: for a call `get_skyline(l, r)` with `0 ≤ l ≤ r`: when `l < r`, each of the two
recursive calls `(l, m)` and `(m + 1, r)` with `m = l + (r - l) / 2` again has `l' ≤ r'`,
`0 ≤ l'` and `r' - l' < r - l`; and with fuel `≥ r - l + 1` the call neither fails
`assert(l < r)` nor runs out of fuel, in any call of its recursion.  The precondition is
needed: for an empty building list the top-level call is `get_skyline(0, -1)` and
`getSkyline` fails the assertion. -/
theorem get_skyline_terminates (buildings : List Building) (buf1 buf2 : Ptr) (fuel : Nat)
    (l r : Int) (mem : Mem) (skyline : Ptr) (n : Nat) (buf_id : Int)
    (h0 : 0 ≤ l) (hlr : l ≤ r) (hf : r - l + 1 ≤ fuel) :
    (l < r →
      (0 ≤ l ∧ l ≤ l + Int.tdiv (r - l) 2 ∧ (l + Int.tdiv (r - l) 2) - l < r - l)
      ∧ (0 ≤ l + Int.tdiv (r - l) 2 + 1 ∧ l + Int.tdiv (r - l) 2 + 1 ≤ r
          ∧ r - (l + Int.tdiv (r - l) 2 + 1) < r - l))
    ∧ get_skyline buildings buf1 buf2 fuel l r mem skyline n buf_id ≠ .error .assert_failed
    ∧ get_skyline buildings buf1 buf2 fuel l r mem skyline n buf_id ≠ .error .out_of_fuel
    ∧ getSkyline [] 0 mem = .error .assert_failed := by
  have honly := only_oob_get_skyline buildings buf1 buf2 fuel l r mem skyline n buf_id hlr hf
  refine ⟨fun hlt => ?_, fun h => ?_, fun h => ?_, rfl⟩
  · have hdiv : Int.tdiv (r - l) 2 = (r - l) / 2 :=
      Int.tdiv_eq_ediv (by omega) (by omega)
    rw [hdiv]
    omega
  · exact Fault.noConfusion (honly _ h)
  · exact Fault.noConfusion (honly _ h)

theorem get_skyline_terminates_witness :
    (0 : Int) ≤ 0 ∧ (0 : Int) ≤ 1
    ∧ get_skyline [(1, 3, 3), (5, 7, 4)] ⟨1, 0⟩ ⟨2, 0⟩ 3 0 1 zero_mem ⟨1, 0⟩ 0 1
        ≠ .error .assert_failed
    ∧ get_skyline [(1, 3, 3), (5, 7, 4)] ⟨1, 0⟩ ⟨2, 0⟩ 3 0 1 zero_mem ⟨1, 0⟩ 0 1
        ≠ .error .out_of_fuel
    ∧ getSkyline [] 0 zero_mem = .error .assert_failed :=
  ⟨by decide, by decide,
    (get_skyline_terminates [(1, 3, 3), (5, 7, 4)] ⟨1, 0⟩ ⟨2, 0⟩ 3 0 1 zero_mem ⟨1, 0⟩ 0 1
      (by decide) (by decide) (by decide)).2⟩

/-- C14: for a region at relative offset `k` inside the buffer named by `buf_id`,
`get_the_other_buf` returns the region at the same relative offset `k` inside the other
buffer and sets the other id to `2` when `buf_id` is `1` and to `1` when `buf_id` is `2`;
so among the calls of `get_skyline` in the recursion that `getSkyline` starts with
`buf_id = 1` (listed by `get_skyline_log`, whose result is that of `get_skyline`), a call at
depth `d` has its output pointer in buffer `1`, with `buf_id = 1`, when `d` is even and in
buffer `2`, with `buf_id = 2`, when `d` is odd; and what the call itself stores
(`building_to_skyline` for one building, `merge_skyline` otherwise) changes rows of that
buffer only. -/
theorem get_the_other_buf_alternates (buf1 buf2 : Ptr) (k : Int) (buildings : List Building)
    (buildingsSize : Int) (mem : Mem) (c : Call)
    (hc : c ∈ (get_skyline_log buildings ⟨1, 0⟩ ⟨2, 0⟩ (buildingsSize.toNat + 1) 0
      (buildingsSize - 1) mem ⟨1, 0⟩ 0 1 0).1) :
    get_the_other_buf buf1 buf2 (buf1.add k) 1 = (buf2.add k, 2)
    ∧ get_the_other_buf buf1 buf2 (buf2.add k) 2 = (buf1.add k, 1)
    ∧ (c.depth % 2 = 0 → c.skyline.buf = 1 ∧ c.buf_id = 1)
    ∧ (c.depth % 2 = 1 → c.skyline.buf = 2 ∧ c.buf_id = 2)
    ∧ (get_skyline_log buildings ⟨1, 0⟩ ⟨2, 0⟩ (buildingsSize.toNat + 1) 0
        (buildingsSize - 1) mem ⟨1, 0⟩ 0 1 0).2
        = get_skyline buildings ⟨1, 0⟩ ⟨2, 0⟩ (buildingsSize.toNat + 1) 0
            (buildingsSize - 1) mem ⟨1, 0⟩ 0 1
    ∧ (∀ (b : Building) (m : Mem) (size : Nat) (res : Mem × Nat),
        building_to_skyline b m c.skyline size = .ok res →
        ∀ q : Ptr, q.buf ≠ c.skyline.buf → res.1 q = m q)
    ∧ (∀ (m : Mem) (p1 : Ptr) (n1 : Nat) (p2 : Ptr) (n2 size : Nat) (res : Mem × Nat),
        merge_skyline m p1 n1 p2 n2 c.skyline size = .ok res →
        ∀ q : Ptr, q.buf ≠ c.skyline.buf → res.1 q = m q) := by
  have hpar := get_skyline_log_parity buildings (buildingsSize.toNat + 1) 0
    (buildingsSize - 1) mem ⟨1, 0⟩ 0 1 0 (Or.inl ⟨rfl, rfl, rfl⟩) c hc
  refine ⟨?_, ?_, ?_, ?_, get_skyline_log_result _ _ _ _ _ _ _ _ _ _ _, ?_, ?_⟩
  · simp [get_the_other_buf, Ptr.add, Ptr.diff]
  · simp [get_the_other_buf, Ptr.add, Ptr.diff]
  · intro hd
    rcases hpar with ⟨_, h2, h3⟩ | ⟨h1, _, _⟩
    · exact ⟨h2, h3⟩
    · omega
  · intro hd
    rcases hpar with ⟨h1, _, _⟩ | ⟨_, h2, h3⟩
    · omega
    · exact ⟨h2, h3⟩
  · intro b m size res hres q hq
    refine (building_frame b m c.skyline size res hres).2 q (fun j _ _ hj => hq ?_)
    rw [hj]
    rfl
  · intro m p1 n1 p2 n2 size res hres q hq
    refine (merge_skyline_frame m p1 n1 p2 n2 c.skyline size res hres).2 q
      (fun j _ _ hj => hq ?_)
    rw [hj]
    rfl

theorem get_the_other_buf_alternates_witness :
    (⟨0, 0 + Int.tdiv (2 - 1 - 0) 2, (get_the_other_buf ⟨1, 0⟩ ⟨2, 0⟩ ⟨1, 0⟩ 1).1,
        (get_the_other_buf ⟨1, 0⟩ ⟨2, 0⟩ ⟨1, 0⟩ 1).2, 0 + 1⟩ : Call)
      ∈ (get_skyline_log [(1, 3, 3), (5, 7, 4)] ⟨1, 0⟩ ⟨2, 0⟩ ((2 : Int).toNat + 1) 0 (2 - 1)
          zero_mem ⟨1, 0⟩ 0 1 0).1
    ∧ get_the_other_buf ⟨1, 0⟩ ⟨2, 0⟩ (Ptr.add ⟨1, 0⟩ 6) 1 = (Ptr.add ⟨2, 0⟩ 6, 2)
    ∧ ((0 + 1) % 2 = 1 → (get_the_other_buf ⟨1, 0⟩ ⟨2, 0⟩ ⟨1, 0⟩ 1).1.buf = 2
        ∧ (get_the_other_buf ⟨1, 0⟩ ⟨2, 0⟩ ⟨1, 0⟩ 1).2 = 2) :=
  have hc := get_skyline_log_left [(1, 3, 3), (5, 7, 4)] ⟨1, 0⟩ ⟨2, 0⟩ (2 : Int).toNat 0
    (2 - 1) zero_mem ⟨1, 0⟩ 0 1 0 (by decide)
  ⟨hc,
    (get_the_other_buf_alternates ⟨1, 0⟩ ⟨2, 0⟩ 6 [(1, 3, 3), (5, 7, 4)] 2 zero_mem _ hc).1,
    (get_the_other_buf_alternates ⟨1, 0⟩ ⟨2, 0⟩ 6 [(1, 3, 3), (5, 7, 4)] 2 zero_mem _
      hc).2.2.2.1⟩

/-! ## Claims about the sweep of `merge_skyline` -/

/-- C15: in `merge_skyline`, when the current points of the two sides have equal x with
both indices in range, one iteration of the loop offers exactly one candidate
`(x1, max(y1, y2))` to `skyline_add_key_point` and continues with both `i1` and `i2`
advanced by one, `h1 = y1` and `h2 = y2`; and for inputs with strictly increasing x the
merged skyline `merge_rows s1 s2 []` has no two key points with the same x. -/
theorem merge_skyline_equal_x (mem : Mem) (s1 s2 : List Row) (p1 p2 out : Ptr)
    (lay : merge_layout mem s1 s2 p1 p2 out) (hi1 : increasing_x s1) (hi2 : increasing_x s2) :
    (∀ (fuel : Nat) (st : MergeState), st.i1 < s1.length → st.i2 < s2.length →
      (st.mem (p1.add st.i1)).1 = (st.mem (p2.add st.i2)).1 →
      merge_loop p1 s1.length p2 s2.length out (fuel + 1) st
        = (skyline_add_key_point st.mem out st.skyline_size (st.mem (p1.add st.i1)).1
            (int_max (st.mem (p1.add st.i1)).2 (st.mem (p2.add st.i2)).2)).bind fun r =>
            merge_loop p1 s1.length p2 s2.length out fuel
              ⟨r.1, r.2, st.i1 + 1, st.i2 + 1, (st.mem (p1.add st.i1)).2,
                (st.mem (p2.add st.i2)).2⟩)
    ∧ ∃ mem1 k, merge_skyline mem p1 s1.length p2 s2.length out 0 = .ok (mem1, k)
        ∧ read_rows mem1 out k = merge_rows s1 s2 []
        ∧ ((read_rows mem1 out k).map Prod.fst).Nodup := by
  constructor
  · intro fuel st h1 h2 hx
    have hl1 : in_bounds (p1.add st.i1) :=
      in_bounds_add p1 _ lay.base1 (by omega) (by have := lay.fit1; omega)
    have hl2 : in_bounds (p2.add st.i2) :=
      in_bounds_add p2 _ lay.base2 (by omega) (by have := lay.fit2; omega)
    rw [merge_loop_step p1 _ p2 _ out fuel st ⟨h1, h2⟩ hl1 hl2]
    simp only [hx, le_refl, if_true]
  · obtain ⟨mem1, hrun, hrows⟩ := merge_skyline_layout mem s1 s2 p1 p2 out lay
    refine ⟨mem1, _, hrun, hrows, ?_⟩
    rw [hrows]
    have hinc := merge_rows_increasing s1 s2 hi1 hi2
    unfold increasing_x at hinc
    rw [List.Nodup, List.pairwise_map]
    exact hinc.imp (fun h => by omega)

theorem merge_skyline_equal_x_witness :
    ∃ mem1, merge_skyline two_skylines_mem ⟨2, 0⟩ 2 ⟨2, 2⟩ 2 ⟨1, 0⟩ 0 = .ok (mem1, 2)
      ∧ read_rows mem1 ⟨1, 0⟩ 2 = [(1, 4), (5, 0)] := by
  obtain ⟨mem1, k, hrun, hrows, _⟩ :=
    (merge_skyline_equal_x two_skylines_mem [(1, 3), (5, 0)] [(1, 4), (5, 0)] ⟨2, 0⟩ ⟨2, 2⟩
      ⟨1, 0⟩ two_skylines_layout (by decide) (by decide)).2
  have hm : merge_rows [(1, 3), (5, 0)] [(1, 4), (5, 0)] [] = [(1, 4), (5, 0)] := by decide
  rw [hm] at hrows
  have hk : k = 2 := by
    have := read_rows_length mem1 ⟨1, 0⟩ k
    rw [hrows] at this
    exact this.symm
  subst hk
  exact ⟨mem1, hrun, hrows⟩

theorem getD_read_rows (mem : Mem) (p : Ptr) (n i : Nat) (h : i < n) :
    (read_rows mem p n).getD i (0, 0) = mem (p.add i) := by
  rw [List.getD_eq_getElem?_getD, read_rows_getElem? mem p n i h]
  rfl

/-- The `while` loop of `merge_skyline` ends with one side exhausted, and the running
height of each side is the height of the last row consumed from it. -/
theorem merge_loop_final (p1 p2 out : Ptr) (n1 n2 : Nat) (hp1 : valid_base p1)
    (hp2 : valid_base p2) (hout : valid_base out) (hb1 : p1.off + n1 ≤ 1024)
    (hb2 : p2.off + n2 ≤ 1024) (s1 s2 : List Row) (fuel : Nat) : ∀ (st : MergeState),
    st.i1 ≤ n1 → st.i2 ≤ n2 → (n1 - st.i1) + (n2 - st.i2) ≤ fuel →
    out.off + (st.skyline_size + ((n1 - st.i1) + (n2 - st.i2)) : Nat) ≤ 1024 →
    (∀ a b : Nat, a < n1 → st.skyline_size ≤ b →
      b < st.skyline_size + ((n1 - st.i1) + (n2 - st.i2)) → p1.add a ≠ out.add b) →
    (∀ a b : Nat, a < n2 → st.skyline_size ≤ b →
      b < st.skyline_size + ((n1 - st.i1) + (n2 - st.i2)) → p2.add a ≠ out.add b) →
    read_rows st.mem p1 n1 = s1 → read_rows st.mem p2 n2 = s2 →
    running_height s1 st.i1 st.h1 → running_height s2 st.i2 st.h2 →
    ∃ st1, merge_loop p1 n1 p2 n2 out fuel st = .ok st1
      ∧ (st1.i1 = n1 ∨ st1.i2 = n2) ∧ st1.i1 ≤ n1 ∧ st1.i2 ≤ n2
      ∧ running_height s1 st1.i1 st1.h1 ∧ running_height s2 st1.i2 st1.h2 := by
  induction fuel with
  | zero =>
    intro st hi1 hi2 hfuel _ _ _ _ _ hr1 hr2
    have hdone : ¬ (st.i1 < n1 ∧ st.i2 < n2) := by omega
    exact ⟨st, merge_loop_done _ _ _ _ _ _ _ hdone, by omega, hi1, hi2, hr1, hr2⟩
  | succ f ih =>
    intro st hi1 hi2 hfuel hob hs1 hs2 he1 he2 hr1 hr2
    by_cases hc : st.i1 < n1 ∧ st.i2 < n2
    · have hl1 : in_bounds (p1.add st.i1) := in_bounds_add p1 _ hp1 (by omega) (by omega)
      have hl2 : in_bounds (p2.add st.i2) := in_bounds_add p2 _ hp2 (by omega) (by omega)
      have hstep := merge_loop_step p1 n1 p2 n2 out f st hc hl1 hl2
      have hy1 : (s1.getD st.i1 (0, 0)).2 = (st.mem (p1.add st.i1)).2 := by
        rw [← he1, getD_read_rows _ _ _ _ hc.1]
      have hy2 : (s2.getD st.i2 (0, 0)).2 = (st.mem (p2.add st.i2)).2 := by
        rw [← he2, getD_read_rows _ _ _ _ hc.2]
      obtain ⟨mem1, hadd, _, hframe⟩ :=
        skyline_add_key_point_rows st.mem out st.skyline_size
          (if (st.mem (p2.add st.i2)).1 ≤ (st.mem (p1.add st.i1)).1
            then (st.mem (p2.add st.i2)).1 else (st.mem (p1.add st.i1)).1)
          (int_max
            (if (st.mem (p1.add st.i1)).1 ≤ (st.mem (p2.add st.i2)).1
              then (st.mem (p1.add st.i1)).2 else st.h1)
            (if (st.mem (p2.add st.i2)).1 ≤ (st.mem (p1.add st.i1)).1
              then (st.mem (p2.add st.i2)).2 else st.h2)) hout (by omega)
      have hlen := add_point_length (read_rows st.mem out st.skyline_size)
          (if (st.mem (p2.add st.i2)).1 ≤ (st.mem (p1.add st.i1)).1
            then (st.mem (p2.add st.i2)).1 else (st.mem (p1.add st.i1)).1)
          (int_max
            (if (st.mem (p1.add st.i1)).1 ≤ (st.mem (p2.add st.i2)).1
              then (st.mem (p1.add st.i1)).2 else st.h1)
            (if (st.mem (p2.add st.i2)).1 ≤ (st.mem (p1.add st.i1)).1
              then (st.mem (p2.add st.i2)).2 else st.h2))
      rw [read_rows_length] at hlen
      have hsame1 : read_rows mem1 p1 n1 = s1 := by
        rw [← he1]
        apply read_rows_congr
        intro a ha
        exact hframe _ (hs1 a st.skyline_size ha (by omega) (by omega))
      have hsame2 : read_rows mem1 p2 n2 = s2 := by
        rw [← he2]
        apply read_rows_congr
        intro a ha
        exact hframe _ (hs2 a st.skyline_size ha (by omega) (by omega))
      rw [hstep, hadd]
      simp only [Except.bind]
      by_cases c1 : (st.mem (p1.add st.i1)).1 ≤ (st.mem (p2.add st.i2)).1 <;>
        by_cases c2 : (st.mem (p2.add st.i2)).1 ≤ (st.mem (p1.add st.i1)).1
      · simp only [c1, c2, if_true] at hlen ⊢
        exact ih _ (by simp only; omega) (by simp only; omega) (by simp only; omega)
          (by simp only; omega)
          (fun a b ha hb1 hb2 => hs1 a b ha (by simp only at hb1; omega)
            (by simp only at hb2; omega))
          (fun a b ha hb1 hb2 => hs2 a b ha (by simp only at hb1; omega)
            (by simp only at hb2; omega))
          hsame1 hsame2 (Or.inr ⟨st.i1, rfl, hy1⟩) (Or.inr ⟨st.i2, rfl, hy2⟩)
      · simp only [c1, c2, if_true, if_false] at hlen ⊢
        exact ih _ (by simp only; omega) (by simp only; omega) (by simp only; omega)
          (by simp only; omega)
          (fun a b ha hb1 hb2 => hs1 a b ha (by simp only at hb1; omega)
            (by simp only at hb2; omega))
          (fun a b ha hb1 hb2 => hs2 a b ha (by simp only at hb1; omega)
            (by simp only at hb2; omega))
          hsame1 hsame2 (Or.inr ⟨st.i1, rfl, hy1⟩) hr2
      · simp only [c1, c2, if_true, if_false] at hlen ⊢
        exact ih _ (by simp only; omega) (by simp only; omega) (by simp only; omega)
          (by simp only; omega)
          (fun a b ha hb1 hb2 => hs1 a b ha (by simp only at hb1; omega)
            (by simp only at hb2; omega))
          (fun a b ha hb1 hb2 => hs2 a b ha (by simp only at hb1; omega)
            (by simp only at hb2; omega))
          hsame1 hsame2 hr1 (Or.inr ⟨st.i2, rfl, hy2⟩)
      · omega
    · exact ⟨st, merge_loop_done _ _ _ _ _ _ _ hc, by omega, hi1, hi2, hr1, hr2⟩

theorem running_height_exhausted (s : List Row) (h : Int)
    (hlast : ∀ q, s.getLast? = some q → q.2 = 0) (hr : running_height s s.length h) :
    h = 0 := by
  rcases hr with ⟨_, h0⟩ | ⟨j, hj, hh⟩
  · exact h0
  · rw [← hh]
    apply hlast
    rw [List.getLast?_eq_getElem?, hj, List.getD_eq_getElem?_getD]
    have hlt : j < s.length := by omega
    simp [List.getElem?_eq_getElem hlt]

theorem add_point_cons (p : Row) (t : List Row) (x y : Int) :
    ∃ t1, add_point (p :: t) x y = p :: t1 := by
  rcases add_point_cases (p :: t) x y with ⟨h, _⟩ | ⟨h, _⟩
  · exact ⟨t, h⟩
  · exact ⟨t ++ [(x, y)], by rw [h]; rfl⟩

theorem drain_list_head (s : List Row) : ∀ (p : Row) (t : List Row),
    ∃ t1, drain_list s (p :: t) = p :: t1 := by
  induction s with
  | nil => intro p t; exact ⟨t, rfl⟩
  | cons a s ih =>
    intro p t
    obtain ⟨t1, h1⟩ := add_point_cons p t a.1 a.2
    rw [drain_list_cons, h1]
    exact ih p t1

/-- The sweep only appends: the first row of a non-empty output stays the first row. -/
theorem merge_list_head (fuel : Nat) : ∀ (s1 s2 : List Row) (h1 h2 : Int) (p : Row)
    (t : List Row), ∃ t1, merge_list fuel s1 s2 h1 h2 (p :: t) = p :: t1 := by
  induction fuel with
  | zero =>
    intro s1 s2 h1 h2 p t
    cases s1 with
    | nil => rw [merge_list_nil_left]; exact drain_list_head s2 p t
    | cons p1 t1 =>
      cases s2 with
      | nil => rw [merge_list_nil_right]; exact drain_list_head _ p t
      | cons p2 t2 => exact ⟨t, by simp [merge_list]⟩
  | succ f ih =>
    intro s1 s2 h1 h2 p t
    cases s1 with
    | nil => rw [merge_list_nil_left]; exact drain_list_head s2 p t
    | cons p1 t1 =>
      cases s2 with
      | nil => rw [merge_list_nil_right]; exact drain_list_head _ p t
      | cons p2 t2 =>
        simp only [merge_list]
        split
        · obtain ⟨t1', e⟩ := add_point_cons p t p1.1 (int_max p1.2 h2)
          rw [e]
          exact ih _ _ _ _ p t1'
        · split
          · obtain ⟨t1', e⟩ := add_point_cons p t p2.1 (int_max h1 p2.2)
            rw [e]
            exact ih _ _ _ _ p t1'
          · obtain ⟨t1', e⟩ := add_point_cons p t p2.1 (int_max p1.2 p2.2)
            rw [e]
            exact ih _ _ _ _ p t1'

/-- Merging two skylines that start with a positive height gives a skyline that starts
with a positive height. -/
theorem merge_rows_head_pos (p1 p2 : Row) (t1 t2 : List Row) (h1 : 0 < p1.2) (h2 : 0 < p2.2) :
    ∃ p t, merge_rows (p1 :: t1) (p2 :: t2) [] = p :: t ∧ 0 < p.2 := by
  have hfuel : (p1 :: t1).length + (p2 :: t2).length = (t1.length + t2.length + 1) + 1 := by
    simp only [List.length_cons]
    omega
  have hadd : ∀ x y : Int, add_point [] x y = [(x, y)] := fun x y => rfl
  rw [merge_rows, hfuel]
  simp only [merge_list, hadd]
  split
  · obtain ⟨t, e⟩ := merge_list_head (t1.length + t2.length + 1) t1 (p2 :: t2) p1.2 0
      (p1.1, int_max p1.2 0) []
    exact ⟨_, t, e, by rw [int_max_eq_max]; simp only; omega⟩
  · split
    · obtain ⟨t, e⟩ := merge_list_head (t1.length + t2.length + 1) (p1 :: t1) t2 0 p2.2
        (p2.1, int_max 0 p2.2) []
      exact ⟨_, t, e, by rw [int_max_eq_max]; simp only; omega⟩
    · obtain ⟨t, e⟩ := merge_list_head (t1.length + t2.length + 1) t1 t2 p1.2 p2.2
        (p2.1, int_max p1.2 p2.2) []
      exact ⟨_, t, e, by rw [int_max_eq_max]; simp only; omega⟩

/-- The rows `get_skyline` writes for a range of valid buildings start with a key point of
positive height. -/
theorem skyline_rows_head_pos (bs : List Building) (hv : ∀ b ∈ bs, valid_building b)
    (fuel : Nat) : ∀ (l r : Int), 0 ≤ l → l ≤ r → r < bs.length → r - l + 1 ≤ fuel →
    ∃ p t, skyline_rows bs fuel l r = p :: t ∧ 0 < p.2 := by
  induction fuel with
  | zero => intro l r h0 hlr hr hf; omega
  | succ f ih =>
    intro l r h0 hlr hr hf
    by_cases heq : l = r
    · subst heq
      have hidx : l.toNat < bs.length := by omega
      obtain ⟨b, hget⟩ : ∃ b, bs.get? l.toNat = some b := ⟨_, List.get?_eq_get hidx⟩
      have hget' : bs[l.toNat]? = some b := by simpa using hget
      have hb : valid_building b := hv b (List.get?_mem hget)
      have hsr : skyline_rows bs (f + 1) l l = [(b.1, b.2.2), (b.2.1, 0)] := by
        rw [← leaf_rows b hb]
        simp [skyline_rows, hget']
      exact ⟨_, _, hsr, hb.2⟩
    · have hlt : l < r := by omega
      have hsr : skyline_rows bs (f + 1) l r
          = merge_rows (skyline_rows bs f l (l + (r - l) / 2))
              (skyline_rows bs f (l + (r - l) / 2 + 1) r) [] := by
        rw [skyline_rows]
        simp [heq, hlt]
      obtain ⟨p1, t1, e1, q1⟩ := ih l (l + (r - l) / 2) h0 (by omega) (by omega) (by omega)
      obtain ⟨p2, t2, e2, q2⟩ := ih (l + (r - l) / 2 + 1) r (by omega) (by omega) hr
        (by omega)
      rw [hsr, e1, e2]
      exact merge_rows_head_pos p1 p2 t1 t2 q1 q2

/-- The rows `get_skyline` writes for a range of valid buildings end with a key point of
height `0`. -/
theorem skyline_rows_last_zero (bs : List Building) (hv : ∀ b ∈ bs, valid_building b)
    (fuel : Nat) (l r : Int) (h0 : 0 ≤ l) (hlr : l ≤ r) (hr : r < bs.length)
    (hf : r - l + 1 ≤ fuel) :
    ∀ q, (skyline_rows bs fuel l r).getLast? = some q → q.2 = 0 := by
  obtain ⟨hinc, hsem⟩ := skyline_rows_sem bs hv fuel l r h0 hlr hr hf
  exact last_zero_of_sem _ hinc _ hsem (max_cover_far_right _)

/-- C16: for a call `get_skyline(l, r)` with `l ≤ r` over buildings that all have
`left < right` and `height > 0`, the skyline written into an empty output is non-empty, its
first key point has height `> 0` and its final key point has height `0`; and for `l < r`
the `while` loop of the merge of the two children's skylines ends with one side exhausted,
and the running height (`h1` or `h2`) of every exhausted side is `0`. -/
theorem get_skyline_ends_at_zero (buildings : List Building) (f : Nat) (l r : Int) (mem : Mem)
    (skyline : Ptr) (buf_id : Int) (hc : valid_call buildings (f + 1) l r skyline buf_id)
    (hv : ∀ b ∈ buildings, valid_building b) :
    (∃ (m1 : Mem) (k : Nat) (p : Row) (t : List Row),
      get_skyline buildings ⟨1, 0⟩ ⟨2, 0⟩ (f + 1) l r mem skyline 0 buf_id = .ok (m1, k)
      ∧ read_rows m1 skyline k = p :: t ∧ 0 < p.2
      ∧ ∀ q, (p :: t).getLast? = some q → q.2 = 0)
    ∧ (l < r → ∃ (ma mb : Mem) (k1 k2 : Nat) (st : MergeState),
        get_skyline buildings ⟨1, 0⟩ ⟨2, 0⟩ f l (l + Int.tdiv (r - l) 2) mem
            (get_the_other_buf ⟨1, 0⟩ ⟨2, 0⟩ skyline buf_id).1 0
            (get_the_other_buf ⟨1, 0⟩ ⟨2, 0⟩ skyline buf_id).2 = .ok (ma, k1)
        ∧ get_skyline buildings ⟨1, 0⟩ ⟨2, 0⟩ f (l + Int.tdiv (r - l) 2 + 1) r ma
            ((get_the_other_buf ⟨1, 0⟩ ⟨2, 0⟩ skyline buf_id).1.add
              (2 * (l + Int.tdiv (r - l) 2 - l + 1))) 0
            (get_the_other_buf ⟨1, 0⟩ ⟨2, 0⟩ skyline buf_id).2 = .ok (mb, k2)
        ∧ merge_loop (get_the_other_buf ⟨1, 0⟩ ⟨2, 0⟩ skyline buf_id).1 k1
            ((get_the_other_buf ⟨1, 0⟩ ⟨2, 0⟩ skyline buf_id).1.add
              (2 * (l + Int.tdiv (r - l) 2 - l + 1))) k2 skyline (k1 + k2)
            ⟨mb, 0, 0, 0, 0, 0⟩ = .ok st
        ∧ (st.i1 = k1 ∨ st.i2 = k2)
        ∧ (st.i1 = k1 → st.h1 = 0) ∧ (st.i2 = k2 → st.h2 = 0)) := by
  constructor
  · obtain ⟨m1, hrun, hrows, _⟩ := get_skyline_rows buildings (f + 1) l r mem skyline buf_id
      hc.lo hc.le hc.hi hc.fuel_ok hc.id_ok hc.buf_ok hc.off_ok hc.fit
    obtain ⟨p, t, e, hp⟩ := skyline_rows_head_pos buildings hv (f + 1) l r hc.lo hc.le hc.hi
      hc.fuel_ok
    have hlast := skyline_rows_last_zero buildings hv (f + 1) l r hc.lo hc.le hc.hi hc.fuel_ok
    rw [e] at hrun hrows hlast
    exact ⟨m1, _, p, t, hrun, hrows, hp, hlast⟩
  · intro hlt
    have hdiv : Int.tdiv (r - l) 2 = (r - l) / 2 :=
      Int.tdiv_eq_ediv (by omega) (by omega)
    rw [hdiv]
    obtain ⟨c1, c2, hbuf, hoff⟩ := valid_call_children buildings f l r skyline buf_id hc hlt
      _ rfl _ rfl
    obtain ⟨m1, m2, m3, hl, hr, _, _, _, hk1, hk2, _, _⟩ :=
      get_skyline_node buildings f l r mem skyline buf_id hc hlt _ rfl _ rfl
    have hl1 := skyline_rows_length buildings f l (l + (r - l) / 2) c1.le
    have hl2 := skyline_rows_length buildings f (l + (r - l) / 2 + 1) r c2.le
    have hz1 := skyline_rows_last_zero buildings hv f l (l + (r - l) / 2) c1.lo c1.le c1.hi
      c1.fuel_ok
    have hz2 := skyline_rows_last_zero buildings hv f (l + (r - l) / 2 + 1) r c2.lo c2.le c2.hi
      c2.fuel_ok
    have hfit := hc.fit
    have hfit1 := c1.fit
    have hfit2 := c2.fit
    have hid := c1.id_ok
    have hb1 := c1.buf_ok
    have hb2 := c2.buf_ok
    have hoff2 := c2.off_ok
    have hoffs := hc.off_ok
    have hids := hc.id_ok
    have hbs := hc.buf_ok
    obtain ⟨st, hloop, hex, hle1, hle2, hr1, hr2⟩ := merge_loop_final
      (get_the_other_buf ⟨1, 0⟩ ⟨2, 0⟩ skyline buf_id).1
      ((get_the_other_buf ⟨1, 0⟩ ⟨2, 0⟩ skyline buf_id).1.add
        (2 * (l + (r - l) / 2 - l + 1))) skyline
      (skyline_rows buildings f l (l + (r - l) / 2)).length
      (skyline_rows buildings f (l + (r - l) / 2 + 1) r).length
      ⟨by omega, by omega⟩ ⟨by simp only [Ptr.add]; omega, hoff2⟩ ⟨by omega, hoffs⟩
      (by omega) (by omega) _ _
      ((skyline_rows buildings f l (l + (r - l) / 2)).length
        + (skyline_rows buildings f (l + (r - l) / 2 + 1) r).length)
      ⟨m2, 0, 0, 0, 0, 0⟩ (Nat.zero_le _) (Nat.zero_le _) (by simp) (by simp only; omega)
      (fun a b _ _ _ h => hbuf (by simpa [Ptr.add] using congrArg Ptr.buf h))
      (fun a b _ _ _ h => hbuf (by simpa [Ptr.add] using congrArg Ptr.buf h))
      hk1 hk2 (Or.inl ⟨rfl, rfl⟩) (Or.inl ⟨rfl, rfl⟩)
    refine ⟨m1, m2, _, _, st, hl, hr, hloop, hex, fun h => ?_, fun h => ?_⟩
    · rw [h] at hr1
      exact running_height_exhausted _ _ hz1 hr1
    · rw [h] at hr2
      exact running_height_exhausted _ _ hz2 hr2

theorem get_skyline_ends_at_zero_witness :
    ∃ (m1 : Mem) (k : Nat) (p : Row) (t : List Row),
      get_skyline [(1, 3, 3), (5, 7, 4)] ⟨1, 0⟩ ⟨2, 0⟩ 3 0 1 zero_mem ⟨1, 0⟩ 0 1 = .ok (m1, k)
      ∧ read_rows m1 ⟨1, 0⟩ k = p :: t ∧ 0 < p.2
      ∧ ∀ q, (p :: t).getLast? = some q → q.2 = 0 :=
  (get_skyline_ends_at_zero [(1, 3, 3), (5, 7, 4)] 2 0 1 zero_mem ⟨1, 0⟩ 1
    ⟨by decide, by decide, by decide, by decide, by decide, by decide, by decide, by decide⟩
    (by decide)).1

/-! ## A step function has one skyline -/

theorem canonical_tail (h : Int) (p : Row) (s : List Row) (hc : canonical h (p :: s)) :
    canonical p.2 s ∧ ∀ q ∈ s, p.1 < q.1 := by
  obtain ⟨hinc, hnr, _⟩ := hc
  obtain ⟨ht, hgt⟩ := increasing_x_tail p s hinc
  unfold no_repeat at hnr
  rw [List.chain'_cons'] at hnr
  exact ⟨⟨ht, hnr.2, fun q hq => (hnr.1 q hq).symm⟩, hgt⟩

theorem level_head (h : Int) (p : Row) (s : List Row) (hgt : ∀ q ∈ s, p.1 < q.1) :
    level h (p :: s) p.1 = p.2 := by
  rw [level_cons, if_pos (le_refl _), level_of_all_gt s p.1 hgt]

/-- Two canonical skylines with the same step function are the same list of key points. -/
theorem canonical_ext (s : List Row) : ∀ (t : List Row) (h : Int),
    canonical h s → canonical h t → (∀ x, level h s x = level h t x) → s = t := by
  induction s with
  | nil =>
    intro t h _ ht hlev
    cases t with
    | nil => rfl
    | cons q t =>
      obtain ⟨_, hgt⟩ := canonical_tail h q t ht
      have e := hlev q.1
      rw [level_head h q t hgt] at e
      exact absurd e.symm (ht.2.2 q rfl)
  | cons p s ih =>
    intro t h hs ht hlev
    obtain ⟨cs, gs⟩ := canonical_tail h p s hs
    cases t with
    | nil =>
      have e := hlev p.1
      rw [level_head h p s gs] at e
      exact absurd e (hs.2.2 p rfl)
    | cons q t =>
      obtain ⟨ct, gt⟩ := canonical_tail h q t ht
      have hx : p.1 = q.1 := by
        rcases lt_trichotomy p.1 q.1 with hlt | heq | hgt
        · have e := hlev p.1
          rw [level_head h p s gs,
            level_of_all_gt (q :: t) p.1 (all_gt_cons q t ht.1 p.1 hlt)] at e
          exact absurd e (hs.2.2 p rfl)
        · exact heq
        · have e := hlev q.1
          rw [level_head h q t gt,
            level_of_all_gt (p :: s) q.1 (all_gt_cons p s hs.1 q.1 hgt)] at e
          exact absurd e.symm (ht.2.2 q rfl)
      have hy : p.2 = q.2 := by
        have e := hlev p.1
        rw [level_head h p s gs] at e
        rw [hx, level_head h q t gt] at e
        exact e
      have hpq : p = q := Prod.ext hx hy
      subst hpq
      congr 1
      apply ih t p.2 cs ct
      intro x
      by_cases hxp : p.1 ≤ x
      · have e := hlev x
        rw [level_cons, level_cons, if_pos hxp] at e
        exact e
      · rw [level_of_all_gt s x (fun q hq => by have := gs q hq; omega),
          level_of_all_gt t x (fun q hq => by have := gt q hq; omega)]

theorem foldr_max_perm (a b : List Int) (h : a.Perm b) : a.foldr max 0 = b.foldr max 0 := by
  induction h with
  | nil => rfl
  | cons x _ ih => simp only [List.foldr_cons, ih]
  | swap x y l =>
    simp only [List.foldr_cons]
    omega
  | trans _ _ ih1 ih2 => rw [ih1, ih2]

/-- The upper contour does not depend on the order of the buildings. -/
theorem max_cover_perm (a b : List Building) (ha : ∀ c ∈ a, valid_building c)
    (h : a.Perm b) (x : Int) : max_cover a x = max_cover b x := by
  have hb : ∀ c ∈ b, valid_building c := fun c hc => ha c (h.mem_iff.mpr hc)
  rw [max_cover_eq_foldr a ha, max_cover_eq_foldr b hb]
  exact foldr_max_perm _ _ ((h.filter _).map _)

/-- The skyline of a non-empty list of valid buildings is canonical. -/
theorem skyline_of_canonical (bs : List Building) (hne : 1 ≤ bs.length)
    (hv : ∀ b ∈ bs, valid_building b) : canonical 0 (skyline_of bs) := by
  obtain ⟨hinc, hnr, _⟩ := skyline_of_sem bs hne hv
  obtain ⟨p, t, e, hp⟩ := skyline_rows_head_pos bs hv (bs.length + 1) 0
    ((bs.length : Int) - 1) (le_refl _) (by omega) (by omega) (by push_cast; omega)
  refine ⟨hinc, hnr, fun q hq => ?_⟩
  rw [skyline_of, e] at hq
  have : q = p := (Option.some.inj hq).symm
  subst this
  omega

theorem skyline_of_perm (a b : List Building) (hne : 1 ≤ a.length)
    (ha : ∀ c ∈ a, valid_building c) (h : a.Perm b) : skyline_of a = skyline_of b := by
  have hb : ∀ c ∈ b, valid_building c := fun c hc => ha c (h.mem_iff.mpr hc)
  have hlen : 1 ≤ b.length := by rw [← h.length_eq]; exact hne
  apply canonical_ext _ _ 0 (skyline_of_canonical a hne ha) (skyline_of_canonical b hlen hb)
  intro x
  rw [← height_at_eq_level, ← height_at_eq_level, (skyline_of_sem a hne ha).2.2 x,
    (skyline_of_sem b hlen hb).2.2 x]
  exact max_cover_perm a b ha h x

/-- C17: for a building list of length `n` with `1 ≤ n ≤ 512` in which every building has
`left < right` and `height > 0` (sorted by left or not) and every permutation of it,
`getSkyline` succeeds on both, from any initial contents of the buffers, and returns the
same skyline: the result does not depend on the order of the buildings. -/
theorem getSkyline_perm (buildings buildings' : List Building) (n : Int) (mem mem' : Mem)
    (hn : n = buildings.length) (h1 : 1 ≤ n) (h512 : n ≤ 512)
    (hv : ∀ b ∈ buildings, valid_building b) (hperm : buildings.Perm buildings') :
    ∃ res, getSkyline buildings n mem = .ok res ∧ getSkyline buildings' n mem' = .ok res := by
  have hn' : n = buildings'.length := by rw [← hperm.length_eq]; exact hn
  refine ⟨_, getSkyline_eq buildings n mem hn h1 h512, ?_⟩
  rw [getSkyline_eq buildings' n mem' hn' h1 h512,
    skyline_of_perm buildings buildings' (by omega) hv hperm]

theorem getSkyline_perm_witness :
    ∃ res, getSkyline [(1, 3, 3), (5, 7, 4)] 2 zero_mem = .ok res
      ∧ getSkyline [(5, 7, 4), (1, 3, 3)] 2 one_skyline_mem = .ok res :=
  getSkyline_perm [(1, 3, 3), (5, 7, 4)] [(5, 7, 4), (1, 3, 3)] 2 zero_mem one_skyline_mem
    (by decide) (by decide) (by decide) (by decide) (List.Perm.swap _ _ _)

/-! ## `remove_duplicates`: how many copies are kept -/

theorem keep_two_step_length (acc : List Int) (v : Int) :
    acc.length ≤ (keep_two_step acc v).length
    ∧ (keep_two_step acc v).length ≤ acc.length + 1 := by
  unfold keep_two_step
  split <;> simp

theorem keep_two_fold_length (rest : List Int) : ∀ acc : List Int,
    acc.length ≤ (rest.foldl keep_two_step acc).length
    ∧ (rest.foldl keep_two_step acc).length ≤ acc.length + rest.length := by
  induction rest with
  | nil => intro acc; simp
  | cons v t ih =>
    intro acc
    have h1 := keep_two_step_length acc v
    have h2 := ih (keep_two_step acc v)
    simp only [List.foldl_cons, List.length_cons]
    omega

theorem keep_two_length (nums : List Int) :
    min nums.length 2 ≤ (keep_two nums).length ∧ (keep_two nums).length ≤ nums.length := by
  have h := keep_two_fold_length (nums.drop 2) (nums.take 2)
  rw [List.length_take, List.length_drop] at h
  unfold keep_two
  omega

theorem keep_two_fold_sublist (rest : List Int) : ∀ acc done : List Int,
    acc.Sublist done → (rest.foldl keep_two_step acc).Sublist (done ++ rest) := by
  induction rest with
  | nil => intro acc done h; simpa using h
  | cons v t ih =>
    intro acc done h
    have hstep : (keep_two_step acc v).Sublist (done ++ [v]) := by
      unfold keep_two_step
      split
      · exact h.append (List.Sublist.refl _)
      · exact h.trans (List.sublist_append_left _ _)
    have := ih _ _ hstep
    simpa using this

theorem keep_two_sublist (nums : List Int) : (keep_two nums).Sublist nums := by
  have := keep_two_fold_sublist (nums.drop 2) (nums.take 2) (nums.take 2)
    (List.Sublist.refl _)
  rwa [List.take_append_drop] at this

/-- In a non-decreasing list of length `≥ 2` whose values are all `≤ w`, the value two
places before the end is `< w` exactly when `w` occurs fewer than twice. -/
theorem two_back_lt_iff (acc : List Int) (w : Int) (hs : non_decreasing acc)
    (hle : ∀ a ∈ acc, a ≤ w) (hlen : 2 ≤ acc.length) :
    acc.getD (acc.length - 2) 0 < w ↔ acc.count w < 2 := by
  rcases List.eq_nil_or_concat acc with h | ⟨l, b, h⟩
  · subst h
    simp at hlen
  rcases List.eq_nil_or_concat l with h' | ⟨front, a, h'⟩
  · subst h'
    subst h
    simp at hlen
  rw [List.concat_eq_append] at h h'
  subst h'
  subst h
  have hidx : ((front ++ [a]) ++ [b]).length - 2 = front.length := by simp
  have hget : ((front ++ [a]) ++ [b]).getD front.length 0 = a := by
    rw [List.getD_append _ _ _ _ (by simp), List.getD_append_right _ _ _ _ (le_refl _)]
    simp
  unfold non_decreasing at hs
  rw [List.pairwise_append, List.pairwise_append] at hs
  have hfa : ∀ x ∈ front, x ≤ a := fun x hx => hs.1.2.2 x hx a (List.mem_singleton_self a)
  have hab : a ≤ b := hs.2.2 a (by simp) b (List.mem_singleton_self b)
  have ha : a ≤ w := hle a (by simp)
  have hb : b ≤ w := hle b (by simp)
  rw [hidx, hget, List.count_append, List.count_append, List.count_singleton,
    List.count_singleton]
  constructor
  · intro hlt
    have h0 : front.count w = 0 := by
      rw [List.count_eq_zero]
      intro hw
      have := hfa w hw
      omega
    have ha' : ¬ (a == w) = true := by simp; omega
    rw [h0, if_neg ha']
    split <;> omega
  · intro hcount
    by_contra hge
    have e1 : a = w := by omega
    have e2 : b = w := by omega
    subst e1
    subst e2
    simp at hcount
    omega

theorem keep_two_fold_count (rest : List Int) : ∀ acc done : List Int,
    non_decreasing (done ++ rest) → non_decreasing acc → (∀ a ∈ acc, a ∈ done) →
    2 ≤ acc.length → (∀ v, acc.count v = min (done.count v) 2) →
    ∀ v, (rest.foldl keep_two_step acc).count v = min ((done ++ rest).count v) 2 := by
  induction rest with
  | nil => intro acc done _ _ _ _ h v; simpa using h v
  | cons w t ih =>
    intro acc done hs ha hmem hlen hcount v
    have hs' := hs
    unfold non_decreasing at hs'
    rw [List.pairwise_append] at hs'
    have hle : ∀ a ∈ acc, a ≤ w :=
      fun a h => hs'.2.2 a (hmem a h) w (List.mem_cons_self _ _)
    have hiff := two_back_lt_iff acc w ha hle hlen
    have hnext : non_decreasing ((done ++ [w]) ++ t) := by simpa using hs
    have key : ∀ acc1 : List Int, non_decreasing acc1 → (∀ a ∈ acc1, a ∈ done ++ [w]) →
        2 ≤ acc1.length → (∀ v, acc1.count v = min ((done ++ [w]).count v) 2) →
        (t.foldl keep_two_step acc1).count v = min ((done ++ w :: t).count v) 2 := by
      intro acc1 h1 h2 h3 h4
      have := ih acc1 (done ++ [w]) hnext h1 h2 h3 h4 v
      simpa using this
    rw [List.foldl_cons]
    by_cases hacc : acc.getD (acc.length - 2) 0 < w
    · have hstep : keep_two_step acc w = acc ++ [w] := by rw [keep_two_step, if_pos hacc]
      rw [hstep]
      apply key
      · unfold non_decreasing at ha ⊢
        rw [List.pairwise_append]
        refine ⟨ha, List.pairwise_singleton _ _, fun a h b hb => ?_⟩
        rw [List.mem_singleton.mp hb]
        exact hle a h
      · intro a h
        rcases List.mem_append.mp h with h | h
        · exact List.mem_append_left _ (hmem a h)
        · exact List.mem_append_right _ h
      · simp only [List.length_append, List.length_singleton]; omega
      · intro u
        have hc := hcount u
        have hw := hiff.mp hacc
        rw [List.count_append, List.count_append, List.count_singleton]
        by_cases huw : (w == u) = true
        · have e : w = u := by simpa using huw
          subst e
          rw [if_pos huw]
          omega
        · rw [if_neg huw]
          omega
    · have hstep : keep_two_step acc w = acc := by rw [keep_two_step, if_neg hacc]
      rw [hstep]
      apply key _ ha (fun a h => List.mem_append_left _ (hmem a h)) hlen
      intro u
      have hc := hcount u
      have hw : ¬ acc.count w < 2 := fun h => hacc (hiff.mpr h)
      rw [List.count_append, List.count_singleton]
      by_cases huw : (w == u) = true
      · have e : w = u := by simpa using huw
        subst e
        rw [if_pos huw]
        omega
      · rw [if_neg huw]
        omega

theorem keep_two_count (nums : List Int) (hs : non_decreasing nums) (v : Int) :
    (keep_two nums).count v = min (nums.count v) 2 := by
  by_cases hlen : nums.length ≤ 2
  · have h1 : nums.drop 2 = [] := List.drop_eq_nil_of_le hlen
    have h2 : nums.take 2 = nums := List.take_of_length_le hlen
    have hc := List.count_le_length v nums
    rw [keep_two, h1, h2, List.foldl_nil]
    omega
  · have hsplit : non_decreasing (nums.take 2 ++ nums.drop 2) := by
      rw [List.take_append_drop]; exact hs
    have hs2 := hsplit
    unfold non_decreasing at hs2
    rw [List.pairwise_append] at hs2
    have := keep_two_fold_count (nums.drop 2) (nums.take 2) (nums.take 2) hsplit hs2.1
      (fun a h => h) (by rw [List.length_take]; omega)
      (fun u => by
        have hc := List.count_le_length u (nums.take 2)
        rw [List.length_take] at hc
        omega) v
    rwa [List.take_append_drop] at this

/-- C19: for a non-decreasing integer array `nums` of length `n ≥ 0`, `remove_duplicates`
succeeds with every read and write inside the array; it returns `k` with
`min(n, 2) ≤ k ≤ n`, and afterwards `nums[0..k)` is a subsequence of the original array, in
the original order, in which every value `v` occurs `min(count(v), 2)` times. -/
theorem remove_duplicates_at_most_twice (nums : List Int) (hs : non_decreasing nums) :
    ∃ (out : List Int) (k : Nat),
      remove_duplicates nums nums.length = .ok (out, (k : Int))
      ∧ min nums.length 2 ≤ k ∧ k ≤ nums.length ∧ out.length = nums.length
      ∧ (out.take k).Sublist nums
      ∧ ∀ v, (out.take k).count v = min (nums.count v) 2 := by
  obtain ⟨out, hrun, hlen, htake⟩ := remove_duplicates_eq nums
  have hk := keep_two_length nums
  refine ⟨out, (keep_two nums).length, hrun, hk.1, hk.2, hlen, ?_, fun v => ?_⟩
  · rw [htake]; exact keep_two_sublist nums
  · rw [htake]; exact keep_two_count nums hs v

theorem remove_duplicates_at_most_twice_witness :
    non_decreasing [1, 1, 1, 2, 2, 3]
    ∧ ∃ (out : List Int) (k : Nat),
      remove_duplicates [1, 1, 1, 2, 2, 3] ([1, 1, 1, 2, 2, 3] : List Int).length
        = .ok (out, (k : Int))
      ∧ min ([1, 1, 1, 2, 2, 3] : List Int).length 2 ≤ k
      ∧ k ≤ ([1, 1, 1, 2, 2, 3] : List Int).length
      ∧ out.length = ([1, 1, 1, 2, 2, 3] : List Int).length
      ∧ (out.take k).Sublist [1, 1, 1, 2, 2, 3]
      ∧ ∀ v, (out.take k).count v = min (([1, 1, 1, 2, 2, 3] : List Int).count v) 2 :=
  ⟨by decide, remove_duplicates_at_most_twice [1, 1, 1, 2, 2, 3] (by decide)⟩


end Minic
